import Mathlib

/-!
Verification development for the emolang repository: a shallow embedding of
its tokenizer (src/lexer.rs), AST and pretty-printer (src/types/node.rs),
Pratt parser (src/parser.rs), runtime objects and environments
(src/types/object.rs) and tree-walking evaluator (src/evaluator.rs), together
with theorems settling the frozen claims about the specification.

Modelling conventions, stated once here:

* The language's surface symbols are emoji grapheme clusters; the Rust code
  scans the source after splitting it into grapheme clusters
  (`input.graphemes(true)`).  We model one grapheme cluster as a Lean
  `String` holding exactly that cluster's code points, and a source text as a
  `List String` of clusters.  Every glyph constant below is written with
  explicit code points and matches the arrays `RESERVED_SYMBOLS`, `DIGITALS`,
  `DOTS`, `SPACES` of src/lexer.rs.  Token literals, being source substrings,
  are modelled as grapheme lists (`List String`).

* Rust `i64` is modelled as `Int`; the division and remainder operators of
  Rust (`/` truncates toward zero, `%` keeps the sign of the dividend) are
  `Int.tdiv` and `Int.tmod`.  Rust's `/` and `%` panic when the right operand
  is zero (and on `i64::MIN / -1`); a panic aborts the evaluation, which the
  embedding records as the `none` case of an `Option`-wrapped result.
  Overflow of `+ - *` (which the claims never touch) is modelled as exact
  integer arithmetic.

* Rust `f64` is modelled as an exact fraction in lowest terms (the `F64`
  structure below).  All the float claims below evaluate decimal literals and
  exact comparisons where the rounding of binary floating point does not
  change any compared outcome; the IEEE special values (infinities, NaN) and
  rounding are outside this idealisation and no claim is settled through
  them.
-/

namespace Emo

/-! ## Tokens (src/lexer.rs, src/types/token.rs) -/

inductive TokenType where
  | Illegal | Start
  | Assign
  | Plus | Minus | Multiply | Divide | Modulo
  | Equal | NotEqual | GreaterThan | GreaterThanOrEqual | LessThan | LessThanOrEqual
  | And | Or | Not
  | Comma | Semicolon | LParenthesis | RParenthesis | LBracket | RBracket | LBrace | RBrace
  | Identifier
  | True | False
  | If | Else | While | Function | Return
  | Integer | Float | String
  deriving DecidableEq, Repr

/-- Grapheme cluster of the assignment arrow (left arrow emoji). -/
def gAssign : String := String.mk ['⬅', '\uFE0F']
/-- Grapheme cluster of the plus sign emoji. -/
def gPlus : String := String.mk ['➕']
/-- Grapheme cluster of the minus sign emoji. -/
def gMinus : String := String.mk ['➖']
/-- Grapheme cluster of the multiplication sign emoji. -/
def gMultiply : String := String.mk ['✖', '\uFE0F']
/-- Grapheme cluster of the division sign emoji. -/
def gDivide : String := String.mk ['➗']
/-- Grapheme cluster of the wavy dash (modulo) emoji. -/
def gModulo : String := String.mk ['〰', '\uFE0F']
/-- Grapheme cluster of the heavy equals sign emoji. -/
def gEqual : String := String.mk [Char.ofNat 0x1F7F0]
/-- Grapheme cluster of the play button (greater-than) emoji. -/
def gGreater : String := String.mk ['▶', '\uFE0F']
/-- Grapheme cluster of the reverse button (less-than) emoji. -/
def gLess : String := String.mk ['◀', '\uFE0F']
/-- Grapheme cluster of the repeat button (logical and) emoji. -/
def gAnd : String := String.mk [Char.ofNat 0x1F501]
/-- Grapheme cluster of the shuffle button (logical or) emoji. -/
def gOr : String := String.mk [Char.ofNat 0x1F500]
/-- Grapheme cluster of the pause button (logical not) emoji. -/
def gNot : String := String.mk ['⏸', '\uFE0F']
/-- Grapheme cluster of the down-left arrow (semicolon) emoji. -/
def gSemicolon : String := String.mk ['↙', '\uFE0F']
/-- Grapheme cluster of the foot (comma) emoji. -/
def gComma : String := String.mk [Char.ofNat 0x1F9B6]
/-- Grapheme cluster of the last-quarter-moon (left parenthesis) emoji. -/
def gLParen : String := String.mk [Char.ofNat 0x1F31C]
/-- Grapheme cluster of the first-quarter-moon (right parenthesis) emoji. -/
def gRParen : String := String.mk [Char.ofNat 0x1F31B]
/-- Grapheme cluster of the pointing-right (left bracket) emoji. -/
def gLBracket : String := String.mk [Char.ofNat 0x1F449]
/-- Grapheme cluster of the pointing-left (right bracket) emoji. -/
def gRBracket : String := String.mk [Char.ofNat 0x1F448]
/-- Grapheme cluster of the rightwards-pushing-hand (left brace) emoji. -/
def gLBrace : String := String.mk [Char.ofNat 0x1FAF8]
/-- Grapheme cluster of the leftwards-pushing-hand (right brace) emoji. -/
def gRBrace : String := String.mk [Char.ofNat 0x1FAF7]
/-- Grapheme cluster of the left-speech-bubble (string opening) emoji. -/
def gStringOpen : String := String.mk [Char.ofNat 0x1F5E8, '\uFE0F']
/-- Grapheme cluster of the speech-balloon (string closing) emoji. -/
def gStringClose : String := String.mk [Char.ofNat 0x1F4AC]
/-- Grapheme cluster of the check mark (boolean true) emoji. -/
def gTrue : String := String.mk ['✔', '\uFE0F']
/-- Grapheme cluster of the cross mark (boolean false) emoji. -/
def gFalse : String := String.mk ['❌']
/-- Grapheme cluster of the question mark (if keyword) emoji. -/
def gIf : String := String.mk ['❓']
/-- Grapheme cluster of the exclamation mark (else keyword, and first cluster
of the not-equal operator) emoji. -/
def gElse : String := String.mk ['❗']
/-- Grapheme cluster of the hollow red circle (while keyword) emoji. -/
def gWhile : String := String.mk ['⭕']
/-- Grapheme cluster of the name badge (function keyword) emoji. -/
def gFunction : String := String.mk [Char.ofNat 0x1F4DB]
/-- Grapheme cluster of the back arrow (return keyword) emoji. -/
def gReturn : String := String.mk [Char.ofNat 0x1F519]

/-- The digit keycap grapheme cluster for a digit character: the character
followed by the variation selector U+FE0F and the combining enclosing keycap
U+20E3, exactly as in the `DIGITALS` array of src/lexer.rs. -/
def keycap (c : Char) : String := String.mk [c, '\uFE0F', '\u20E3']

/-- The `RESERVED_SYMBOLS` array of src/lexer.rs (29 entries). -/
def RESERVED_SYMBOLS : List String :=
  [gAssign, gPlus, gMinus, gMultiply, gDivide, gModulo, gEqual, gGreater, gLess,
   gAnd, gOr, gNot, gSemicolon, gComma, gLParen, gRParen,
   gLBracket, gRBracket, gLBrace, gRBrace, gStringOpen, gStringClose,
   gTrue, gFalse, gIf, gElse, gWhile, gFunction, gReturn]

/-- The `DIGITALS` array of src/lexer.rs: the ten digit keycap clusters. -/
def DIGITALS : List String :=
  [keycap '0', keycap '1', keycap '2', keycap '3', keycap '4',
   keycap '5', keycap '6', keycap '7', keycap '8', keycap '9']

/-- The `DOTS` array of src/lexer.rs: the nine coloured-circle clusters
accepted as a decimal marker (white, black, brown, purple, blue, green,
yellow, orange, red). -/
def DOTS : List String :=
  [String.mk ['⚪'], String.mk ['⚫'],
   String.mk [Char.ofNat 0x1F7E4], String.mk [Char.ofNat 0x1F7E3],
   String.mk [Char.ofNat 0x1F535], String.mk [Char.ofNat 0x1F7E2],
   String.mk [Char.ofNat 0x1F7E1], String.mk [Char.ofNat 0x1F7E0],
   String.mk [Char.ofNat 0x1F534]]

/-- The white circle cluster, the first entry of `DOTS` (also the cluster the
pretty-printer emits for a decimal point). -/
def gDotWhite : String := String.mk ['⚪']

/-- The `SPACES` array of src/lexer.rs: space, tab, CR, LF and CRLF (CRLF is
a single grapheme cluster). -/
def SPACES : List String :=
  [" ", "\t", "\r", "\n", String.mk ['\r', '\n']]

/-- A token: its kind and the exact source substring (grapheme sequence) that
produced it, as in `struct Token` of src/lexer.rs. -/
structure Token where
  token_type : TokenType
  literal : List String
  deriving DecidableEq, Repr

/-- The start sentinel token (`Token::start()`). -/
def Token.start : Token := ⟨TokenType.Start, []⟩

/-! ## The float idealisation

Rust `f64` is idealised as an exact fraction in lowest terms.  (Every finite
`f64` is such a fraction; the IEEE special values and rounding are outside
the idealisation — see the header.)  A fraction in lowest terms is unique,
so Rust's float equality is the structural equality of this type.  A zero
denominator (reachable only through a float division by zero, which in Rust
produces an IEEE infinity or NaN, not a panic or error) is a sentinel no
claim relies on. -/

structure F64 where
  num : Int
  den : Nat
  deriving DecidableEq, Repr

/-- Build the fraction `n / d` in lowest terms. -/
def F64.norm (n : Int) (d : Nat) : F64 :=
  let g := n.natAbs.gcd d
  if g = 0 then ⟨0, 0⟩ else ⟨n.tdiv g, d / g⟩

/-- Build `n / d` for an integer denominator, moving the sign up. -/
def F64.normInt (n d : Int) : F64 :=
  if d < 0 then F64.norm (-n) (-d).toNat else F64.norm n d.toNat

/-- The `f64` value of an `i64` (`as f64`). -/
def F64.ofInt (v : Int) : F64 := ⟨v, 1⟩

/-- Float addition. -/
def F64.add (a b : F64) : F64 :=
  F64.norm (a.num * b.den + b.num * a.den) (a.den * b.den)

/-- Float negation. -/
def F64.neg (a : F64) : F64 := ⟨-a.num, a.den⟩

/-- Float subtraction. -/
def F64.sub (a b : F64) : F64 := F64.add a (F64.neg b)

/-- Float multiplication. -/
def F64.mul (a b : F64) : F64 := F64.norm (a.num * b.num) (a.den * b.den)

/-- Float division. -/
def F64.div (a b : F64) : F64 := F64.normInt (a.num * b.den) ((a.den : Int) * b.num)

/-- Truncation toward zero, the `f64::trunc` used by the float remainder. -/
def F64.trunc (a : F64) : Int := a.num.tdiv a.den

/-- Rust's float remainder `a % b = a - b * (a / b).trunc()`. -/
def F64.rem (a b : F64) : F64 :=
  F64.sub a (F64.mul b (F64.ofInt (F64.trunc (F64.div a b))))

/-- Float strict order, by cross multiplication. -/
def F64.blt (a b : F64) : Bool := decide (a.num * b.den < b.num * a.den)

/-- Float non-strict order. -/
def F64.ble (a b : F64) : Bool := decide (a.num * b.den ≤ b.num * a.den)

/-! ## Tokenizer (src/lexer.rs)

The Rust lexer walks a `StatefulVector` of grapheme clusters with a single
forward cursor (`to_next`) and one cluster of lookahead; every handler below
is the direct list-recursive form of the corresponding cursor loop, where the
function's list argument is the part of the input strictly after the cluster
currently under the cursor. -/

/-- Is this cluster legal inside an identifier (`is_identifier_char`):
not reserved, not a digit, not a decimal dot, not whitespace. -/
def is_identifier_char (c : String) : Bool :=
  !(RESERVED_SYMBOLS.contains c) && !(DIGITALS.contains c)
    && !(DOTS.contains c) && !(SPACES.contains c)

/-- One step of `handle_two_chars_token`: if the next cluster matches the
expected continuation the two clusters merge into one token of the compound
kind, otherwise the single cluster is emitted standalone.  Returns the token
and the input remaining after it. -/
def handle_two_chars_token (single : TokenType) (cur : String)
    (expected : String) (two : TokenType) :
    List String → Token × List String
  | [] => (⟨single, [cur]⟩, [])
  | next :: rest =>
      if next = expected then (⟨two, [cur, next]⟩, rest)
      else (⟨single, [cur]⟩, next :: rest)

/-- The collection loop of `handle_string`: consume clusters until the
closing speech balloon (which is dropped) or the end of input.  Returns the
collected literal and the remaining input.  Note that at end of input the
loop simply stops: no error is recorded and no out-of-bounds access happens
(the cursor abstraction `StatefulVector::to_next` returns `None`). -/
def handle_string_aux : List String → List String × List String
  | [] => ([], [])
  | c :: rest =>
      if c = gStringClose then ([], rest)
      else
        let (lit, rem) := handle_string_aux rest
        (c :: lit, rem)

/-- The token produced by `handle_string` for the input after the opening
speech bubble, together with the remaining input. -/
def handle_string (rest : List String) : Token × List String :=
  let (lit, rem) := handle_string_aux rest
  (⟨TokenType.String, lit⟩, rem)

/-- The first code point of a grapheme cluster, as its own one-character
string (`char.chars().next().unwrap()` — for a digit keycap this is the
ASCII digit). -/
def firstCharStr (s : String) : String := String.mk (s.data.take 1)

/-- The accumulation loop of `handle_number`: keep consuming while the next
cluster is a digit keycap (append its ASCII digit) or a decimal-dot cluster
(append an ASCII full stop and switch the kind to Float).  Returns the
accumulated literal tail, the token kind as seen from here, and the
remaining input. -/
def handle_number_aux : List String → List String × TokenType × List String
  | [] => ([], TokenType.Integer, [])
  | c :: rest =>
      if DIGITALS.contains c then
        let (lit, tt, rem) := handle_number_aux rest
        (firstCharStr c :: lit, tt, rem)
      else if DOTS.contains c then
        let (lit, _, rem) := handle_number_aux rest
        ("." :: lit, TokenType.Float, rem)
      else ([], TokenType.Integer, c :: rest)

/-- `handle_number`: the current cluster is a digit keycap; the literal
starts with its ASCII digit and continues per `handle_number_aux`. -/
def handle_number (cur : String) (rest : List String) : Token × List String :=
  let (lit, tt, rem) := handle_number_aux rest
  (⟨tt, firstCharStr cur :: lit⟩, rem)

/-- The accumulation loop of `handle_identifier`: keep consuming identifier
clusters. -/
def handle_identifier_aux : List String → List String × List String
  | [] => ([], [])
  | c :: rest =>
      if is_identifier_char c then
        let (lit, rem) := handle_identifier_aux rest
        (c :: lit, rem)
      else ([], c :: rest)

/-- `handle_identifier`: the literal is the current cluster followed by the
maximal run of identifier clusters. -/
def handle_identifier (cur : String) (rest : List String) : Token × List String :=
  let (lit, rem) := handle_identifier_aux rest
  (⟨TokenType.Identifier, cur :: lit⟩, rem)

/-- The main scanning loop of `Lexer::tokenize` (the `while let` over
`to_next`), with the second argument holding the input strictly after the
cursor.  The dispatch follows the Rust `match` arm for arm.  The loop always
advances, so the fuel (one per consumed cluster, `length + 1` always
suffices) is only what lets the recursion be structural. -/
def tokenize_loop : Nat → List String → List Token
  | 0, _ => []
  | _, [] => []
  | fuel + 1, c :: rest =>
      if c = gAssign then ⟨TokenType.Assign, [c]⟩ :: tokenize_loop fuel rest
      else if c = gPlus then ⟨TokenType.Plus, [c]⟩ :: tokenize_loop fuel rest
      else if c = gMinus then ⟨TokenType.Minus, [c]⟩ :: tokenize_loop fuel rest
      else if c = gMultiply then ⟨TokenType.Multiply, [c]⟩ :: tokenize_loop fuel rest
      else if c = gDivide then ⟨TokenType.Divide, [c]⟩ :: tokenize_loop fuel rest
      else if c = gModulo then ⟨TokenType.Modulo, [c]⟩ :: tokenize_loop fuel rest
      else if c = gEqual then ⟨TokenType.Equal, [c]⟩ :: tokenize_loop fuel rest
      else if c = gGreater then
        let r := handle_two_chars_token TokenType.GreaterThan c gEqual
          TokenType.GreaterThanOrEqual rest
        r.1 :: tokenize_loop fuel r.2
      else if c = gLess then
        let r := handle_two_chars_token TokenType.LessThan c gEqual
          TokenType.LessThanOrEqual rest
        r.1 :: tokenize_loop fuel r.2
      else if c = gAnd then ⟨TokenType.And, [c]⟩ :: tokenize_loop fuel rest
      else if c = gOr then ⟨TokenType.Or, [c]⟩ :: tokenize_loop fuel rest
      else if c = gNot then ⟨TokenType.Not, [c]⟩ :: tokenize_loop fuel rest
      else if c = gSemicolon then ⟨TokenType.Semicolon, [c]⟩ :: tokenize_loop fuel rest
      else if c = gTrue then ⟨TokenType.True, [c]⟩ :: tokenize_loop fuel rest
      else if c = gFalse then ⟨TokenType.False, [c]⟩ :: tokenize_loop fuel rest
      else if c = gIf then ⟨TokenType.If, [c]⟩ :: tokenize_loop fuel rest
      else if c = gElse then
        let r := handle_two_chars_token TokenType.Else c gEqual
          TokenType.NotEqual rest
        r.1 :: tokenize_loop fuel r.2
      else if c = gWhile then ⟨TokenType.While, [c]⟩ :: tokenize_loop fuel rest
      else if c = gFunction then ⟨TokenType.Function, [c]⟩ :: tokenize_loop fuel rest
      else if c = gReturn then ⟨TokenType.Return, [c]⟩ :: tokenize_loop fuel rest
      else if c = gComma then ⟨TokenType.Comma, [c]⟩ :: tokenize_loop fuel rest
      else if c = gLParen then ⟨TokenType.LParenthesis, [c]⟩ :: tokenize_loop fuel rest
      else if c = gRParen then ⟨TokenType.RParenthesis, [c]⟩ :: tokenize_loop fuel rest
      else if c = gLBracket then ⟨TokenType.LBracket, [c]⟩ :: tokenize_loop fuel rest
      else if c = gRBracket then ⟨TokenType.RBracket, [c]⟩ :: tokenize_loop fuel rest
      else if c = gLBrace then ⟨TokenType.LBrace, [c]⟩ :: tokenize_loop fuel rest
      else if c = gRBrace then ⟨TokenType.RBrace, [c]⟩ :: tokenize_loop fuel rest
      else if c = gStringOpen then
        let r := handle_string rest
        r.1 :: tokenize_loop fuel r.2
      else if DIGITALS.contains c then
        let r := handle_number c rest
        r.1 :: tokenize_loop fuel r.2
      else if SPACES.contains c then tokenize_loop fuel rest
      else if is_identifier_char c then
        let r := handle_identifier c rest
        r.1 :: tokenize_loop fuel r.2
      else ⟨TokenType.Illegal, [c]⟩ :: tokenize_loop fuel rest

/-- `Lexer::tokenize`: the start sentinel followed by the scanned tokens.
(The Rust code first inserts a space at position 0 so that the first
`to_next` lands on the first real cluster; the effect is exactly to scan the
input from its start.) -/
def tokenize (source : List String) : List Token :=
  Token.start :: tokenize_loop (source.length + 1) source

/-! ## AST (spec section 3; src/types/node.rs)

Modelled from the spec: the final evaluator (src/evaluator.rs) and REPL
pattern-match on a closed `Node` enum whose definition is not under src/
(src/types/node.rs holds the earlier trait-object snapshot of the same node
set); the variants and fields below follow spec section 3 and the match
patterns of src/evaluator.rs.  Operators and identifier values are grapheme
lists, exactly the token literals they are copied from. -/

inductive Node where
  | Program (statements : List Node)
  | AssignStatement (token : Token) (name : Node) (value : Node)
  | ReturnStatement (token : Token) (value : Node)
  | ExpressionStatement (token : Token) (expression : Node)
  | BlockStatement (token : Token) (statements : List Node)
  | Identifier (token : Token) (value : List String)
  | IntegerLiteral (token : Token) (value : Int)
  | FloatLiteral (token : Token) (value : F64)
  | BooleanLiteral (token : Token) (value : Bool)
  | StringLiteral (token : Token) (value : List String)
  | PrefixExpression (token : Token) (operator : List String) (right : Node)
  | InfixExpression (token : Token) (left : Node) (operator : List String) (right : Node)
  | IfExpression (token : Token) (condition : Node) (consequence : Node)
      (alternative : Option Node)
  | WhileExpression (token : Token) (condition : Node) (body : Node)
  | FunctionLiteral (token : Token) (name : Option Node) (parameters : List Node)
      (body : Node)
  | CallExpression (token : Token) (function : Node) (arguments : List Node)

mutual

/-- Structural (derived) equality on nodes. -/
def node_beq : Node → Node → Bool
  | .Program s1, .Program s2 => node_list_beq s1 s2
  | .AssignStatement t1 n1 v1, .AssignStatement t2 n2 v2 =>
      t1 == t2 && node_beq n1 n2 && node_beq v1 v2
  | .ReturnStatement t1 v1, .ReturnStatement t2 v2 => t1 == t2 && node_beq v1 v2
  | .ExpressionStatement t1 e1, .ExpressionStatement t2 e2 =>
      t1 == t2 && node_beq e1 e2
  | .BlockStatement t1 s1, .BlockStatement t2 s2 => t1 == t2 && node_list_beq s1 s2
  | .Identifier t1 v1, .Identifier t2 v2 => t1 == t2 && v1 == v2
  | .IntegerLiteral t1 v1, .IntegerLiteral t2 v2 => t1 == t2 && v1 == v2
  | .FloatLiteral t1 v1, .FloatLiteral t2 v2 => t1 == t2 && v1 == v2
  | .BooleanLiteral t1 v1, .BooleanLiteral t2 v2 => t1 == t2 && v1 == v2
  | .StringLiteral t1 v1, .StringLiteral t2 v2 => t1 == t2 && v1 == v2
  | .PrefixExpression t1 o1 r1, .PrefixExpression t2 o2 r2 =>
      t1 == t2 && o1 == o2 && node_beq r1 r2
  | .InfixExpression t1 l1 o1 r1, .InfixExpression t2 l2 o2 r2 =>
      t1 == t2 && node_beq l1 l2 && o1 == o2 && node_beq r1 r2
  | .IfExpression t1 c1 q1 a1, .IfExpression t2 c2 q2 a2 =>
      t1 == t2 && node_beq c1 c2 && node_beq q1 q2 && node_opt_beq a1 a2
  | .WhileExpression t1 c1 b1, .WhileExpression t2 c2 b2 =>
      t1 == t2 && node_beq c1 c2 && node_beq b1 b2
  | .FunctionLiteral t1 n1 p1 b1, .FunctionLiteral t2 n2 p2 b2 =>
      t1 == t2 && node_opt_beq n1 n2 && node_list_beq p1 p2 && node_beq b1 b2
  | .CallExpression t1 f1 a1, .CallExpression t2 f2 a2 =>
      t1 == t2 && node_beq f1 f2 && node_list_beq a1 a2
  | _, _ => false

/-- Pointwise equality of node lists. -/
def node_list_beq : List Node → List Node → Bool
  | [], [] => true
  | a :: as_, b :: bs => node_beq a b && node_list_beq as_ bs
  | _, _ => false

/-- Equality of optional nodes. -/
def node_opt_beq : Option Node → Option Node → Bool
  | none, none => true
  | some a, some b => node_beq a b
  | _, _ => false

end

/-! ## Runtime objects and environments (src/types/object.rs) -/

mutual

/-- The closed runtime value variant of src/types/object.rs.  `i64` is
`Int`, `f64` is the exact-fraction idealisation `F64` (see the header). -/
inductive Object where
  | Integer (value : Int)
  | Float (value : F64)
  | Boolean (value : Bool)
  | String (value : List String)
  | Null
  | ReturnValue (value : Object)
  | Function (parameters : List Node) (body : Node) (env : Environment)

/-- The environment of src/types/object.rs: a map from identifier name to
`Object` plus an optional enclosing (outer) environment.  The `HashMap` is
modelled as an association list with unique keys; insertion order is
irrelevant to every operation. -/
inductive Environment where
  | mk (map : List (List String × Object)) (outer : Option Environment)

end

/-- The constant `TRUE` of src/types/object.rs. -/
def TRUE : Object := Object.Boolean true
/-- The constant `FALSE` of src/types/object.rs. -/
def FALSE : Object := Object.Boolean false
/-- The constant `NULL` of src/types/object.rs. -/
def NULL : Object := Object.Null

/-- Lookup in the association-list model of the `HashMap`. -/
def map_lookup : List (List String × Object) → List String → Option Object
  | [], _ => none
  | p :: rest, k => if p.1 = k then some p.2 else map_lookup rest k

/-- Insertion in the association-list model of the `HashMap`
(`HashMap::insert`): replace the value when the key is present, append the
pair otherwise. -/
def map_insert (m : List (List String × Object)) (k : List String) (v : Object) :
    List (List String × Object) :=
  if m.any (fun p => p.1 = k) then
    m.map (fun p => if p.1 = k then (k, v) else p)
  else m ++ [(k, v)]

/-- `Environment::new`: empty map, no outer environment. -/
def Environment.new : Environment := .mk [] none

/-- `Environment::new_enclosed`: empty map, the given outer environment. -/
def Environment.new_enclosed (outer : Environment) : Environment := .mk [] (some outer)

/-- `Environment::set` (src/types/object.rs): insert into this environment's
own map; the outer environment is untouched. -/
def Environment.set : Environment → List String → Object → Environment
  | .mk m outer, k, v => .mk (map_insert m k v) outer

/-- The map component of an environment. -/
def Environment.map : Environment → List (List String × Object)
  | .mk m _ => m

/-- The outer component of an environment. -/
def Environment.outer : Environment → Option Environment
  | .mk _ outer => outer

/-- `Environment::get` (src/types/object.rs): look in this environment's own
map, and if the name is absent and an outer environment exists, continue
there. -/
def Environment.get : Environment → List String → Option Object
  | .mk m outer, k =>
      let obj := map_lookup m k
      match obj, outer with
      | none, some o => o.get k
      | _, _ => obj

set_option linter.unusedVariables false in
mutual

/-- Structural equality on objects, the derived `PartialEq` of
src/types/object.rs (used by the evaluator for the fallback equality of the
equal and not-equal operators). -/
def obj_eq : Object → Object → Bool
  | .Integer a, .Integer b => a == b
  | .Float a, .Float b => a == b
  | .Boolean a, .Boolean b => a == b
  | .String a, .String b => a == b
  | .Null, .Null => true
  | .ReturnValue a, .ReturnValue b => obj_eq a b
  | .Function p1 b1 e1, .Function p2 b2 e2 =>
      node_list_beq p1 p2 && node_beq b1 b2 && env_eq e1 e2
  | _, _ => false
  termination_by a b => sizeOf a + sizeOf b
  decreasing_by all_goals simp_wf; omega

/-- Equality of environments: equal as finite maps (a `HashMap` compares by
contents, not order) with equal outer chains. -/
def env_eq : Environment → Environment → Bool
  | .mk m1 o1, .mk m2 o2 =>
      map_incl m1 m2 && map_incl m2 m1 &&
        match o1, o2 with
        | none, none => true
        | some a, some b => env_eq a b
        | _, _ => false
  termination_by e1 e2 => sizeOf e1 + sizeOf e2
  decreasing_by all_goals simp_wf; omega

/-- One direction of map equality: every binding of the first map holds in
the second. -/
def map_incl : List (List String × Object) → List (List String × Object) → Bool
  | [], _ => true
  | (k, v) :: rest, m2 =>
      (match h : map_lookup m2 k with
       | some w => obj_eq v w
       | none => false) && map_incl rest m2
  termination_by m1 m2 => sizeOf m1 + sizeOf m2
  decreasing_by
    all_goals
      have hl : ∀ (m : List (List String × Object)) (k : List String) (w : Object),
          map_lookup m k = some w → sizeOf w < sizeOf m := by
        intro m k w hw
        induction m with
        | nil => simp [map_lookup] at hw
        | cons p rest ih =>
            simp only [map_lookup] at hw
            by_cases hk : p.1 = k
            · simp only [hk, if_pos rfl] at hw
              cases hw
              cases p with
              | mk a b => simp; omega
            · rw [if_neg hk] at hw
              have := ih hw
              simp
              omega
    all_goals simp_wf
    all_goals first
      | omega
      | exact Nat.lt_of_lt_of_le (Nat.add_lt_add_left (hl _ _ _ h) _)
          (by simp; omega)

end

/-! ## Evaluator (src/evaluator.rs)

The result of one evaluation is `Option (Except String Object × Environment)`:
`none` models a Rust panic (a process abort, which no caller can observe as a
value), `some (.error msg, env)` the reported `Err(msg)` channel, and
`some (.ok obj, env)` the `Ok` value, together with the environment after the
evaluation's mutations. -/

/-- Smallest `i64` value; `i64::MIN / -1` (and the same remainder) overflows
and panics in Rust just like division by zero. -/
def i64_min : Int := -(2 ^ 63)

/-- Largest `i64` value. -/
def i64_max : Int := 2 ^ 63 - 1

/-- `to_bool_object` of src/evaluator.rs. -/
def to_bool_object (value : Bool) : Object := if value then TRUE else FALSE

/-- `eval_prefix_not_expression`: error on a pending `ReturnValue`, otherwise
truthiness-coerce and negate. -/
def eval_prefix_not_expression (obj : Object) : Except String Object :=
  match obj with
  | .ReturnValue _ =>
      .error "Invalid prefix not expression to evaluate return expression"
  | _ =>
      let value : Bool :=
        match obj with
        | .Integer v => 0 < v
        | .Float v => F64.blt (F64.ofInt 0) v
        | .Boolean v => v
        | .String v => !v.isEmpty
        | .Null => false
        | _ => false
      .ok (to_bool_object !value)

/-- `eval_prefix_minus_expression`: arithmetic negation for numbers only. -/
def eval_prefix_minus_expression (obj : Object) : Except String Object :=
  match obj with
  | .Integer v => .ok (.Integer (-v))
  | .Float v => .ok (.Float (F64.neg v))
  | _ => .error "Invalid prefix minus expression to evaluate non-numeric value"

/-- `eval_prefix_expression`: dispatch on the operator literal. -/
def eval_prefix_expression (operator : List String) (right : Object) :
    Except String Object :=
  if operator = [gNot] then eval_prefix_not_expression right
  else if operator = [gMinus] then eval_prefix_minus_expression right
  else .error "Invalid prefix expressions to evaluate values"

/-- `eval_integer_infix_expression`: both operands are `i64`.  Rust's `/`
and `%` panic when the divisor is zero (or on `i64::MIN / -1`); the panic is
the `none` outcome.  `/` truncates toward zero and `%` keeps the dividend's
sign, i.e. `Int.tdiv` and `Int.tmod`. -/
def eval_integer_infix_expression (operator : List String) (l r : Int) :
    Option (Except String Object) :=
  if operator = [gPlus] then some (.ok (.Integer (l + r)))
  else if operator = [gMinus] then some (.ok (.Integer (l - r)))
  else if operator = [gMultiply] then some (.ok (.Integer (l * r)))
  else if operator = [gDivide] then
    if r = 0 ∨ (l = i64_min ∧ r = -1) then none
    else some (.ok (.Integer (l.tdiv r)))
  else if operator = [gModulo] then
    if r = 0 ∨ (l = i64_min ∧ r = -1) then none
    else some (.ok (.Integer (l.tmod r)))
  else if operator = [gEqual] then some (.ok (to_bool_object (l = r)))
  else if operator = [gElse, gEqual] then some (.ok (to_bool_object (l ≠ r)))
  else if operator = [gGreater] then some (.ok (to_bool_object (r < l)))
  else if operator = [gGreater, gEqual] then some (.ok (to_bool_object (r ≤ l)))
  else if operator = [gLess] then some (.ok (to_bool_object (l < r)))
  else if operator = [gLess, gEqual] then some (.ok (to_bool_object (l ≤ r)))
  else some (.error "Invalid infix expression operator")

/-- `eval_float_infix_expression`: both operands are `f64` (idealised as
exact fractions; IEEE division by zero, which yields an infinity or NaN in
Rust rather than a panic or error, is outside the idealisation). -/
def eval_float_infix_expression (operator : List String) (l r : F64) :
    Option (Except String Object) :=
  if operator = [gPlus] then some (.ok (.Float (F64.add l r)))
  else if operator = [gMinus] then some (.ok (.Float (F64.sub l r)))
  else if operator = [gMultiply] then some (.ok (.Float (F64.mul l r)))
  else if operator = [gDivide] then some (.ok (.Float (F64.div l r)))
  else if operator = [gModulo] then some (.ok (.Float (F64.rem l r)))
  else if operator = [gEqual] then some (.ok (to_bool_object (l = r)))
  else if operator = [gElse, gEqual] then some (.ok (to_bool_object (l ≠ r)))
  else if operator = [gGreater] then some (.ok (to_bool_object (F64.blt r l)))
  else if operator = [gGreater, gEqual] then some (.ok (to_bool_object (F64.ble r l)))
  else if operator = [gLess] then some (.ok (to_bool_object (F64.blt l r)))
  else if operator = [gLess, gEqual] then some (.ok (to_bool_object (F64.ble l r)))
  else some (.error "Invalid infix expression operator")

/-- `eval_infix_expression`: numeric promotion — Integer with Integer stays
integral, a Float on either side promotes the other operand to Float; the
non-numeric fallback is structural equality for the equal and not-equal
operators and an error otherwise. -/
def eval_infix_expression (operator : List String) (left right : Object) :
    Option (Except String Object) :=
  match left, right with
  | .Integer l, .Integer r => eval_integer_infix_expression operator l r
  | .Integer l, .Float r => eval_float_infix_expression operator (F64.ofInt l) r
  | .Float l, .Float r => eval_float_infix_expression operator l r
  | .Float l, .Integer r => eval_float_infix_expression operator l (F64.ofInt r)
  | _, _ =>
      if operator = [gEqual] then some (.ok (to_bool_object (obj_eq left right)))
      else if operator = [gElse, gEqual] then
        some (.ok (to_bool_object (!obj_eq left right)))
      else some (.error "Invalid infix expression")

/-- `eval_identifier`: look the name up through the environment chain;
an unresolved name is the reported "identifier not found" error. -/
def eval_identifier (value : List String) (env : Environment) :
    Except String Object :=
  match env.get value with
  | some obj => .ok obj
  | none => .error ("identifier not found: " ++ String.join value)

/-- The name an assign statement binds: `name.string()` for an identifier
node is its value. -/
def assign_name : Node → List String
  | .Identifier _ v => v
  | _ => []

mutual

/-- `eval` of src/evaluator.rs: dispatch over the node variant.  The catch-all
arm (reached by While, Function and Call nodes, whose evaluation the source
does not wire up) is the reported invalid-node error. -/
def eval : Node → Environment → Option (Except String Object × Environment)
  | .Program statements, env => eval_program statements env
  | .ExpressionStatement _ expression, env => eval expression env
  | .IntegerLiteral _ v, env => some (.ok (.Integer v), env)
  | .FloatLiteral _ v, env => some (.ok (.Float v), env)
  | .BooleanLiteral _ v, env => some (.ok (.Boolean v), env)
  | .StringLiteral _ v, env => some (.ok (.String v), env)
  | .PrefixExpression _ operator right, env =>
      match eval right env with
      | none => none
      | some (.error e, env') => some (.error e, env')
      | some (.ok obj, env') => some (eval_prefix_expression operator obj, env')
  | .InfixExpression _ left operator right, env =>
      match eval left env with
      | none => none
      | some (.error e, env') => some (.error e, env')
      | some (.ok lobj, env') =>
          match eval right env' with
          | none => none
          | some (.error e, env'') => some (.error e, env'')
          | some (.ok robj, env'') =>
              match eval_infix_expression operator lobj robj with
              | none => none
              | some res => some (res, env'')
  | .BlockStatement _ statements, env => eval_block_statements statements env
  | .IfExpression _ condition consequence alternative, env =>
      (match eval condition env with
       | none => none
       | some (.error e, env') => some (.error e, env')
       | some (.ok obj, env') =>
           let b : Bool :=
             match obj with
             | .Null => false
             | .Boolean b => b
             | _ => true
           if b then eval consequence env'
           else
             match alternative with
             | some alt => eval alt env'
             | none => some (.ok NULL, env'))
  | .ReturnStatement _ value, env =>
      match eval value env with
      | none => none
      | some (.error e, env') => some (.error e, env')
      | some (.ok obj, env') => some (.ok (.ReturnValue obj), env')
  | .AssignStatement _ name value, env =>
      match eval value env with
      | none => none
      | some (.error e, env') => some (.error e, env')
      | some (.ok v, env') => some (.ok v, env'.set (assign_name name) v)
  | .Identifier _ value, env => some (eval_identifier value env, env)
  | _, env =>
      some (.error "Invalid expressions or statements to evaluate values", env)

/-- `eval_program`: statements in order; an `Ok(ReturnValue)` result is
unwrapped and returned at once; otherwise the last statement's result (also
when it is an error — the loop keeps going after an `Err`) is the program's
result, and no statements at all give the empty-statements error. -/
def eval_program : List Node → Environment →
    Option (Except String Object × Environment)
  | [], env => some (.error "Empty statements to evaluate values", env)
  | statement :: rest, env =>
      match eval statement env with
      | none => none
      | some (.ok (.ReturnValue v), env') => some (.ok v, env')
      | some (r, env') =>
          match rest with
          | [] => some (r, env')
          | _ => eval_program rest env'

/-- `eval_block_statements`: identical sequencing, but an `Ok(ReturnValue)`
is returned as-is, not unwrapped. -/
def eval_block_statements : List Node → Environment →
    Option (Except String Object × Environment)
  | [], env => some (.error "Empty statements to evaluate values", env)
  | statement :: rest, env =>
      match eval statement env with
      | none => none
      | some (.ok (.ReturnValue v), env') => some (.ok (.ReturnValue v), env')
      | some (r, env') =>
          match rest with
          | [] => some (r, env')
          | _ => eval_block_statements rest env'

end

/-! ## Parser (src/parser.rs, src/types/node.rs)

The repository holds two snapshots of the parser: the trait-object one in
src/parser.rs, and the final one that the REPL and the evaluator consume
(returning the `Node` enum and registering the logical, while and call
parsers), which is not under src/.  The parser embedded here is the final
form: its per-construct algorithms are those of src/parser.rs, its
precedence table is `get_operator_precedence` of src/types/node.rs, and the
while / call parsers, absent from src/, are modelled from the spec
(section 4.2) in the style of the neighbouring source functions; each such
definition is marked below.

State is the token list from the cursor position on (the head is the token
currently under the cursor; parse functions leave the cursor on the last
token they consumed).  Each parsing function returns
`Option (Except String α × List Token)`: the `some .ok` and `some .error`
cases are the Rust `Ok` and recoverable `Err` together with the cursor
position they leave, and `none` models an aborted parse — a Rust panic (the
`unwrap` in `parse_assign_statement` when the assign token is missing) or
non-termination (the cursor loops that stop advancing at end of input),
reached here by fuel exhaustion. -/

/-- The binary-operator precedence levels, an enumeration ordered by
declaration (`derive(PartialOrd, Ord)`), identical in src/parser.rs and
src/types/node.rs. -/
inductive Precedence where
  | Lowest | Or | And | Equals | LessGreater | Sum | Product | Prefix | Call
  deriving DecidableEq, Repr

/-- The declaration index of a precedence level; the derived Rust order
compares these indices. -/
def Precedence.toNat : Precedence → Nat
  | .Lowest => 0
  | .Or => 1
  | .And => 2
  | .Equals => 3
  | .LessGreater => 4
  | .Sum => 5
  | .Product => 6
  | .Prefix => 7
  | .Call => 8

instance : LT Precedence := ⟨fun a b => a.toNat < b.toNat⟩

instance (a b : Precedence) : Decidable (a < b) :=
  inferInstanceAs (Decidable (a.toNat < b.toNat))

/-- `get_operator_precedence` of src/types/node.rs — the final precedence
table: it maps the logical operators and the call left-parenthesis, and
every unmapped token kind to Lowest. -/
def get_operator_precedence (token : Token) : Precedence :=
  match token.token_type with
  | .Or => .Or
  | .And => .And
  | .Equal => .Equals
  | .NotEqual => .Equals
  | .LessThan => .LessGreater
  | .LessThanOrEqual => .LessGreater
  | .GreaterThan => .LessGreater
  | .GreaterThanOrEqual => .LessGreater
  | .Plus => .Sum
  | .Minus => .Sum
  | .Multiply => .Product
  | .Divide => .Product
  | .Modulo => .Product
  | .LParenthesis => .Call
  | _ => .Lowest

/-- `get_operator_precedence` of src/parser.rs — the earlier snapshot of the
same table, whose map omits the logical operators and the call
left-parenthesis (they fall to Lowest there). -/
def parser_rs_get_operator_precedence (token : Token) : Precedence :=
  match token.token_type with
  | .Equal => .Equals
  | .NotEqual => .Equals
  | .LessThan => .LessGreater
  | .LessThanOrEqual => .LessGreater
  | .GreaterThan => .LessGreater
  | .GreaterThanOrEqual => .LessGreater
  | .Plus => .Sum
  | .Minus => .Sum
  | .Multiply => .Product
  | .Divide => .Product
  | .Modulo => .Product
  | _ => .Lowest

/-- Lookahead at the token after the cursor (`is_next_match` reads it when
it exists and answers false otherwise). -/
def next_tok (st : List Token) : Option Token := st.tail.head?

/-- `self.tokens.to_next()` with the result ignored: advance when a next
token exists, stay at the end otherwise. -/
def advance_or_stay : List Token → List Token
  | _ :: next :: rest => next :: rest
  | st => st

/-- The trailing-semicolon loop shared by the statement parsers: while the
next token is a semicolon, advance onto it. -/
def eat_semicolons : List Token → List Token
  | cur :: next :: rest =>
      if next.token_type = TokenType.Semicolon then eat_semicolons (next :: rest)
      else cur :: next :: rest
  | st => st

/-- Decimal value of a digit-keycap-derived one-character string, when it is
one. -/
def str_digit? (s : String) : Option Nat :=
  match s.data with
  | [c] => if '0' ≤ c ∧ c ≤ '9' then some (c.toNat - 48) else none
  | _ => none

/-- Numeric value of a list of decimal digit strings. -/
def digits_val (lit : List String) : Nat :=
  lit.foldl (fun acc s => acc * 10 + ((str_digit? s).getD 0)) 0

/-- Rust `literal.parse::<i64>()` on an integer-token literal: the base-10
value when every cluster is a digit and the value fits in an `i64`, an error
otherwise. -/
def parse_i64 (lit : List String) : Except String Int :=
  if lit.isEmpty then .error "cannot parse integer from empty string"
  else if lit.all (fun s => (str_digit? s).isSome) then
    if (digits_val lit : Int) ≤ i64_max then .ok (digits_val lit : Int)
    else .error "number too large to fit in target type"
  else .error "invalid digit found in string"

/-- Rust `literal.parse::<f64>()` on a float-token literal, idealised to an
exact fraction: accepted exactly when the clusters are decimal digits with
at most one full stop and at least one digit; the value is the denoted
decimal fraction. -/
def parse_f64 (lit : List String) : Except String F64 :=
  let intpart := lit.takeWhile (fun s => s ≠ ".")
  let rest := lit.dropWhile (fun s => s ≠ ".")
  let ok_digits := (intpart ++ rest.tail).all (fun s => (str_digit? s).isSome)
  let frac := rest.tail
  if (intpart ++ frac).isEmpty ∨ ¬ ok_digits ∨ rest.tail.contains "." ∨
      (rest ≠ [] ∧ rest.head? ≠ some ".") then
    .error "invalid float literal"
  else
    .ok (F64.norm (digits_val intpart * 10 ^ frac.length + digits_val frac)
      (10 ^ frac.length))

/-- `parse_identifier`: an identifier node for the current token; the cursor
does not move. -/
def parse_identifier (st : List Token) : Option (Except String Node × List Token) :=
  match st with
  | [] => none
  | cur :: _ => some (.ok (.Identifier cur cur.literal), st)

/-- `parse_integer_literal`. -/
def parse_integer_literal (st : List Token) : Option (Except String Node × List Token) :=
  match st with
  | [] => none
  | cur :: _ =>
      match parse_i64 cur.literal with
      | .ok v => some (.ok (.IntegerLiteral cur v), st)
      | .error e => some (.error e, st)

/-- `parse_float_literal`. -/
def parse_float_literal (st : List Token) : Option (Except String Node × List Token) :=
  match st with
  | [] => none
  | cur :: _ =>
      match parse_f64 cur.literal with
      | .ok v => some (.ok (.FloatLiteral cur v), st)
      | .error e => some (.error e, st)

/-- `parse_bool_literal`: the token kind directly encodes the value. -/
def parse_bool_literal (st : List Token) : Option (Except String Node × List Token) :=
  match st with
  | [] => none
  | cur :: _ =>
      some (.ok (.BooleanLiteral cur (cur.token_type = TokenType.True)), st)

/-- `parse_string_literal`. -/
def parse_string_literal (st : List Token) : Option (Except String Node × List Token) :=
  match st with
  | [] => none
  | cur :: _ => some (.ok (.StringLiteral cur cur.literal), st)

/-- Which token kinds have a registered infix parser in the final parser:
the thirteen binary operators (including the logical pair) and the call
left-parenthesis. -/
def infix_registered (tt : TokenType) : Bool :=
  match tt with
  | .Or | .And | .Equal | .NotEqual
  | .LessThan | .LessThanOrEqual | .GreaterThan | .GreaterThanOrEqual
  | .Plus | .Minus | .Multiply | .Divide | .Modulo | .LParenthesis => true
  | _ => false

set_option maxHeartbeats 3200000 in
mutual

/-- `parse_statement`: dispatch on the current token kind. -/
def parse_statement : Nat → List Token → Option (Except String Node × List Token)
  | 0, _ => none
  | fuel + 1, st =>
      match st with
      | [] => none
      | cur :: _ =>
          match cur.token_type with
          | .Identifier => parse_assign_statement fuel st
          | .Return => parse_return_statement fuel st
          | .LBrace => parse_block_statement fuel st
          | _ => parse_expression_statement fuel st

/-- `parse_assign_statement`: an identifier whose next token is the assign
arrow; otherwise fall back to an expression statement.  When the identifier
is the last token, `is_next_match` answers false and the following
`to_next().unwrap()` panics — the `none` outcome. -/
def parse_assign_statement : Nat → List Token → Option (Except String Node × List Token)
  | 0, _ => none
  | fuel + 1, st =>
      match st with
      | cur :: next :: rest =>
          if next.token_type ≠ TokenType.Assign then
            parse_expression_statement fuel st
          else
            let identifier := Node.Identifier cur cur.literal
            let st2 := advance_or_stay (next :: rest)
            match parse_expression fuel Precedence.Lowest st2 with
            | none => none
            | some (.error e, st3) => some (.error e, st3)
            | some (.ok value, st3) =>
                some (.ok (.AssignStatement next identifier value), eat_semicolons st3)
      | _ => none

/-- `parse_return_statement`. -/
def parse_return_statement : Nat → List Token → Option (Except String Node × List Token)
  | 0, _ => none
  | fuel + 1, st =>
      match st with
      | [] => none
      | cur :: _ =>
          match parse_expression fuel Precedence.Lowest (advance_or_stay st) with
          | none => none
          | some (.error e, st') => some (.error e, st')
          | some (.ok value, st') =>
              some (.ok (.ReturnStatement cur value), eat_semicolons st')

/-- `parse_expression_statement`. -/
def parse_expression_statement : Nat → List Token → Option (Except String Node × List Token)
  | 0, _ => none
  | fuel + 1, st =>
      match st with
      | [] => none
      | cur :: _ =>
          match parse_expression fuel Precedence.Lowest st with
          | none => none
          | some (.error e, st') => some (.error e, st')
          | some (.ok exp, st') =>
              some (.ok (.ExpressionStatement cur exp), eat_semicolons st')

/-- `parse_block_statement`: current token is the opening brace; statements
until the closing brace, which is consumed. -/
def parse_block_statement : Nat → List Token → Option (Except String Node × List Token)
  | 0, _ => none
  | fuel + 1, st =>
      match st with
      | [] => none
      | cur :: _ => parse_block_loop fuel cur [] (advance_or_stay st)

/-- The statement loop of `parse_block_statement` (when the input ends
before the closing brace the Rust loop never advances again — fuel runs
out). -/
def parse_block_loop : Nat → Token → List Node → List Token →
    Option (Except String Node × List Token)
  | 0, _, _, _ => none
  | _, _, _, [] => none
  | fuel + 1, token, acc, st@(cur :: _) =>
      if cur.token_type = TokenType.RBrace then
        some (.ok (.BlockStatement token acc), st)
      else
        match parse_statement fuel st with
        | none => none
        | some (.error e, st') => some (.error e, st')
        | some (.ok stmt, st') =>
            parse_block_loop fuel token (acc ++ [stmt]) (advance_or_stay st')

/-- `parse_expression`: run the registered prefix parser for the current
token kind (error if none), then fold infix operators per the precedence
loop. -/
def parse_expression : Nat → Precedence → List Token →
    Option (Except String Node × List Token)
  | 0, _, _ => none
  | fuel + 1, precedence, st =>
      match st with
      | [] => none
      | cur :: _ =>
          match parse_prefix_dispatch fuel cur.token_type st with
          | none => none
          | some (.error e, st') => some (.error e, st')
          | some (.ok left, st') => parse_expression_loop fuel precedence left st'

/-- The registered prefix parsers, keyed by token kind
(`register_exp_parsers`, plus the spec-modelled while parser of the final
parser);  an unregistered kind is the reported
"Expected a expression" error. -/
def parse_prefix_dispatch : Nat → TokenType → List Token →
    Option (Except String Node × List Token)
  | 0, _, _ => none
  | fuel + 1, tt, st =>
  match tt with
  | .Identifier => parse_identifier st
  | .Integer => parse_integer_literal st
  | .Float => parse_float_literal st
  | .True => parse_bool_literal st
  | .False => parse_bool_literal st
  | .String => parse_string_literal st
  | .Not => parse_prefix_expression fuel st
  | .Minus => parse_prefix_expression fuel st
  | .If => parse_if_expression fuel st
  | .While => parse_while_expression fuel st
  | .Function => parse_function_literal fuel st
  | .LParenthesis => parse_group_expression fuel st
  | _ =>
      match st with
      | [] => none
      | cur :: _ =>
          some (.error ("Expected a expression, but got a " ++ String.join cur.literal), st)

/-- The folding loop of `parse_expression`: while the next token is not a
semicolon and its precedence exceeds the caller's minimum, advance onto it
and run its registered infix parser on the expression parsed so far; a
next token without a registered infix parser makes the Rust loop step back
and spin forever (fuel runs out). -/
def parse_expression_loop : Nat → Precedence → Node → List Token →
    Option (Except String Node × List Token)
  | 0, _, _, _ => none
  | fuel + 1, precedence, left, st =>
      match next_tok st with
      | none => some (.ok left, st)
      | some next =>
          if next.token_type ≠ TokenType.Semicolon ∧
              precedence < get_operator_precedence next then
            if infix_registered next.token_type then
              match parse_infix_dispatch fuel next.token_type left (st.tail) with
              | none => none
              | some (.error e, st') => some (.error e, st')
              | some (.ok left', st') => parse_expression_loop fuel precedence left' st'
            else
              parse_expression_loop fuel precedence left st
          else some (.ok left, st)

/-- The registered infix parsers: every binary operator uses the generic
infix parser; the call parser (spec-modelled) is keyed on the left
parenthesis. -/
def parse_infix_dispatch : Nat → TokenType → Node → List Token →
    Option (Except String Node × List Token)
  | 0, _, _, _ => none
  | fuel + 1, tt, left, st =>
      match tt with
      | .LParenthesis => parse_call_expression fuel left st
      | _ => parse_infix_expression fuel left st

/-- `parse_prefix_expression`: the operator token, then its operand at
Prefix precedence; an operator at the end of input is the reported missing
expression error. -/
def parse_prefix_expression : Nat → List Token → Option (Except String Node × List Token)
  | 0, _ => none
  | fuel + 1, st =>
      match st with
      | [] => none
      | cur :: rest =>
          match rest with
          | [] =>
              some (.error ("Expected a expression after operator " ++
                String.join cur.literal), st)
          | _ :: _ =>
              match parse_expression fuel Precedence.Prefix rest with
              | none => none
              | some (.error e, st') => some (.error e, st')
              | some (.ok right, st') =>
                  some (.ok (.PrefixExpression cur cur.literal right), st')

/-- `parse_infix_expression`: capture the operator, read its own precedence,
advance past it and parse the right-hand side at that precedence. -/
def parse_infix_expression : Nat → Node → List Token →
    Option (Except String Node × List Token)
  | 0, _, _ => none
  | fuel + 1, left, st =>
      match st with
      | [] => none
      | cur :: _ =>
          let precedence := get_operator_precedence cur
          match parse_expression fuel precedence (advance_or_stay st) with
          | none => none
          | some (.error e, st') => some (.error e, st')
          | some (.ok right, st') =>
              some (.ok (.InfixExpression cur left cur.literal right), st')

/-- `parse_group_expression`: the inner expression at Lowest precedence; a
next token other than the right parenthesis is an error (no next token at
all slips through, exactly as in the source: `is_next_match` answers false
at the end). -/
def parse_group_expression : Nat → List Token → Option (Except String Node × List Token)
  | 0, _ => none
  | fuel + 1, st =>
      match parse_expression fuel Precedence.Lowest (advance_or_stay st) with
      | none => none
      | some (.error e, st') => some (.error e, st')
      | some (.ok exp, st') =>
          match next_tok st' with
          | some t =>
              if t.token_type ≠ TokenType.RParenthesis then
                some (.error "Expected a right parenthesis", st')
              else some (.ok exp, advance_or_stay st')
          | none => some (.ok exp, advance_or_stay st')

/-- `parse_if_expression`: condition at Lowest precedence, mandatory brace
block, optional else branch. -/
def parse_if_expression : Nat → List Token → Option (Except String Node × List Token)
  | 0, _ => none
  | fuel + 1, st =>
      match st with
      | [] => none
      | cur :: _ =>
          match parse_expression fuel Precedence.Lowest (advance_or_stay st) with
          | none => none
          | some (.error e, st1) => some (.error e, st1)
          | some (.ok condition, st1) =>
              if (next_tok st1).any (fun t => t.token_type ≠ TokenType.LBrace) then
                some (.error "Expected a block statement after if-condition", st1)
              else
                match parse_block_statement fuel (advance_or_stay st1) with
                | none => none
                | some (.error e, st2) => some (.error e, st2)
                | some (.ok consequence, st2) =>
                    if (next_tok st2).any (fun t => t.token_type = TokenType.Else) then
                      let st3 := advance_or_stay st2
                      if (next_tok st3).any (fun t => t.token_type ≠ TokenType.LBrace) then
                        some (.error "Expected a block statement after else", st3)
                      else
                        match parse_block_statement fuel (advance_or_stay st3) with
                        | none => none
                        | some (.error e, st4) => some (.error e, st4)
                        | some (.ok alt, st4) =>
                            some (.ok (.IfExpression cur condition consequence (some alt)),
                              st4)
                    else
                      some (.ok (.IfExpression cur condition consequence none), st2)

/-- Modelled from the spec: `parse_while_expression` of the final parser is
not under src/; per section 4.2 it parses the condition at Lowest precedence
and a mandatory brace-delimited body, exactly like the if parser without an
else branch. -/
def parse_while_expression : Nat → List Token → Option (Except String Node × List Token)
  | 0, _ => none
  | fuel + 1, st =>
      match st with
      | [] => none
      | cur :: _ =>
          match parse_expression fuel Precedence.Lowest (advance_or_stay st) with
          | none => none
          | some (.error e, st1) => some (.error e, st1)
          | some (.ok condition, st1) =>
              if (next_tok st1).any (fun t => t.token_type ≠ TokenType.LBrace) then
                some (.error "Expected a block statement after while-condition", st1)
              else
                match parse_block_statement fuel (advance_or_stay st1) with
                | none => none
                | some (.error e, st2) => some (.error e, st2)
                | some (.ok body, st2) =>
                    some (.ok (.WhileExpression cur condition body), st2)

/-- `parse_function_literal`: optional name identifier, mandatory
parenthesised comma-separated parameter list of identifiers, mandatory
body block. -/
def parse_function_literal : Nat → List Token → Option (Except String Node × List Token)
  | 0, _ => none
  | fuel + 1, st =>
      match st with
      | [] => none
      | cur :: _ =>
          let (name, st1) :=
            if (next_tok st).any (fun t => t.token_type = TokenType.Identifier) then
              match advance_or_stay st with
              | [] => (none, advance_or_stay st)
              | n :: rest => (some (Node.Identifier n n.literal), n :: rest)
            else (none, st)
          if (next_tok st1).any (fun t => t.token_type ≠ TokenType.LParenthesis) then
            some (.error "Expected a left parenthesis", st1)
          else
            match parse_fn_params fuel [] (advance_or_stay st1) with
            | none => none
            | some (.error e, st2) => some (.error e, st2)
            | some (.ok parameters, st2) =>
                if (next_tok st2).any (fun t => t.token_type ≠ TokenType.LBrace) then
                  some (.error "Expected a left brace", st2)
                else
                  match parse_block_statement fuel (advance_or_stay st2) with
                  | none => none
                  | some (.error e, st3) => some (.error e, st3)
                  | some (.ok body, st3) =>
                      some (.ok (.FunctionLiteral cur name parameters body), st3)

/-- The parameter loop of `parse_function_literal` (`while let Some(token) =
to_next().filter(not RParen)`): the cursor starts on the left parenthesis;
advancing onto the right parenthesis (or failing to advance at the end)
ends the loop. -/
def parse_fn_params : Nat → List Node → List Token →
    Option (Except String (List Node) × List Token)
  | 0, _, _ => none
  | fuel + 1, acc, st =>
      match st with
      | [] => none
      | [_] => some (.ok acc, st)
      | _ :: next :: rest =>
          if next.token_type = TokenType.RParenthesis then
            some (.ok acc, next :: rest)
          else if next.token_type ≠ TokenType.Identifier then
            some (.error ("Expected a identifier, but got a " ++
              String.join next.literal), next :: rest)
          else
            let param := Node.Identifier next next.literal
            let stp := next :: rest
            if (next_tok stp).any (fun t => t.token_type = TokenType.RParenthesis) then
              parse_fn_params fuel (acc ++ [param]) stp
            else
              match next_tok stp with
              | none => parse_fn_params fuel (acc ++ [param]) stp
              | some t =>
                  if t.token_type ≠ TokenType.Comma then
                    some (.error ("Expected a comma, but got a " ++
                      String.join t.literal), advance_or_stay stp)
                  else parse_fn_params fuel (acc ++ [param]) (advance_or_stay stp)

/-- Modelled from the spec: the call-expression infix parser of the final
parser is not under src/; per section 4.2 it is keyed on the left
parenthesis, consuming a comma-separated argument list terminated by the
right parenthesis, each element parsed at Lowest precedence (the loop shape
mirrors the parameter loop of `parse_function_literal`). -/
def parse_call_expression : Nat → Node → List Token →
    Option (Except String Node × List Token)
  | 0, _, _ => none
  | fuel + 1, function, st =>
      match st with
      | [] => none
      | cur :: _ =>
          match parse_call_args fuel [] st with
          | none => none
          | some (.error e, st') => some (.error e, st')
          | some (.ok arguments, st') =>
              some (.ok (.CallExpression cur function arguments), st')

/-- The argument loop of the call parser; the cursor starts on the left
parenthesis. -/
def parse_call_args : Nat → List Node → List Token →
    Option (Except String (List Node) × List Token)
  | 0, _, _ => none
  | fuel + 1, acc, st =>
      match st with
      | [] => none
      | [_] => some (.ok acc, st)
      | _ :: next :: rest =>
          if next.token_type = TokenType.RParenthesis then
            some (.ok acc, next :: rest)
          else
            match parse_expression fuel Precedence.Lowest (next :: rest) with
            | none => none
            | some (.error e, st') => some (.error e, st')
            | some (.ok arg, st') =>
                if (next_tok st').any (fun t => t.token_type = TokenType.RParenthesis) then
                  parse_call_args fuel (acc ++ [arg]) st'
                else
                  match next_tok st' with
                  | none => parse_call_args fuel (acc ++ [arg]) st'
                  | some t =>
                      if t.token_type ≠ TokenType.Comma then
                        some (.error ("Expected a comma, but got a " ++
                          String.join t.literal), advance_or_stay st')
                      else parse_call_args fuel (acc ++ [arg]) (advance_or_stay st')

end

/-- The statement loop of `parse_program`: while a next token exists,
advance onto it and parse one statement, collecting the statement or its
error. -/
def parse_program_loop (fuel : Nat) (acc : List Node) (errors : List String)
    (st : List Token) : Option (Node × List String) :=
  match fuel with
  | 0 => none
  | fuel + 1 =>
      match st with
      | [] => some (.Program acc, errors)
      | [_] => some (.Program acc, errors)
      | _ :: next :: rest =>
          match parse_statement fuel (next :: rest) with
          | none => none
          | some (.ok stmt, st') => parse_program_loop fuel (acc ++ [stmt]) errors st'
          | some (.error e, st') => parse_program_loop fuel acc (errors ++ [e]) st'

/-- Fuel that every terminating parse of this token list needs at most (the
sufficiency is part of the round-trip development below). -/
def default_fuel (tokens : List Token) : Nat := 8 * tokens.length + 8

/-- `parse_program`: from the start sentinel, parse statements to the end of
the tokens, returning the program and the collected error list; `none` is an
aborted parse (a panic or a non-terminating cursor loop in the source). -/
def parse_program (tokens : List Token) : Option (Node × List String) :=
  parse_program_loop (default_fuel tokens) [] [] tokens

/-! ## Pretty-printer (`Node::string`, src/types/node.rs)

The printer produces the surface text, modelled as the grapheme list the
tokenizer consumes. -/

/-- The character of a decimal digit. -/
def digit_char (n : Nat) : Char := Char.ofNat (48 + n % 10)

/-- Decimal digits of a natural number, most significant first (the fuel
bounds the digit count; `n + 1` always suffices). -/
def nat_to_chars_aux : Nat → Nat → List Char
  | 0, _ => []
  | fuel + 1, n =>
      if n < 10 then [digit_char n]
      else nat_to_chars_aux fuel (n / 10) ++ [digit_char (n % 10)]

/-- Rust `to_string` of a natural number. -/
def nat_to_chars (n : Nat) : List Char := nat_to_chars_aux (n + 1) n

/-- Rust `i64::to_string`: a minus sign for negatives, then the decimal
digits. -/
def int_to_chars (v : Int) : List Char :=
  (if v < 0 then ['-'] else []) ++ nat_to_chars v.natAbs

/-- The least exponent `k` with `d ∣ 10 ^ k`, when one exists below the
search bound (for the denominator of any decimal fraction it does, and the
bound `d` is always enough there). -/
def find_exp (d : Nat) : Option Nat :=
  (List.range (d + 1)).find? (fun k => 10 ^ k % d = 0)

/-- The fractional digits, left-padded with zeros to width `k`. -/
def pad_frac (k m : Nat) : List Char :=
  List.replicate (k - (nat_to_chars m).length) '0' ++ nat_to_chars m

/-- Rust `f64::to_string` under the exact-fraction idealisation: the
shortest plain decimal denoting the value — no decimal point at all for an
integral value, otherwise the minimal number of fractional digits.  (Every
finite `f64` value is a dyadic and hence decimal fraction, so the fallback
branch for non-decimal fractions, which no finite `f64` value reaches, only
keeps the function total.) -/
def f64_to_chars (q : F64) : List Char :=
  (if q.num < 0 then ['-'] else []) ++
  (match find_exp q.den with
   | some k =>
      let m := q.num.natAbs * 10 ^ k / q.den
      if k = 0 then nat_to_chars m
      else nat_to_chars (m / 10 ^ k) ++ ['.'] ++ pad_frac k (m % 10 ^ k)
   | none => nat_to_chars q.num.natAbs ++ ['/'] ++ nat_to_chars q.den)

/-- `IntegerLiteral::string`: every character of the decimal text becomes a
keycap cluster. -/
def int_literal_graphemes (v : Int) : List String := (int_to_chars v).map keycap

/-- `FloatLiteral::string`: the decimal point becomes the white circle,
every other character a keycap cluster. -/
def float_literal_graphemes (q : F64) : List String :=
  (f64_to_chars q).map (fun c => if c = '.' then gDotWhite else keycap c)

mutual

/-- `Node::string` of src/types/node.rs, variant by variant (the statement
strings end in a semicolon, every prefix and infix expression is
parenthesised, literals are regenerated from their values, a boolean, if,
block, while or function node reuses its token's literal). -/
def Node.string : Node → List String
  | .Program statements => Node.string_concat statements
  | .AssignStatement token name value =>
      Node.string name ++ [" "] ++ token.literal ++ [" "] ++ Node.string value
        ++ [" ", gSemicolon]
  | .ReturnStatement token value =>
      token.literal ++ [" "] ++ Node.string value ++ [" ", gSemicolon]
  | .ExpressionStatement _ expression =>
      Node.string expression ++ [" ", gSemicolon]
  | .BlockStatement token statements =>
      token.literal ++ [" "] ++ Node.string_concat statements ++ [" ", gRBrace]
  | .Identifier _ value => value
  | .IntegerLiteral _ value => int_literal_graphemes value
  | .FloatLiteral _ value => float_literal_graphemes value
  | .BooleanLiteral token _ => token.literal
  | .StringLiteral _ value => [gStringOpen] ++ value ++ [gStringClose]
  | .PrefixExpression _ operator right =>
      [gLParen] ++ operator ++ Node.string right ++ [gRParen]
  | .InfixExpression _ left operator right =>
      [gLParen] ++ Node.string left ++ [" "] ++ operator ++ [" "]
        ++ Node.string right ++ [gRParen]
  | .IfExpression token condition consequence alternative =>
      token.literal ++ [" "] ++ Node.string condition ++ [" "]
        ++ Node.string consequence
        ++ (match alternative with
            | some alt => [" ", gElse, " "] ++ Node.string alt
            | none => [])
  | .WhileExpression token condition body =>
      token.literal ++ [" "] ++ Node.string condition ++ [" "] ++ Node.string body
  | .FunctionLiteral token name parameters body =>
      token.literal ++ [" "]
        ++ (match name with
            | some n => Node.string n ++ [" "]
            | none => [])
        ++ [gLParen] ++ Node.string_join_comma parameters ++ [gRParen, " "]
        ++ Node.string body
  | .CallExpression _ function arguments =>
      Node.string function ++ [gLParen] ++ Node.string_join_comma arguments
        ++ [gRParen]

/-- Concatenation of the strings of a statement list (`Program::string`,
`BlockStatement::string`). -/
def Node.string_concat : List Node → List String
  | [] => []
  | s :: rest => Node.string s ++ Node.string_concat rest

/-- Join with the comma cluster and a space (`join("🦶 ")` of the parameter
and argument lists). -/
def Node.string_join_comma : List Node → List String
  | [] => []
  | [x] => Node.string x
  | x :: rest => Node.string x ++ [gComma, " "] ++ Node.string_join_comma rest

end

mutual

/-- Structural equivalence of nodes: equality of every variant, value and
child, ignoring the stored `token` fields (re-parsing printed text
canonicalises token literals, e.g. an integer literal written with leading
zeros re-tokenizes to its canonical digits). -/
def node_equiv : Node → Node → Bool
  | .Program s1, .Program s2 => node_list_equiv s1 s2
  | .AssignStatement _ n1 v1, .AssignStatement _ n2 v2 =>
      node_equiv n1 n2 && node_equiv v1 v2
  | .ReturnStatement _ v1, .ReturnStatement _ v2 => node_equiv v1 v2
  | .ExpressionStatement _ e1, .ExpressionStatement _ e2 => node_equiv e1 e2
  | .BlockStatement _ s1, .BlockStatement _ s2 => node_list_equiv s1 s2
  | .Identifier _ v1, .Identifier _ v2 => v1 == v2
  | .IntegerLiteral _ v1, .IntegerLiteral _ v2 => v1 == v2
  | .FloatLiteral _ v1, .FloatLiteral _ v2 => v1 == v2
  | .BooleanLiteral _ v1, .BooleanLiteral _ v2 => v1 == v2
  | .StringLiteral _ v1, .StringLiteral _ v2 => v1 == v2
  | .PrefixExpression _ o1 r1, .PrefixExpression _ o2 r2 =>
      o1 == o2 && node_equiv r1 r2
  | .InfixExpression _ l1 o1 r1, .InfixExpression _ l2 o2 r2 =>
      node_equiv l1 l2 && o1 == o2 && node_equiv r1 r2
  | .IfExpression _ c1 q1 a1, .IfExpression _ c2 q2 a2 =>
      node_equiv c1 c2 && node_equiv q1 q2 && node_opt_equiv a1 a2
  | .WhileExpression _ c1 b1, .WhileExpression _ c2 b2 =>
      node_equiv c1 c2 && node_equiv b1 b2
  | .FunctionLiteral _ n1 p1 b1, .FunctionLiteral _ n2 p2 b2 =>
      node_opt_equiv n1 n2 && node_list_equiv p1 p2 && node_equiv b1 b2
  | .CallExpression _ f1 a1, .CallExpression _ f2 a2 =>
      node_equiv f1 f2 && node_list_equiv a1 a2
  | _, _ => false

/-- Pointwise structural equivalence of node lists. -/
def node_list_equiv : List Node → List Node → Bool
  | [], [] => true
  | a :: as_, b :: bs => node_equiv a b && node_list_equiv as_ bs
  | _, _ => false

/-- Structural equivalence of optional nodes. -/
def node_opt_equiv : Option Node → Option Node → Bool
  | none, none => true
  | some a, some b => node_equiv a b
  | _, _ => false

end

/-- Does any environment of the chain bind this name?  (States the
"error only if no environment in the chain binds it" half of the lookup
claim.) -/
def chain_binds : Environment → List String → Bool
  | .mk m outer, k =>
      (map_lookup m k).isSome ||
        match outer with
        | some o => chain_binds o k
        | none => false

/-- The whole pipeline at one source text: tokenize, parse, and when the
parse does not abort, evaluate the program in a fresh environment —
`none` an aborted parse, `some none` an evaluation panic, `some (some r)`
the reported evaluation outcome. -/
def run_source (source : List String) : Option (Option (Except String Object)) :=
  (parse_program (tokenize source)).map (fun p =>
    (eval p.1 Environment.new).map (fun r => r.1))

/-- A cluster the number handler keeps consuming: a digit keycap or a
decimal-dot circle. -/
def is_num_cluster (c : String) : Bool := DIGITALS.contains c || DOTS.contains c

/-- What the number handler appends for one consumed cluster: the ASCII
digit of a digit keycap, an ASCII full stop for a dot circle. -/
def num_char (c : String) : String :=
  if DIGITALS.contains c then firstCharStr c else "."

/-- The digit keycap cluster of a decimal digit. -/
def digit_cluster (d : Fin 10) : String := keycap (Char.ofNat (48 + d.val))

/-- The plain one-character string of a decimal digit. -/
def fin_char (d : Fin 10) : String := String.mk [Char.ofNat (48 + d.val)]

/-! ## Round-trip development (claim C6)

The development below relates the pretty-printer to the lexer and the
parser.  `tokensOf` is the token stream the printed text of a node
re-tokenizes to; `canon` is the node the parser rebuilds from that stream
(the same tree with every stored token replaced by the canonical token the
re-lexed text carries); `wfS`/`wfE` delimit the tree shapes the parser
produces, with the one extra restriction that float literals are
non-integral (an integral float prints without a decimal marker and
re-parses as an integer literal — the counterexample to the unrestricted
claim). -/

/-- The canonical assign-arrow token of re-lexed printed text. -/
def tkAssign : Token := ⟨TokenType.Assign, [gAssign]⟩

/-- The canonical semicolon token. -/
def tkSemi : Token := ⟨TokenType.Semicolon, [gSemicolon]⟩

/-- The canonical comma token. -/
def tkComma : Token := ⟨TokenType.Comma, [gComma]⟩

/-- The canonical left-parenthesis token. -/
def tkLParen : Token := ⟨TokenType.LParenthesis, [gLParen]⟩

/-- The canonical right-parenthesis token. -/
def tkRParen : Token := ⟨TokenType.RParenthesis, [gRParen]⟩

/-- The canonical left-brace token. -/
def tkLBrace : Token := ⟨TokenType.LBrace, [gLBrace]⟩

/-- The canonical right-brace token. -/
def tkRBrace : Token := ⟨TokenType.RBrace, [gRBrace]⟩

/-- The canonical if-keyword token. -/
def tkIf : Token := ⟨TokenType.If, [gIf]⟩

/-- The canonical else-keyword token. -/
def tkElse : Token := ⟨TokenType.Else, [gElse]⟩

/-- The canonical while-keyword token. -/
def tkWhile : Token := ⟨TokenType.While, [gWhile]⟩

/-- The canonical function-keyword token. -/
def tkFunction : Token := ⟨TokenType.Function, [gFunction]⟩

/-- The canonical return-keyword token. -/
def tkReturn : Token := ⟨TokenType.Return, [gReturn]⟩

/-- The canonical true-literal token. -/
def tkTrue : Token := ⟨TokenType.True, [gTrue]⟩

/-- The canonical false-literal token. -/
def tkFalse : Token := ⟨TokenType.False, [gFalse]⟩

/-- The token kind the lexer assigns to an operator literal (the grapheme
list stored in a prefix or infix node). -/
def opTokenType (op : List String) : TokenType :=
  if op = [gPlus] then .Plus
  else if op = [gMinus] then .Minus
  else if op = [gMultiply] then .Multiply
  else if op = [gDivide] then .Divide
  else if op = [gModulo] then .Modulo
  else if op = [gEqual] then .Equal
  else if op = [gElse, gEqual] then .NotEqual
  else if op = [gGreater] then .GreaterThan
  else if op = [gGreater, gEqual] then .GreaterThanOrEqual
  else if op = [gLess] then .LessThan
  else if op = [gLess, gEqual] then .LessThanOrEqual
  else if op = [gAnd] then .And
  else if op = [gOr] then .Or
  else if op = [gNot] then .Not
  else .Illegal

/-- The literal the lexer stores for a re-tokenized integer literal: one
plain one-character digit string per decimal digit. -/
def intTokLit (v : Int) : List String := (int_to_chars v).map (fun c => String.mk [c])

/-- The literal the lexer stores for a re-tokenized float literal. -/
def floatTokLit (q : F64) : List String := (f64_to_chars q).map (fun c => String.mk [c])

/-- The operator literals of the thirteen binary operators. -/
def opLits : List (List String) :=
  [[gPlus], [gMinus], [gMultiply], [gDivide], [gModulo], [gEqual],
   [gElse, gEqual], [gGreater], [gGreater, gEqual], [gLess], [gLess, gEqual],
   [gAnd], [gOr]]

mutual

/-- The token stream the printed text of a node re-tokenizes to (proved
against the lexer below). -/
def tokensOf : Node → List Token
  | .Program ss => tokensOf_list ss
  | .AssignStatement _ name value =>
      tokensOf name ++ tkAssign :: (tokensOf value ++ [tkSemi])
  | .ReturnStatement _ value => tkReturn :: (tokensOf value ++ [tkSemi])
  | .ExpressionStatement _ e => tokensOf e ++ [tkSemi]
  | .BlockStatement _ ss => tkLBrace :: (tokensOf_list ss ++ [tkRBrace])
  | .Identifier _ v => [⟨TokenType.Identifier, v⟩]
  | .IntegerLiteral _ v => [⟨TokenType.Integer, intTokLit v⟩]
  | .FloatLiteral _ q => [⟨TokenType.Float, floatTokLit q⟩]
  | .BooleanLiteral _ b => [if b then tkTrue else tkFalse]
  | .StringLiteral _ v => [⟨TokenType.String, v⟩]
  | .PrefixExpression _ op r =>
      tkLParen :: ⟨opTokenType op, op⟩ :: (tokensOf r ++ [tkRParen])
  | .InfixExpression _ l op r =>
      tkLParen :: (tokensOf l ++ ⟨opTokenType op, op⟩ :: (tokensOf r ++ [tkRParen]))
  | .IfExpression _ c q a =>
      tkIf :: (tokensOf c ++ tokensOf q ++
        (match a with
         | some alt => tkElse :: tokensOf alt
         | none => []))
  | .WhileExpression _ c b => tkWhile :: (tokensOf c ++ tokensOf b)
  | .FunctionLiteral _ name ps b =>
      tkFunction ::
        ((match name with
          | some nm => tokensOf nm
          | none => []) ++
         tkLParen :: (tokensOf_args ps ++ tkRParen :: tokensOf b))
  | .CallExpression _ f args =>
      tokensOf f ++ tkLParen :: (tokensOf_args args ++ [tkRParen])

/-- The concatenated token streams of a statement list. -/
def tokensOf_list : List Node → List Token
  | [] => []
  | s :: rest => tokensOf s ++ tokensOf_list rest

/-- The token streams of a comma-joined parameter or argument list. -/
def tokensOf_args : List Node → List Token
  | [] => []
  | [x] => tokensOf x
  | x :: rest => tokensOf x ++ tkComma :: tokensOf_args rest

end

/-- The first token of the printed text of a node (the token the parser
stores in an expression statement). -/
def headTokOf (e : Node) : Token := (tokensOf e).headD Token.start

mutual

/-- The node the parser rebuilds from the re-tokenized printed text: the
same tree with every stored token replaced by its canonical re-lexed
form. -/
def canon : Node → Node
  | .Program ss => .Program (canon_list ss)
  | .AssignStatement _ name value => .AssignStatement tkAssign (canon name) (canon value)
  | .ReturnStatement _ v => .ReturnStatement tkReturn (canon v)
  | .ExpressionStatement _ e => .ExpressionStatement (headTokOf e) (canon e)
  | .BlockStatement _ ss => .BlockStatement tkLBrace (canon_list ss)
  | .Identifier _ v => .Identifier ⟨TokenType.Identifier, v⟩ v
  | .IntegerLiteral _ v => .IntegerLiteral ⟨TokenType.Integer, intTokLit v⟩ v
  | .FloatLiteral _ q => .FloatLiteral ⟨TokenType.Float, floatTokLit q⟩ q
  | .BooleanLiteral _ b => .BooleanLiteral (if b then tkTrue else tkFalse) b
  | .StringLiteral _ v => .StringLiteral ⟨TokenType.String, v⟩ v
  | .PrefixExpression _ op r => .PrefixExpression ⟨opTokenType op, op⟩ op (canon r)
  | .InfixExpression _ l op r =>
      .InfixExpression ⟨opTokenType op, op⟩ (canon l) op (canon r)
  | .IfExpression _ c q a => .IfExpression tkIf (canon c) (canon q) (canon_opt a)
  | .WhileExpression _ c b => .WhileExpression tkWhile (canon c) (canon b)
  | .FunctionLiteral _ nm ps b =>
      .FunctionLiteral tkFunction (canon_opt nm) (canon_list ps) (canon b)
  | .CallExpression _ f args => .CallExpression tkLParen (canon f) (canon_list args)

/-- Pointwise canonicalisation of a node list. -/
def canon_list : List Node → List Node
  | [] => []
  | x :: rest => canon x :: canon_list rest

/-- Canonicalisation of an optional node. -/
def canon_opt : Option Node → Option Node
  | none => none
  | some x => some (canon x)

end

/-- The last token of the printed text of a node (printed statements end in
the semicolon or closing brace, parenthesised expressions in the right
parenthesis, if/while/function expressions in the closing brace of their
final block). -/
def lastTok : Node → Token
  | .Program _ => Token.start
  | .AssignStatement _ _ _ => tkSemi
  | .ReturnStatement _ _ => tkSemi
  | .ExpressionStatement _ _ => tkSemi
  | .BlockStatement _ _ => tkRBrace
  | .Identifier _ v => ⟨TokenType.Identifier, v⟩
  | .IntegerLiteral _ v => ⟨TokenType.Integer, intTokLit v⟩
  | .FloatLiteral _ q => ⟨TokenType.Float, floatTokLit q⟩
  | .BooleanLiteral _ b => if b then tkTrue else tkFalse
  | .StringLiteral _ v => ⟨TokenType.String, v⟩
  | .PrefixExpression _ _ _ => tkRParen
  | .InfixExpression _ _ _ _ => tkRParen
  | .IfExpression _ _ _ _ => tkRBrace
  | .WhileExpression _ _ _ => tkRBrace
  | .FunctionLiteral _ _ _ _ => tkRBrace
  | .CallExpression _ _ _ => tkRParen

/-- Is an identifier value a nonempty run of identifier clusters? -/
def wfIdentVal (v : List String) : Bool := !v.isEmpty && v.all is_identifier_char

mutual

/-- Wellformedness of a statement node: the shape `parse_statement`
produces, with canonical keyword-token literals. -/
def wfS : Node → Bool
  | .AssignStatement tok name value =>
      tok.literal == [gAssign] &&
      (match name with
       | .Identifier _ v => wfIdentVal v
       | _ => false) && wfE value
  | .ReturnStatement tok v => tok.literal == [gReturn] && wfE v
  | .ExpressionStatement _ e => wfE e
  | .BlockStatement tok ss => tok.literal == [gLBrace] && wfS_list ss
  | _ => false

/-- Wellformedness of each statement of a list. -/
def wfS_list : List Node → Bool
  | [] => true
  | s :: rest => wfS s && wfS_list rest

/-- Wellformedness of an expression node: the shape `parse_expression`
produces — and, the one genuine restriction, float literals are
non-integral (numerator at least one against a denominator of at least two,
in lowest terms, denominator dividing a power of ten). -/
def wfE : Node → Bool
  | .Identifier _ v => wfIdentVal v
  | .IntegerLiteral _ v => decide (0 ≤ v) && decide (v ≤ i64_max)
  | .FloatLiteral _ q =>
      decide (1 ≤ q.num) && decide (2 ≤ q.den) &&
      (Nat.gcd q.num.natAbs q.den == 1) && (find_exp q.den).isSome
  | .BooleanLiteral tok b => tok.literal == [if b then gTrue else gFalse]
  | .StringLiteral _ v => !(v.contains gStringClose)
  | .PrefixExpression _ op r => (op == [gNot] || op == [gMinus]) && wfE r
  | .InfixExpression _ l op r => opLits.contains op && wfE l && wfE r
  | .IfExpression tok c q a =>
      tok.literal == [gIf] && wfE c && wfBlockNode q &&
      (match a with
       | none => true
       | some alt => wfBlockNode alt)
  | .WhileExpression tok c b => tok.literal == [gWhile] && wfE c && wfBlockNode b
  | .FunctionLiteral tok nm ps b =>
      tok.literal == [gFunction] &&
      (match nm with
       | none => true
       | some (.Identifier _ v) => wfIdentVal v
       | some _ => false) &&
      wfIdentList ps && wfBlockNode b
  | .CallExpression _ f args => wfE f && wfE_list args
  | _ => false

/-- Wellformedness of each expression of an argument list. -/
def wfE_list : List Node → Bool
  | [] => true
  | e :: rest => wfE e && wfE_list rest

/-- Wellformedness of a brace block in expression position. -/
def wfBlockNode : Node → Bool
  | .BlockStatement tok ss => tok.literal == [gLBrace] && wfS_list ss
  | _ => false

/-- Wellformedness of a parameter list: wellformed identifiers only. -/
def wfIdentList : List Node → Bool
  | [] => true
  | .Identifier _ v :: rest => wfIdentVal v && wfIdentList rest
  | _ => false

end

/-- Wellformedness of a whole program node. -/
def wfProgram : Node → Bool
  | .Program ss => wfS_list ss
  | _ => false

/-- Is this node anything but a call expression?  (The printed text of a
non-call node is parsed entirely by one registered prefix parser; a call
adds folding steps of the expression loop.) -/
def notCall : Node → Bool
  | .CallExpression _ _ _ => false
  | _ => true

/-- One folding step the expression loop performs after the leading atom of
a printed expression: a call-argument fold or a single infix fold (the body
of a printed parenthesised infix expression). -/
inductive CFold where
  | call (args : List Node)
  | infx (op : List String) (r : Node)

/-- The tokens of one folding step. -/
def CFold.toks : CFold → List Token
  | .call A => tkLParen :: (tokensOf_args A ++ [tkRParen])
  | .infx op r => ⟨opTokenType op, op⟩ :: tokensOf r

/-- The node one folding step builds from the expression parsed so far. -/
def CFold.apply (left : Node) : CFold → Node
  | .call A => .CallExpression tkLParen left (canon_list A)
  | .infx op r => .InfixExpression ⟨opTokenType op, op⟩ left op (canon r)

/-- The tokens of a list of folding steps. -/
def foldsToks : List CFold → List Token
  | [] => []
  | f :: fs => f.toks ++ foldsToks fs

/-- The node a list of folding steps builds, left to right. -/
def foldsApply (left : Node) : List CFold → Node
  | [] => left
  | f :: fs => foldsApply (CFold.apply left f) fs

/-- The token the cursor rests on after a list of folding steps (the given
current token when there is none). -/
def foldsLast (cur : Token) : List CFold → Token
  | [] => cur
  | [.call _] => tkRParen
  | [.infx _ r] => lastTok r
  | _ :: fs => foldsLast cur fs

/-- Wellformedness of a fold list: wellformed components, an infix fold
only in final position. -/
def wfFolds : List CFold → Bool
  | [] => true
  | [.infx op r] => opLits.contains op && wfE r
  | .call A :: fs => wfE_list A && wfFolds fs
  | _ => false

/-- The innermost non-call head of a call spine. -/
def spineBase : Node → Node
  | .CallExpression _ f _ => spineBase f
  | e => e

/-- The call folds of a call spine, outermost last. -/
def spineFolds : Node → List CFold
  | .CallExpression _ f A => spineFolds f ++ [.call A]
  | _ => []

/-- The condition under which the expression loop stops without touching
the rest of the input: no next token, or a next token of lowest precedence
that is not the else keyword (the if parser peeks one token for an else
branch). -/
def restOK : List Token → Prop
  | [] => True
  | t :: _ => get_operator_precedence t = .Lowest ∧ ¬(t.token_type = TokenType.Else)

/-- The weaker condition a registered prefix parser needs of the input
after its production: only the else-peek of the if parser reads it. -/
def dispRestOK : List Token → Prop
  | [] => True
  | t :: _ => ¬(t.token_type = TokenType.Else)

/-- The condition a statement parser needs of the input after its
production: the trailing-semicolon loop must not keep consuming. -/
def stmtFollowOK : List Token → Prop
  | [] => True
  | t :: _ => ¬(t.token_type = TokenType.Semicolon)

/-- The token kinds a printed expression can start with. -/
def isExprHead (tt : TokenType) : Bool :=
  match tt with
  | .Identifier | .Integer | .Float | .True | .False | .String
  | .LParenthesis | .If | .While | .Function => true
  | _ => false

/-- Fold lists fed to the expression loop at a given minimum precedence:
an infix fold only happens from lowest precedence (the parenthesised
infix body is parsed there). -/
def foldsPrecOK (prec : Precedence) : List CFold → Prop
  | [] => True
  | .call _ :: fs => foldsPrecOK prec fs
  | .infx _ _ :: fs => prec = Precedence.Lowest ∧ foldsPrecOK prec fs

/-- Correctness statement for a registered prefix parser on the printed
tokens of a non-call node: it returns the canonical node and leaves the
cursor on the node's last token. -/
def PD (e : Node) : Prop :=
  ∀ t ts rest f, tokensOf e = t :: ts → 8 * (tokensOf e).length + 6 ≤ f →
    dispRestOK rest →
    parse_prefix_dispatch f t.token_type (t :: (ts ++ rest)) =
      some (.ok (canon e), lastTok e :: rest)

/-- Correctness statement for the expression loop on a fold-token suffix. -/
def PL (fs : List CFold) : Prop :=
  ∀ left cur prec rest f, 8 * (foldsToks fs).length + 8 ≤ f →
    restOK rest → prec < Precedence.Call → foldsPrecOK prec fs →
    parse_expression_loop f prec left (cur :: (foldsToks fs ++ rest)) =
      some (.ok (foldsApply left fs), foldsLast cur fs :: rest)

/-- Correctness statement for `parse_expression` on printed tokens followed
by fold tokens. -/
def PE (e : Node) (fs : List CFold) : Prop :=
  ∀ prec rest f, 8 * ((tokensOf e).length + (foldsToks fs).length) + 7 ≤ f →
    restOK rest → prec < Precedence.Call → foldsPrecOK prec fs →
    parse_expression f prec (tokensOf e ++ (foldsToks fs ++ rest)) =
      some (.ok (foldsApply (canon e) fs), foldsLast (lastTok e) fs :: rest)

/-- Correctness statement for the call-argument loop. -/
def PA (A : List Node) : Prop :=
  ∀ acc cur rest f, 8 * (tokensOf_args A).length + 8 ≤ f →
    parse_call_args f acc (cur :: (tokensOf_args A ++ tkRParen :: rest)) =
      some (.ok (acc ++ canon_list A), tkRParen :: rest)

/-- Correctness statement for the parameter loop. -/
def PP (ps : List Node) : Prop :=
  ∀ acc cur rest f, 8 * (tokensOf_args ps).length + 8 ≤ f →
    parse_fn_params f acc (cur :: (tokensOf_args ps ++ tkRParen :: rest)) =
      some (.ok (acc ++ canon_list ps), tkRParen :: rest)

/-- Correctness statement for `parse_block_statement` on a printed block. -/
def PBlk (b : Node) : Prop :=
  ∀ rest f, 8 * (tokensOf b).length + 6 ≤ f →
    parse_block_statement f (tokensOf b ++ rest) =
      some (.ok (canon b), tkRBrace :: rest)

/-- Correctness statement for `parse_statement` on a printed statement. -/
def PS (s : Node) : Prop :=
  ∀ rest f, 8 * (tokensOf s).length + 7 ≤ f → stmtFollowOK rest →
    parse_statement f (tokensOf s ++ rest) =
      some (.ok (canon s), lastTok s :: rest)

/-- Correctness statement for the block-statement loop on a printed
statement list. -/
def PB (ss : List Node) : Prop :=
  ∀ tok acc rest f, 8 * (tokensOf_list ss).length + 8 ≤ f →
    parse_block_loop f tok acc (tokensOf_list ss ++ tkRBrace :: rest) =
      some (.ok (.BlockStatement tok (acc ++ canon_list ss)), tkRBrace :: rest)

/-- The joint parser-correctness statement, indexed by a size bound on the
node or fold argument (the strong-induction measure). -/
def MegaAt (n : Nat) : Prop :=
  (∀ e, sizeOf e ≤ n → notCall e = true → wfE e = true → PD e) ∧
  (∀ fs, sizeOf fs ≤ n → wfFolds fs = true → PL fs) ∧
  (∀ e fs, sizeOf e + sizeOf fs ≤ n → wfE e = true → wfFolds fs = true → PE e fs) ∧
  (∀ A, sizeOf A ≤ n → wfE_list A = true → PA A) ∧
  (∀ ps, sizeOf ps ≤ n → wfIdentList ps = true → PP ps) ∧
  (∀ b, sizeOf b ≤ n → wfBlockNode b = true → PBlk b) ∧
  (∀ s, sizeOf s ≤ n → wfS s = true → PS s) ∧
  (∀ ss, sizeOf ss ≤ n → wfS_list ss = true → PB ss)

/-- What the lexer may peek at after the final token of a printed segment:
after an identifier no identifier cluster, after a number no number
cluster, after a token built by the two-character handler no equal sign. -/
def followCluster (tt : TokenType) (c : String) : Prop :=
  match tt with
  | .Identifier => is_identifier_char c = false
  | .Integer => is_num_cluster c = false
  | .Float => is_num_cluster c = false
  | .GreaterThan => ¬(c = gEqual)
  | .LessThan => ¬(c = gEqual)
  | .Else => ¬(c = gEqual)
  | _ => True

/-- The follow condition of a printed segment against the rest of the
input. -/
def followg (t : Token) : List String → Prop
  | [] => True
  | c :: _ => followCluster t.token_type c

/-- Lexer-correctness statement for the printed text of an expression: the
scan emits the node's tokens and continues on the rest with its exact
length as fuel. -/
def LXE (e : Node) : Prop :=
  ∀ gs f₁, followg (lastTok e) gs → (Node.string e ++ gs).length ≤ f₁ →
    tokenize_loop f₁ (Node.string e ++ gs) =
      tokensOf e ++ tokenize_loop gs.length gs

/-- Lexer-correctness statement for the printed text of a statement. -/
def LXS (s : Node) : Prop :=
  ∀ gs f₁, (Node.string s ++ gs).length ≤ f₁ →
    tokenize_loop f₁ (Node.string s ++ gs) =
      tokensOf s ++ tokenize_loop gs.length gs

/-- Lexer-correctness statement for a printed statement list. -/
def LXSL (ss : List Node) : Prop :=
  ∀ gs f₁, (Node.string_concat ss ++ gs).length ≤ f₁ →
    tokenize_loop f₁ (Node.string_concat ss ++ gs) =
      tokensOf_list ss ++ tokenize_loop gs.length gs

/-- Lexer-correctness statement for a printed comma-joined list (in print
such a list is always followed by the right parenthesis). -/
def LXA (A : List Node) : Prop :=
  ∀ gs f₁, gs.head? = some gRParen → (Node.string_join_comma A ++ gs).length ≤ f₁ →
    tokenize_loop f₁ (Node.string_join_comma A ++ gs) =
      tokensOf_args A ++ tokenize_loop gs.length gs

/-- The joint lexer-correctness statement over printed nodes, indexed by
the strong-induction size bound. -/
def LexMegaAt (n : Nat) : Prop :=
  (∀ e, sizeOf e ≤ n → wfE e = true → LXE e) ∧
  (∀ s, sizeOf s ≤ n → wfS s = true → LXS s) ∧
  (∀ ss, sizeOf ss ≤ n → wfS_list ss = true → LXSL ss) ∧
  (∀ A, sizeOf A ≤ n → wfE_list A = true → LXA A)

/-- A fold list of call folds only (the spine of a call expression). -/
def onlyCalls : List CFold → Bool
  | [] => true
  | .call _ :: fs => onlyCalls fs
  | _ => false

/-- The concrete wellformed program of the C6 witness: one expression
statement adding the non-integral float 3/2 and the integer 1. -/
def c6Prog : List Node :=
  [Node.ExpressionStatement Token.start
    (.InfixExpression Token.start (.FloatLiteral Token.start ⟨3, 2⟩)
      [gPlus] (.IntegerLiteral Token.start 1))]

/-! ## Theorems settling the claims -/

/-- C1: the integer-by-integer division (and remainder) of
`eval_integer_infix_expression` panics when the right operand is zero — the
evaluation aborts instead of returning the reported error the claim and the
spec require.  The theorem evaluates the code at the failing input
`1️⃣ ➗ 0️⃣`: the parse succeeds with no parse errors, and the evaluation
aborts (`none`), reaching the panic of the division handler; the remainder
operator panics identically. -/
theorem c1_integer_division_by_zero_aborts :
    run_source [keycap '1', " ", gDivide, " ", keycap '0'] = some none ∧
    eval_integer_infix_expression [gDivide] 1 0 = none ∧
    eval_integer_infix_expression [gModulo] 1 0 = none ∧
    eval_infix_expression [gDivide] (Object.Integer 1) (Object.Integer 0) = none := by
  exact ⟨rfl, rfl, rfl, rfl⟩

/-- C3: program evaluation runs the statements in order and stops at the
first `ReturnValue`, unwrapping it; otherwise the last statement's result is
the program's result and an empty program is the empty-statements error.
Block evaluation sequences identically but hands a `ReturnValue` back
unwrapped, which is how a return escapes a nested block up to the program
(demonstrated by the final conjunct: a return nested in a block ends the
program with the unwrapped value, skipping the rest). -/
theorem c3_program_block_sequencing :
    (∀ env, eval_program [] env =
        some (.error "Empty statements to evaluate values", env)) ∧
    (∀ s rest env v env', eval s env = some (.ok (.ReturnValue v), env') →
        eval_program (s :: rest) env = some (.ok v, env')) ∧
    (∀ s env r env', eval s env = some (r, env') →
        (∀ v, r ≠ .ok (.ReturnValue v)) →
        eval_program [s] env = some (r, env')) ∧
    (∀ s t rs env r env', eval s env = some (r, env') →
        (∀ v, r ≠ .ok (.ReturnValue v)) →
        eval_program (s :: t :: rs) env = eval_program (t :: rs) env') ∧
    (∀ env, eval_block_statements [] env =
        some (.error "Empty statements to evaluate values", env)) ∧
    (∀ s rest env v env', eval s env = some (.ok (.ReturnValue v), env') →
        eval_block_statements (s :: rest) env =
          some (.ok (.ReturnValue v), env')) ∧
    (∀ s env r env', eval s env = some (r, env') →
        (∀ v, r ≠ .ok (.ReturnValue v)) →
        eval_block_statements [s] env = some (r, env')) ∧
    (∀ s t rs env r env', eval s env = some (r, env') →
        (∀ v, r ≠ .ok (.ReturnValue v)) →
        eval_block_statements (s :: t :: rs) env =
          eval_block_statements (t :: rs) env') ∧
    eval (.Program
        [.BlockStatement ⟨.LBrace, [gLBrace]⟩
          [.ReturnStatement ⟨.Return, [gReturn]⟩
            (.IntegerLiteral ⟨.Integer, ["7"]⟩ 7),
           .IntegerLiteral ⟨.Integer, ["9"]⟩ 9],
         .IntegerLiteral ⟨.Integer, ["5"]⟩ 5])
      Environment.new = some (.ok (.Integer 7), Environment.new) := by
  refine ⟨fun env => rfl, ?_, ?_, ?_, fun env => rfl, ?_, ?_, ?_, rfl⟩
  · intro s rest env v env' h
    simp only [eval_program, h]
  · intro s env r env' h hr
    simp only [eval_program, h]
  · intro s t rs env r env' h hr
    simp only [eval_program, h]
  · intro s rest env v env' h
    simp only [eval_block_statements, h]
  · intro s env r env' h hr
    simp only [eval_block_statements, h]
  · intro s t rs env r env' h hr
    simp only [eval_block_statements, h]

/-- C3 witness: the sequencing theorem applied at a concrete program — a
return of 7 followed by a literal 5 stops the program at the unwrapped 7,
and a single non-return statement is the program's result. -/
theorem c3_program_block_sequencing_witness :
    eval_program
      [Node.ReturnStatement ⟨.Return, [gReturn]⟩ (.IntegerLiteral ⟨.Integer, ["7"]⟩ 7),
       Node.IntegerLiteral ⟨.Integer, ["5"]⟩ 5]
      Environment.new = some (.ok (.Integer 7), Environment.new) ∧
    eval_program [Node.IntegerLiteral ⟨.Integer, ["5"]⟩ 5] Environment.new =
      some (.ok (.Integer 5), Environment.new) :=
  ⟨c3_program_block_sequencing.2.1 _ _ _ _ _ rfl,
   c3_program_block_sequencing.2.2.1 _ _ _ _ rfl (fun v h => by cases h)⟩

/-- C8: an unterminated string literal is not a reported scan or parse
error — the tokenizer's string handler stops at the end of input without an
out-of-bounds access and silently yields a well-formed String token holding
everything after the opening bubble, which then parses as an ordinary string
literal with an empty error list.  The theorem evaluates the scanner and the
parser at the failing input `🗨️🅰️🅱️` (no closing 💬). -/
theorem c8_unterminated_string_silent_token :
    tokenize [gStringOpen, "a", "b"] =
      [Token.start, ⟨TokenType.String, ["a", "b"]⟩] ∧
    parse_program (tokenize [gStringOpen, "a", "b"]) =
      some (.Program
        [.ExpressionStatement ⟨TokenType.String, ["a", "b"]⟩
          (.StringLiteral ⟨TokenType.String, ["a", "b"]⟩ ["a", "b"])], []) := by
  exact ⟨rfl, rfl⟩

/-- C9 counterexample: the expression `➖8️⃣ ▶️🟰 ➖3️⃣⚪9️⃣ ✖️ 2️⃣`
(that is, `-8 >= -3.9 * 2`) does not evaluate to Boolean true: with unary
minus at Prefix precedence and multiplication at Product precedence the
right side is `(-3.9) * 2 = -7.8`, and `-8 >= -7.8` is false. -/
theorem c9_example_not_true :
    run_source [gMinus, keycap '8', " ", gGreater, gEqual, " ",
      gMinus, keycap '3', gDotWhite, keycap '9', " ", gMultiply, " ", keycap '2'] ≠
      some (some (.ok (Object.Boolean true))) := by
  have h : run_source [gMinus, keycap '8', " ", gGreater, gEqual, " ",
      gMinus, keycap '3', gDotWhite, keycap '9', " ", gMultiply, " ", keycap '2'] =
      some (some (.ok (Object.Boolean false))) := rfl
  rw [h]
  simp

/-- C9 amended: the expression evaluates (through the whole pipeline) to
the Boolean object false. -/
theorem c9_example_evaluates_false :
    run_source [gMinus, keycap '8', " ", gGreater, gEqual, " ",
      gMinus, keycap '3', gDotWhite, keycap '9', " ", gMultiply, " ", keycap '2'] =
      some (some (.ok (Object.Boolean false))) := rfl

/-- Looking a key up right after inserting it finds the inserted value. -/
theorem map_lookup_insert (m : List (List String × Object)) (k : List String)
    (v : Object) : map_lookup (map_insert m k v) k = some v := by
  unfold map_insert
  by_cases h : m.any (fun p => p.1 = k)
  · rw [if_pos h]
    induction m with
    | nil => simp at h
    | cons p rest ih =>
        by_cases hp : p.1 = k
        · simp [map_lookup, hp]
        · simp only [List.any_cons] at h
          have hr : rest.any (fun p => decide (p.1 = k)) = true := by
            rcases Bool.or_eq_true_iff.mp h with h1 | h1
            · exact absurd (of_decide_eq_true h1) hp
            · exact h1
          simpa [map_lookup, hp] using ih hr
  · rw [if_neg h]
    induction m with
    | nil => simp [map_lookup]
    | cons p rest ih =>
        have hp : ¬ (p.1 = k) := by
          intro hh
          exact h (by simp [List.any_cons, hh])
        have hr : ¬ rest.any (fun p => decide (p.1 = k)) = true := by
          intro hh
          exact h (by simp [List.any_cons, hh])
        simpa [map_lookup, hp] using ih hr

/-- Lookup misses exactly when no environment of the chain binds the
name. -/
theorem environment_get_none_iff : ∀ (env : Environment) (k : List String),
    env.get k = none ↔ chain_binds env k = false
  | .mk m outer, k => by
      cases hm : map_lookup m k with
      | some v =>
          cases outer with
          | none => simp [Environment.get, chain_binds, hm]
          | some o => simp [Environment.get, chain_binds, hm]
      | none =>
          cases outer with
          | none => simp [Environment.get, chain_binds, hm]
          | some o =>
              simpa [Environment.get, chain_binds, hm] using
                environment_get_none_iff o k

/-- C2: identifier lookup walks outward through the parent chain — a
binding in the innermost map wins, a miss there defers to the outer
environment, and the lookup comes back empty exactly when no environment of
the chain binds the name (in which case evaluating the identifier is the
"identifier not found" error, and otherwise the innermost binding's value);
an assign statement evaluates its right-hand side and writes the binding
into the innermost (current) environment only, leaving the outer chain
untouched. -/
theorem c2_lookup_outward_assign_innermost :
    (∀ (m : List (List String × Object)) (outer : Option Environment)
        (k : List String) (v : Object), map_lookup m k = some v →
        Environment.get (.mk m outer) k = some v) ∧
    (∀ (m : List (List String × Object)) (o : Environment) (k : List String),
        map_lookup m k = none →
        Environment.get (.mk m (some o)) k = o.get k) ∧
    (∀ (env : Environment) (k : List String),
        env.get k = none ↔ chain_binds env k = false) ∧
    (∀ (env : Environment) (k : List String) (v : Object),
        (env.set k v).outer = env.outer ∧
        (env.set k v).map = map_insert env.map k v ∧
        (env.set k v).get k = some v) ∧
    (∀ (tok : Token) (k : List String) (env : Environment),
        eval (.Identifier tok k) env = some (eval_identifier k env, env)) ∧
    (∀ (k : List String) (env : Environment), env.get k = none →
        eval_identifier k env =
          .error ("identifier not found: " ++ String.join k)) ∧
    (∀ (k : List String) (env : Environment) (v : Object), env.get k = some v →
        eval_identifier k env = .ok v) ∧
    (∀ (tok tok2 : Token) (k : List String) (e : Node) (env : Environment)
        (v : Object) (env' : Environment), eval e env = some (.ok v, env') →
        eval (.AssignStatement tok (.Identifier tok2 k) e) env =
          some (.ok v, env'.set k v)) := by
  refine ⟨?_, ?_, environment_get_none_iff, ?_, fun tok k env => rfl, ?_, ?_, ?_⟩
  · intro m outer k v h
    cases outer <;> simp [Environment.get, h]
  · intro m o k h
    simp [Environment.get, h]
  · intro env k v
    cases env with
    | mk m outer =>
        refine ⟨rfl, rfl, ?_⟩
        cases outer <;>
          simp [Environment.set, Environment.get, map_lookup_insert]
  · intro k env h
    simp [eval_identifier, h]
  · intro k env v h
    simp [eval_identifier, h]
  · intro tok tok2 k e env v env' h
    have he : eval (.AssignStatement tok (.Identifier tok2 k) e) env =
        (match eval e env with
         | none => none
         | some (.error err, env2) => some (.error err, env2)
         | some (.ok v2, env2) => some (.ok v2, env2.set k v2)) := rfl
    rw [he, h]

/-- C2 witness: the lookup and assignment facts at a concrete two-level
chain — the inner binding of `a` shadows the outer one, `b` is found in the
outer environment, a missing `c` is the reported error, and setting `a`
rebinds only the innermost map. -/
theorem c2_lookup_outward_assign_innermost_witness :
    Environment.get
      (.mk [(["a"], Object.Integer 1)]
        (some (.mk [(["a"], Object.Integer 2), (["b"], Object.Integer 3)] none)))
      ["a"] = some (Object.Integer 1) ∧
    Environment.get
      (.mk [(["a"], Object.Integer 1)]
        (some (.mk [(["a"], Object.Integer 2), (["b"], Object.Integer 3)] none)))
      ["b"] = some (Object.Integer 3) ∧
    eval_identifier ["c"] (.mk [(["a"], Object.Integer 1)] none) =
      .error ("identifier not found: " ++ String.join ["c"]) ∧
    (Environment.set
        (.mk [(["a"], Object.Integer 1)] (some (.mk [] none))) ["a"]
        (Object.Integer 9)).outer = some (.mk [] none) :=
  ⟨c2_lookup_outward_assign_innermost.1 _ _ _ _ (by rfl),
   (c2_lookup_outward_assign_innermost.2.1 _ _ _ (by rfl)).trans
     (c2_lookup_outward_assign_innermost.1 _ _ _ _ (by rfl)),
   c2_lookup_outward_assign_innermost.2.2.2.2.2.1 _ _ (by rfl),
   (c2_lookup_outward_assign_innermost.2.2.2.1 _ _ _).1⟩

/-- An object from a boolean is the Boolean object of that boolean. -/
theorem to_bool_object_eq (b : Bool) : to_bool_object b = .Boolean b := by
  cases b <;> rfl

/-- C4: the numeric promotion of infix evaluation — Integer with Integer
stays Integer under the five arithmetic operators (division and remainder
when they do not panic, see C1); a Float on either side makes the
arithmetic result a Float with the Integer operand promoted; the six
comparison operators promote identically and yield a Boolean; and the
pipeline evaluates `1️⃣⚪3️⃣ ➕ 9️⃣` (that is, `1.3 + 9`) to the Float
`10.3`. -/
theorem c4_numeric_promotion :
    (∀ op : List String, op ∈ [[gPlus], [gMinus], [gMultiply]] →
      (∀ l r : Int, ∃ n, eval_infix_expression op (.Integer l) (.Integer r) =
          some (.ok (.Integer n))) ∧
      (∀ (l : Int) (q : F64), ∃ x,
          eval_infix_expression op (.Integer l) (.Float q) =
            some (.ok (.Float x))) ∧
      (∀ (q : F64) (r : Int), ∃ x,
          eval_infix_expression op (.Float q) (.Integer r) =
            some (.ok (.Float x))) ∧
      (∀ q p : F64, ∃ x, eval_infix_expression op (.Float q) (.Float p) =
          some (.ok (.Float x)))) ∧
    (∀ op : List String, op ∈ [[gDivide], [gModulo]] →
      (∀ l r : Int, r ≠ 0 → ¬(l = i64_min ∧ r = -1) →
        ∃ n, eval_infix_expression op (.Integer l) (.Integer r) =
          some (.ok (.Integer n))) ∧
      (∀ (l : Int) (q : F64), ∃ x,
          eval_infix_expression op (.Integer l) (.Float q) =
            some (.ok (.Float x))) ∧
      (∀ (q : F64) (r : Int), ∃ x,
          eval_infix_expression op (.Float q) (.Integer r) =
            some (.ok (.Float x))) ∧
      (∀ q p : F64, ∃ x, eval_infix_expression op (.Float q) (.Float p) =
          some (.ok (.Float x)))) ∧
    (∀ op : List String,
      op ∈ [[gEqual], [gElse, gEqual], [gGreater], [gGreater, gEqual],
            [gLess], [gLess, gEqual]] →
      (∀ l r : Int, ∃ b, eval_infix_expression op (.Integer l) (.Integer r) =
          some (.ok (.Boolean b))) ∧
      (∀ (l : Int) (q : F64), ∃ b,
          eval_infix_expression op (.Integer l) (.Float q) =
            some (.ok (.Boolean b))) ∧
      (∀ (q : F64) (r : Int), ∃ b,
          eval_infix_expression op (.Float q) (.Integer r) =
            some (.ok (.Boolean b))) ∧
      (∀ q p : F64, ∃ b, eval_infix_expression op (.Float q) (.Float p) =
          some (.ok (.Boolean b)))) ∧
    run_source [keycap '1', gDotWhite, keycap '3', " ", gPlus, " ", keycap '9'] =
      some (some (.ok (Object.Float ⟨103, 10⟩))) := by
  refine ⟨?_, ?_, ?_, rfl⟩
  · intro op hop
    simp only [List.mem_cons, List.not_mem_nil, or_false] at hop
    rcases hop with rfl | rfl | rfl <;>
      exact ⟨fun l r => ⟨_, rfl⟩, fun l q => ⟨_, rfl⟩, fun q r => ⟨_, rfl⟩,
        fun q p => ⟨_, rfl⟩⟩
  · intro op hop
    simp only [List.mem_cons, List.not_mem_nil, or_false] at hop
    rcases hop with rfl | rfl
    · refine ⟨fun l r h0 hm => ⟨l.tdiv r, ?_⟩, fun l q => ⟨_, rfl⟩,
        fun q r => ⟨_, rfl⟩, fun q p => ⟨_, rfl⟩⟩
      show (if r = 0 ∨ (l = i64_min ∧ r = -1) then none
          else some (Except.ok (Object.Integer (l.tdiv r)))) =
        some (Except.ok (Object.Integer (l.tdiv r)))
      rw [if_neg (not_or.mpr ⟨h0, hm⟩)]
    · refine ⟨fun l r h0 hm => ⟨l.tmod r, ?_⟩, fun l q => ⟨_, rfl⟩,
        fun q r => ⟨_, rfl⟩, fun q p => ⟨_, rfl⟩⟩
      show (if r = 0 ∨ (l = i64_min ∧ r = -1) then none
          else some (Except.ok (Object.Integer (l.tmod r)))) =
        some (Except.ok (Object.Integer (l.tmod r)))
      rw [if_neg (not_or.mpr ⟨h0, hm⟩)]
  · intro op hop
    have key : ∀ b : Bool, ∃ c,
        (some (Except.ok (to_bool_object b)) :
          Option (Except String Object)) =
        some (Except.ok (Object.Boolean c)) :=
      fun b => ⟨b, by rw [to_bool_object_eq]⟩
    simp only [List.mem_cons, List.not_mem_nil, or_false] at hop
    rcases hop with rfl | rfl | rfl | rfl | rfl | rfl <;>
      exact ⟨fun l r => key _, fun l q => key _, fun q r => key _,
        fun q p => key _⟩

/-- C4 witness: the promotion theorem applied at concrete operands — `2 * 3`
stays Integer, `2 + 0.5` promotes to Float, `7 / 2` is an Integer under the
nonzero-divisor hypotheses, and `1 < 0.5` is a Boolean. -/
theorem c4_numeric_promotion_witness :
    (∃ n, eval_infix_expression [gMultiply] (.Integer 2) (.Integer 3) =
        some (.ok (.Integer n))) ∧
    (∃ x, eval_infix_expression [gPlus] (.Integer 2) (.Float ⟨1, 2⟩) =
        some (.ok (.Float x))) ∧
    (∃ n, eval_infix_expression [gDivide] (.Integer 7) (.Integer 2) =
        some (.ok (.Integer n))) ∧
    (∃ b, eval_infix_expression [gLess] (.Integer 1) (.Float ⟨1, 2⟩) =
        some (.ok (.Boolean b))) :=
  ⟨(c4_numeric_promotion.1 [gMultiply] (by simp)).1 2 3,
   (c4_numeric_promotion.1 [gPlus] (by simp)).2.1 2 ⟨1, 2⟩,
   (c4_numeric_promotion.2.1 [gDivide] (by simp)).1 7 2 (by decide)
     (by decide),
   (c4_numeric_promotion.2.2.1 [gLess] (by simp)).2.1 1 ⟨1, 2⟩⟩

/-- C5: the binary-operator precedence levels are ordered Lowest < Or < And
< Equals < Comparison < Sum < Product < Prefix < Call; the folding guard of
`parse_expression` (next token not a semicolon and its precedence above the
caller's minimum) holds exactly when the next token's precedence exceeds
the minimum, because a semicolon's precedence is Lowest and nothing lies
below Lowest; the logical-or and logical-and operators carry precedence
above Lowest, have registered infix parsers, and parse as infix expressions;
and for each pair of adjacent precedence levels the higher-precedence
operator binds tighter (each conjunct parses a three-operand expression and
checks the grouping, with `node_equiv` comparing the shapes regardless of
the stored tokens). -/
theorem c5_precedence_order_and_folding :
    (Precedence.Lowest < Precedence.Or ∧ Precedence.Or < Precedence.And ∧
     Precedence.And < Precedence.Equals ∧
     Precedence.Equals < Precedence.LessGreater ∧
     Precedence.LessGreater < Precedence.Sum ∧
     Precedence.Sum < Precedence.Product ∧
     Precedence.Product < Precedence.Prefix ∧
     Precedence.Prefix < Precedence.Call) ∧
    (∀ (p : Precedence) (t : Token),
       (t.token_type ≠ TokenType.Semicolon ∧ p < get_operator_precedence t) ↔
         p < get_operator_precedence t) ∧
    (get_operator_precedence ⟨.Or, [gOr]⟩ = Precedence.Or ∧
     get_operator_precedence ⟨.And, [gAnd]⟩ = Precedence.And ∧
     infix_registered .Or = true ∧ infix_registered .And = true) ∧
    ((parse_program (tokenize ["a", " ", gOr, " ", "b", " ", gAnd, " ", "c"])).map
        (fun p => node_equiv p.1 (.Program [.ExpressionStatement Token.start
          (.InfixExpression Token.start (.Identifier Token.start ["a"]) [gOr]
            (.InfixExpression Token.start (.Identifier Token.start ["b"]) [gAnd]
              (.Identifier Token.start ["c"])))])) = some true) ∧
    ((parse_program (tokenize ["a", " ", gAnd, " ", "b", " ", gEqual, " ", "c"])).map
        (fun p => node_equiv p.1 (.Program [.ExpressionStatement Token.start
          (.InfixExpression Token.start (.Identifier Token.start ["a"]) [gAnd]
            (.InfixExpression Token.start (.Identifier Token.start ["b"]) [gEqual]
              (.Identifier Token.start ["c"])))])) = some true) ∧
    ((parse_program (tokenize ["a", " ", gEqual, " ", "b", " ", gLess, " ", "c"])).map
        (fun p => node_equiv p.1 (.Program [.ExpressionStatement Token.start
          (.InfixExpression Token.start (.Identifier Token.start ["a"]) [gEqual]
            (.InfixExpression Token.start (.Identifier Token.start ["b"]) [gLess]
              (.Identifier Token.start ["c"])))])) = some true) ∧
    ((parse_program (tokenize ["a", " ", gLess, " ", "b", " ", gPlus, " ", "c"])).map
        (fun p => node_equiv p.1 (.Program [.ExpressionStatement Token.start
          (.InfixExpression Token.start (.Identifier Token.start ["a"]) [gLess]
            (.InfixExpression Token.start (.Identifier Token.start ["b"]) [gPlus]
              (.Identifier Token.start ["c"])))])) = some true) ∧
    ((parse_program (tokenize ["a", " ", gPlus, " ", "b", " ", gMultiply, " ", "c"])).map
        (fun p => node_equiv p.1 (.Program [.ExpressionStatement Token.start
          (.InfixExpression Token.start (.Identifier Token.start ["a"]) [gPlus]
            (.InfixExpression Token.start (.Identifier Token.start ["b"]) [gMultiply]
              (.Identifier Token.start ["c"])))])) = some true) ∧
    ((parse_program (tokenize [gMinus, "a", " ", gMultiply, " ", "b"])).map
        (fun p => node_equiv p.1 (.Program [.ExpressionStatement Token.start
          (.InfixExpression Token.start
            (.PrefixExpression Token.start [gMinus] (.Identifier Token.start ["a"]))
            [gMultiply] (.Identifier Token.start ["b"]))])) = some true) ∧
    ((parse_program (tokenize [gMinus, "f", gLParen, gRParen])).map
        (fun p => node_equiv p.1 (.Program [.ExpressionStatement Token.start
          (.PrefixExpression Token.start [gMinus]
            (.CallExpression Token.start (.Identifier Token.start ["f"]) []))])) =
        some true) := by
  refine ⟨by decide, ?_, ⟨rfl, rfl, rfl, rfl⟩, rfl, rfl, rfl, rfl, rfl, rfl, rfl⟩
  intro p t
  constructor
  · exact fun h => h.2
  · intro h
    refine ⟨?_, h⟩
    intro he
    have hl : get_operator_precedence t = Precedence.Lowest := by
      simp [get_operator_precedence, he]
    rw [hl] at h
    have : ¬ (p < Precedence.Lowest) := by cases p <;> decide
    exact absurd h this

/-- C5 witness: the folding-guard equivalence applied at the concrete
minimum Lowest and a concrete plus token — the guard holds there because
Sum exceeds Lowest. -/
theorem c5_precedence_order_and_folding_witness :
    (Token.mk .Plus [gPlus]).token_type ≠ TokenType.Semicolon ∧
      Precedence.Lowest < get_operator_precedence (Token.mk .Plus [gPlus]) :=
  (c5_precedence_order_and_folding.2.1 Precedence.Lowest
    (Token.mk .Plus [gPlus])).mpr (by decide)

/-- A digit keycap cluster is not a dot cluster. -/
theorem digit_not_dot (c : String) (h : DIGITALS.contains c = true) :
    DOTS.contains c = false := by
  have hc : c = keycap '0' ∨ c = keycap '1' ∨ c = keycap '2' ∨ c = keycap '3' ∨
      c = keycap '4' ∨ c = keycap '5' ∨ c = keycap '6' ∨ c = keycap '7' ∨
      c = keycap '8' ∨ c = keycap '9' := by
    simpa [DIGITALS] using h
  rcases hc with rfl | rfl | rfl | rfl | rfl | rfl | rfl | rfl | rfl | rfl <;> decide

/-- A dot cluster is neither a digit keycap nor anything but a number
cluster. -/
theorem dot_cluster_facts (c : String) (h : DOTS.contains c = true) :
    DIGITALS.contains c = false ∧ is_num_cluster c = true := by
  have hc : c = DOTS[0] ∨ c = DOTS[1] ∨ c = DOTS[2] ∨ c = DOTS[3] ∨
      c = DOTS[4] ∨ c = DOTS[5] ∨ c = DOTS[6] ∨ c = DOTS[7] ∨ c = DOTS[8] := by
    simpa [DOTS] using h
  rcases hc with rfl | rfl | rfl | rfl | rfl | rfl | rfl | rfl | rfl <;> decide

/-- The accumulation loop of the number handler, characterised: the
consumed clusters are exactly the maximal prefix of digit and dot clusters,
each digit contributing its ASCII digit and each dot an ASCII full stop;
the kind is Float precisely when a dot occurs in that prefix; the rest of
the input is untouched. -/
theorem handle_number_aux_spec (l : List String) :
    handle_number_aux l =
      ((l.takeWhile is_num_cluster).map num_char,
       (if (l.takeWhile is_num_cluster).any (fun c => DOTS.contains c)
        then TokenType.Float else TokenType.Integer),
       l.dropWhile is_num_cluster) := by
  induction l with
  | nil => simp [handle_number_aux]
  | cons c rest ih =>
      by_cases hd : c ∈ DIGITALS
      · have hnum : is_num_cluster c = true := by simp [is_num_cluster, hd]
        have hdot : c ∉ DOTS := by
          simpa using digit_not_dot c (by simpa using hd)
        simp [handle_number_aux, hd, ih, List.takeWhile_cons, hnum, num_char,
          hdot, List.dropWhile_cons]
      · by_cases hdot : c ∈ DOTS
        · have hnum : is_num_cluster c = true := by
            simp [is_num_cluster, hdot]
          simp [handle_number_aux, hd, hdot, ih, List.takeWhile_cons, hnum,
            num_char, List.dropWhile_cons]
        · have hnum : is_num_cluster c = false := by
            simp [is_num_cluster, hd, hdot]
          simp [handle_number_aux, hd, hdot, List.takeWhile_cons, hnum,
            List.dropWhile_cons]

/-- Scanning a digit cluster dispatches to the number handler. -/
theorem tokenize_loop_digit (fuel : Nat) (c : String) (rest : List String)
    (h : c ∈ DIGITALS) :
    tokenize_loop (fuel + 1) (c :: rest) =
      (handle_number c rest).1 :: tokenize_loop fuel (handle_number c rest).2 := by
  have hc : c = keycap '0' ∨ c = keycap '1' ∨ c = keycap '2' ∨ c = keycap '3' ∨
      c = keycap '4' ∨ c = keycap '5' ∨ c = keycap '6' ∨ c = keycap '7' ∨
      c = keycap '8' ∨ c = keycap '9' := by
    simpa [DIGITALS] using h
  rcases hc with rfl | rfl | rfl | rfl | rfl | rfl | rfl | rfl | rfl | rfl <;> rfl

/-- The scanning loop at the end of the input. -/
theorem tokenize_loop_nil (fuel : Nat) : tokenize_loop fuel [] = [] := by
  cases fuel <;> rfl

/-- A prefix entirely satisfying the predicate is taken whole. -/
theorem takeWhile_all_eq {α : Type} (p : α → Bool) :
    ∀ l : List α, (∀ x ∈ l, p x = true) →
      l.takeWhile p = l ∧ l.dropWhile p = []
  | [], _ => ⟨rfl, rfl⟩
  | a :: l, h => by
      have ha : p a = true := h a (List.mem_cons_self a l)
      have ih := takeWhile_all_eq p l (fun x hx => h x (List.mem_cons_of_mem a hx))
      simp [List.takeWhile_cons, List.dropWhile_cons, ha, ih.1, ih.2]

/-- Taking while the predicate holds stops exactly at the first failing
element. -/
theorem takeWhile_middle_eq {α : Type} (p : α → Bool) :
    ∀ (l1 : List α) (a : α) (l2 : List α), (∀ x ∈ l1, p x = true) →
      p a = false →
      (l1 ++ a :: l2).takeWhile p = l1 ∧ (l1 ++ a :: l2).dropWhile p = a :: l2
  | [], a, l2, _, ha => by simp [List.takeWhile_cons, List.dropWhile_cons, ha]
  | b :: l1, a, l2, h, ha => by
      have hb : p b = true := h b (List.mem_cons_self b l1)
      have ih := takeWhile_middle_eq p l1 a l2
        (fun x hx => h x (List.mem_cons_of_mem b hx)) ha
      simp [List.takeWhile_cons, List.dropWhile_cons, hb, ih.1, ih.2]

/-- Every digit keycap is in the digit table. -/
theorem digit_cluster_mem : ∀ x : Fin 10, digit_cluster x ∈ DIGITALS := by decide

/-- The number handler turns a digit keycap into its plain digit. -/
theorem num_char_digit (x : Fin 10) : num_char (digit_cluster x) = fin_char x := by
  have hb : DIGITALS.contains (digit_cluster x) = true := by
    simpa using digit_cluster_mem x
  rw [num_char, if_pos hb]
  rfl

/-- A digit keycap is a number cluster. -/
theorem digit_cluster_num (x : Fin 10) : is_num_cluster (digit_cluster x) = true := by
  simp [is_num_cluster, digit_cluster_mem x]

/-- A plain digit string is not the full stop. -/
theorem fin_char_ne_dot (x : Fin 10) : (fin_char x = ".") = False := by
  revert x
  decide

/-- A plain digit string parses as a digit. -/
theorem str_digit_fin_char (x : Fin 10) : str_digit? (fin_char x) = some x.val := by
  revert x
  decide

/-- The first code point of a digit keycap is its plain digit. -/
theorem firstCharStr_digit (x : Fin 10) :
    firstCharStr (digit_cluster x) = fin_char x := rfl

/-- C7 counterexample: the number handler does not stop after one
decimal-dot cluster — on `1️⃣⚪2️⃣⚪3️⃣` the tokenizer emits a single
Float token whose literal contains two full stops, so the consumed run is
not limited to at most one decimal-dot cluster. -/
theorem c7_two_dots_single_token :
    tokenize [keycap '1', gDotWhite, keycap '2', gDotWhite, keycap '3'] =
      [Token.start, ⟨TokenType.Float, ["1", ".", "2", ".", "3"]⟩] ∧
    (Token.mk TokenType.Float ["1", ".", "2", ".", "3"]).literal.count "." = 2 :=
  ⟨rfl, rfl⟩

/-- C7 amended: the number handler consumes the maximal run of digit and
decimal-dot clusters — any number of dot clusters, not at most one — with
each digit contributing its ASCII digit and each dot an ASCII full stop;
the token kind is Float exactly when at least one dot cluster occurs in
that run; a numeric literal with exactly one decimal marker tokenizes to a
single Float token whose literal is the text with the marker replaced by
the full stop; a Float token whose literal parses re-parses to precisely
that FloatLiteral statement; and the parsed value of a one-marker literal
is the decimal fraction the dotted text denotes. -/
theorem c7_amended_maximal_run_float :
    (∀ l : List String,
        (handle_number_aux l).1 = (l.takeWhile is_num_cluster).map num_char ∧
        (handle_number_aux l).2.2 = l.dropWhile is_num_cluster) ∧
    (∀ l : List String,
        ((handle_number_aux l).2.1 = TokenType.Float ↔
          ∃ c ∈ l.takeWhile is_num_cluster, c ∈ DOTS)) ∧
    (∀ (d : Fin 10) (ds1 ds2 : List (Fin 10)) (dot : String), dot ∈ DOTS →
        tokenize (digit_cluster d :: (ds1.map digit_cluster ++
            dot :: ds2.map digit_cluster)) =
          [Token.start, ⟨TokenType.Float,
            fin_char d :: (ds1.map fin_char ++ "." :: ds2.map fin_char)⟩]) ∧
    (∀ (lit : List String) (v : F64), parse_f64 lit = .ok v →
        parse_program [Token.start, ⟨TokenType.Float, lit⟩] =
          some (.Program [.ExpressionStatement ⟨TokenType.Float, lit⟩
            (.FloatLiteral ⟨TokenType.Float, lit⟩ v)], [])) ∧
    (∀ (d : Fin 10) (ds1 ds2 : List (Fin 10)),
        parse_f64 (fin_char d :: (ds1.map fin_char ++ "." :: ds2.map fin_char)) =
          .ok (F64.norm
            (digits_val (fin_char d :: ds1.map fin_char) * 10 ^ ds2.length +
              digits_val (ds2.map fin_char)) (10 ^ ds2.length))) := by
  refine ⟨?_, ?_, ?_, ?_, ?_⟩
  · intro l
    rw [handle_number_aux_spec]
    exact ⟨rfl, rfl⟩
  · intro l
    rw [handle_number_aux_spec]
    by_cases hc : ((l.takeWhile is_num_cluster).any fun c => DOTS.contains c) = true
    · simp only [hc, if_true]
      simp only [List.any_eq_true] at hc
      simpa using hc
    · simp only [hc, if_false, Bool.false_eq_true]
      constructor
      · intro h
        cases h
      · intro h
        exfalso
        apply hc
        simp only [List.any_eq_true]
        simpa using h
  · intro d ds1 ds2 dot hdot
    have hall : ∀ x ∈ (ds1.map digit_cluster ++ dot :: ds2.map digit_cluster),
        is_num_cluster x = true := by
      intro x hx
      rcases List.mem_append.mp hx with h1 | h2
      · rcases List.mem_map.mp h1 with ⟨y, _, rfl⟩
        exact digit_cluster_num y
      · rcases List.mem_cons.mp h2 with rfl | h3
        · exact (dot_cluster_facts x (by simpa using hdot)).2
        · rcases List.mem_map.mp h3 with ⟨y, _, rfl⟩
          exact digit_cluster_num y
    have htake := takeWhile_all_eq is_num_cluster _ hall
    have hany : ((ds1.map digit_cluster ++ dot :: ds2.map digit_cluster).any
        fun c => DOTS.contains c) = true := by
      simp only [List.any_eq_true]
      exact ⟨dot, by simp, by simpa using hdot⟩
    have hnum := handle_number_aux_spec
      (ds1.map digit_cluster ++ dot :: ds2.map digit_cluster)
    rw [htake.1, htake.2, hany, if_pos rfl] at hnum
    have hmap : (ds1.map digit_cluster ++ dot :: ds2.map digit_cluster).map num_char
        = ds1.map fin_char ++ "." :: ds2.map fin_char := by
      have hdd : dot ∉ DIGITALS := by
        simpa using (dot_cluster_facts dot (by simpa using hdot)).1
      have hdotchar : num_char dot = "." := by
        rw [num_char, if_neg (by simpa using hdd)]
      simp [List.map_map, Function.comp_def, num_char_digit, hdotchar]
    have step : tokenize (digit_cluster d :: (ds1.map digit_cluster ++
        dot :: ds2.map digit_cluster)) =
        Token.start :: (handle_number (digit_cluster d)
            (ds1.map digit_cluster ++ dot :: ds2.map digit_cluster)).1 ::
          tokenize_loop ((ds1.map digit_cluster ++ dot :: ds2.map digit_cluster).length + 1)
            (handle_number (digit_cluster d)
              (ds1.map digit_cluster ++ dot :: ds2.map digit_cluster)).2 := by
      rw [tokenize]
      rw [show (digit_cluster d :: (ds1.map digit_cluster ++
          dot :: ds2.map digit_cluster)).length + 1 =
          ((ds1.map digit_cluster ++ dot :: ds2.map digit_cluster).length + 1) + 1
        from by simp]
      rw [tokenize_loop_digit _ _ _ (digit_cluster_mem d)]
    rw [step, handle_number, hnum, hmap, firstCharStr_digit, tokenize_loop_nil]
  · intro lit v hv
    suffices h : ∀ f : Nat,
        parse_program_loop (f + 8) [] [] [Token.start, ⟨TokenType.Float, lit⟩] =
          some (.Program [.ExpressionStatement ⟨TokenType.Float, lit⟩
            (.FloatLiteral ⟨TokenType.Float, lit⟩ v)], []) by
      have h16 := h 16
      exact h16
    intro f
    simp only [parse_program_loop, parse_statement, parse_expression_statement,
      parse_expression, parse_prefix_dispatch, parse_float_literal, hv,
      parse_expression_loop, next_tok, eat_semicolons, List.tail_cons,
      List.head?_nil, List.head?_cons, List.nil_append]
  · intro d ds1 ds2
    have hsplit := takeWhile_middle_eq (fun s => s ≠ ".")
      (fin_char d :: ds1.map fin_char) "." (ds2.map fin_char)
      (by
        intro x hx
        rcases List.mem_cons.mp hx with rfl | h2
        · simp [fin_char_ne_dot d]
        · rcases List.mem_map.mp h2 with ⟨y, _, rfl⟩
          simp [fin_char_ne_dot y])
      (by simp)
    have hcons : (fin_char d :: (ds1.map fin_char ++ "." :: ds2.map fin_char)) =
        ((fin_char d :: ds1.map fin_char) ++ "." :: ds2.map fin_char) := rfl
    have hdigits : ((fin_char d :: ds1.map fin_char) ++ ds2.map fin_char).all
        (fun s => (str_digit? s).isSome) = true := by
      simp only [List.all_eq_true]
      intro x hx
      rcases List.mem_append.mp hx with h1 | h2
      · rcases List.mem_cons.mp h1 with rfl | h3
        · simp [str_digit_fin_char d]
        · rcases List.mem_map.mp h3 with ⟨y, _, rfl⟩
          simp [str_digit_fin_char y]
      · rcases List.mem_map.mp h2 with ⟨y, _, rfl⟩
        simp [str_digit_fin_char y]
    unfold parse_f64
    rw [hcons, hsplit.1, hsplit.2]
    simp only [List.tail_cons]

    rw [if_neg]
    · simp [List.length_map]
    · rw [not_or, not_or, not_or]
      refine ⟨by simp, not_not_intro hdigits, ?_, ?_⟩
      · intro hcontains
        have hm : "." ∈ ds2.map fin_char := by
          simpa [List.elem_iff] using hcontains
        rcases List.mem_map.mp hm with ⟨y, _, hy⟩
        exact absurd hy (by simpa using fin_char_ne_dot y)
      · intro hh
        exact hh.2 rfl

/-- C7 witness: the amended statement applied at `3️⃣⚪9️⃣` — the white
circle between the two digit keycaps tokenizes to the literal "3.9", the
Float token re-parses to the FloatLiteral of value 39/10, and the parsed
value of the one-marker text is that decimal fraction. -/
theorem c7_amended_maximal_run_float_witness :
    tokenize (digit_cluster 3 :: (List.map digit_cluster [] ++
        gDotWhite :: List.map digit_cluster [9])) =
      [Token.start, ⟨TokenType.Float,
        fin_char 3 :: (List.map fin_char [] ++ "." :: List.map fin_char [9])⟩] ∧
    parse_f64 ["3", ".", "9"] = .ok (F64.norm 39 10) ∧
    parse_program [Token.start, ⟨TokenType.Float, ["3", ".", "9"]⟩] =
      some (.Program [.ExpressionStatement ⟨TokenType.Float, ["3", ".", "9"]⟩
        (.FloatLiteral ⟨TokenType.Float, ["3", ".", "9"]⟩ ⟨39, 10⟩)], []) :=
  ⟨c7_amended_maximal_run_float.2.2.1 3 [] [9] gDotWhite (by decide),
   by
    have := c7_amended_maximal_run_float.2.2.2.2 3 [] [9]
    simpa using this,
   c7_amended_maximal_run_float.2.2.2.1 ["3", ".", "9"] ⟨39, 10⟩ (by rfl)⟩

/-- C10: each of the nine coloured-circle clusters is accepted by the
number handler as the decimal marker — whichever circle follows, the
handler consumes it, switches the kind to Float and appends the ASCII full
stop, so the produced token does not depend on which circle was written;
in particular `3️⃣◯9️⃣` tokenizes to the identical Float token for every
circle ◯ in the table. -/
theorem c10_any_dot_cluster_normalized :
    (∀ dot, dot ∈ DOTS → ∀ rest : List String,
        handle_number_aux (dot :: rest) =
          ("." :: (handle_number_aux rest).1, TokenType.Float,
            (handle_number_aux rest).2.2)) ∧
    (∀ dot1 dot2, dot1 ∈ DOTS → dot2 ∈ DOTS → ∀ (cur : String) (rest : List String),
        handle_number cur (dot1 :: rest) = handle_number cur (dot2 :: rest)) ∧
    (∀ dot, dot ∈ DOTS →
        tokenize [keycap '3', dot, keycap '9'] =
          [Token.start, ⟨TokenType.Float, ["3", ".", "9"]⟩]) := by
  have base : ∀ dot, dot ∈ DOTS → ∀ rest : List String,
      handle_number_aux (dot :: rest) =
        ("." :: (handle_number_aux rest).1, TokenType.Float,
          (handle_number_aux rest).2.2) := by
    intro dot hdot rest
    have hfacts := dot_cluster_facts dot (by simpa using hdot)
    have hnd : dot ∉ DIGITALS := by simpa using hfacts.1
    have hd : dot ∈ DOTS := hdot
    simp only [handle_number_aux]
    rw [if_neg (by simpa using hnd), if_pos (by simpa using hd)]
  refine ⟨base, ?_, ?_⟩
  · intro dot1 dot2 h1 h2 cur rest
    rw [handle_number, handle_number, base dot1 h1, base dot2 h2]
  · intro dot hdot
    have hc : dot = DOTS[0] ∨ dot = DOTS[1] ∨ dot = DOTS[2] ∨ dot = DOTS[3] ∨
        dot = DOTS[4] ∨ dot = DOTS[5] ∨ dot = DOTS[6] ∨ dot = DOTS[7] ∨
        dot = DOTS[8] := by
      simpa [DOTS] using hdot
    rcases hc with rfl | rfl | rfl | rfl | rfl | rfl | rfl | rfl | rfl <;> rfl

/-- C10 witness: the dot-acceptance statement applied at the red circle (the
last table entry) — `3️⃣🔴9️⃣` produces the same "3.9" Float token as the
white circle. -/
theorem c10_any_dot_cluster_normalized_witness :
    tokenize [keycap '3', String.mk [Char.ofNat 0x1F534], keycap '9'] =
      [Token.start, ⟨TokenType.Float, ["3", ".", "9"]⟩] :=
  c10_any_dot_cluster_normalized.2.2 (String.mk [Char.ofNat 0x1F534]) (by decide)

/-- C6 counterexample: parse, print and re-parse is not structurally
idempotent on every parsed statement.  The statement `1️⃣0️⃣⚪0️⃣ ↙️`
parses to a FloatLiteral of value 10.0; the printer renders that value with
no decimal point (`1️⃣0️⃣`, as Rust's float display does for an integral
value), so the re-parse yields an IntegerLiteral — a different variant, not
a structurally equivalent AST.  (The printed text itself is stable: see the
amended theorem.) -/
theorem c6_float_roundtrip_counterexample :
    ((parse_program (tokenize [keycap '1', keycap '0', gDotWhite, keycap '0',
        " ", gSemicolon])).bind (fun p =>
      (parse_program (tokenize (Node.string p.1))).map (fun p2 =>
        node_equiv p.1 p2.1))) = some false ∧
    ((parse_program (tokenize [keycap '1', keycap '0', gDotWhite, keycap '0',
        " ", gSemicolon])).map (fun p => node_equiv p.1
      (.Program [.ExpressionStatement Token.start
        (.FloatLiteral Token.start ⟨10, 1⟩)]))) = some true ∧
    ((parse_program (tokenize [keycap '1', keycap '0', gDotWhite, keycap '0',
        " ", gSemicolon])).bind (fun p =>
      (parse_program (tokenize (Node.string p.1))).map (fun p2 =>
        node_equiv p2.1 (.Program [.ExpressionStatement Token.start
          (.IntegerLiteral Token.start 10)])))) = some true :=
  ⟨rfl, rfl, rfl⟩

/-! ### Lexer steps on printed glyphs -/

/-- Scanning the assign glyph emits its token and moves on. -/
theorem tl_assign (f : Nat) (gs : List String) :
    tokenize_loop (f + 1) (gAssign :: gs) =
      (⟨TokenType.Assign, [gAssign]⟩ : Token) :: tokenize_loop f gs := rfl

/-- Scanning the plus glyph emits its token and moves on. -/
theorem tl_plus (f : Nat) (gs : List String) :
    tokenize_loop (f + 1) (gPlus :: gs) =
      (⟨TokenType.Plus, [gPlus]⟩ : Token) :: tokenize_loop f gs := rfl

/-- Scanning the minus glyph emits its token and moves on. -/
theorem tl_minus (f : Nat) (gs : List String) :
    tokenize_loop (f + 1) (gMinus :: gs) =
      (⟨TokenType.Minus, [gMinus]⟩ : Token) :: tokenize_loop f gs := rfl

/-- Scanning the mult glyph emits its token and moves on. -/
theorem tl_mult (f : Nat) (gs : List String) :
    tokenize_loop (f + 1) (gMultiply :: gs) =
      (⟨TokenType.Multiply, [gMultiply]⟩ : Token) :: tokenize_loop f gs := rfl

/-- Scanning the div glyph emits its token and moves on. -/
theorem tl_div (f : Nat) (gs : List String) :
    tokenize_loop (f + 1) (gDivide :: gs) =
      (⟨TokenType.Divide, [gDivide]⟩ : Token) :: tokenize_loop f gs := rfl

/-- Scanning the mod glyph emits its token and moves on. -/
theorem tl_mod (f : Nat) (gs : List String) :
    tokenize_loop (f + 1) (gModulo :: gs) =
      (⟨TokenType.Modulo, [gModulo]⟩ : Token) :: tokenize_loop f gs := rfl

/-- Scanning the equal glyph emits its token and moves on. -/
theorem tl_equal (f : Nat) (gs : List String) :
    tokenize_loop (f + 1) (gEqual :: gs) =
      (⟨TokenType.Equal, [gEqual]⟩ : Token) :: tokenize_loop f gs := rfl

/-- Scanning the and glyph emits its token and moves on. -/
theorem tl_and (f : Nat) (gs : List String) :
    tokenize_loop (f + 1) (gAnd :: gs) =
      (⟨TokenType.And, [gAnd]⟩ : Token) :: tokenize_loop f gs := rfl

/-- Scanning the or glyph emits its token and moves on. -/
theorem tl_or (f : Nat) (gs : List String) :
    tokenize_loop (f + 1) (gOr :: gs) =
      (⟨TokenType.Or, [gOr]⟩ : Token) :: tokenize_loop f gs := rfl

/-- Scanning the not glyph emits its token and moves on. -/
theorem tl_not (f : Nat) (gs : List String) :
    tokenize_loop (f + 1) (gNot :: gs) =
      (⟨TokenType.Not, [gNot]⟩ : Token) :: tokenize_loop f gs := rfl

/-- Scanning the semi glyph emits its token and moves on. -/
theorem tl_semi (f : Nat) (gs : List String) :
    tokenize_loop (f + 1) (gSemicolon :: gs) =
      (⟨TokenType.Semicolon, [gSemicolon]⟩ : Token) :: tokenize_loop f gs := rfl

/-- Scanning the true glyph emits its token and moves on. -/
theorem tl_true (f : Nat) (gs : List String) :
    tokenize_loop (f + 1) (gTrue :: gs) =
      (⟨TokenType.True, [gTrue]⟩ : Token) :: tokenize_loop f gs := rfl

/-- Scanning the false glyph emits its token and moves on. -/
theorem tl_false (f : Nat) (gs : List String) :
    tokenize_loop (f + 1) (gFalse :: gs) =
      (⟨TokenType.False, [gFalse]⟩ : Token) :: tokenize_loop f gs := rfl

/-- Scanning the if glyph emits its token and moves on. -/
theorem tl_if (f : Nat) (gs : List String) :
    tokenize_loop (f + 1) (gIf :: gs) =
      (⟨TokenType.If, [gIf]⟩ : Token) :: tokenize_loop f gs := rfl

/-- Scanning the while glyph emits its token and moves on. -/
theorem tl_while (f : Nat) (gs : List String) :
    tokenize_loop (f + 1) (gWhile :: gs) =
      (⟨TokenType.While, [gWhile]⟩ : Token) :: tokenize_loop f gs := rfl

/-- Scanning the function glyph emits its token and moves on. -/
theorem tl_function (f : Nat) (gs : List String) :
    tokenize_loop (f + 1) (gFunction :: gs) =
      (⟨TokenType.Function, [gFunction]⟩ : Token) :: tokenize_loop f gs := rfl

/-- Scanning the return glyph emits its token and moves on. -/
theorem tl_return (f : Nat) (gs : List String) :
    tokenize_loop (f + 1) (gReturn :: gs) =
      (⟨TokenType.Return, [gReturn]⟩ : Token) :: tokenize_loop f gs := rfl

/-- Scanning the comma glyph emits its token and moves on. -/
theorem tl_comma (f : Nat) (gs : List String) :
    tokenize_loop (f + 1) (gComma :: gs) =
      (⟨TokenType.Comma, [gComma]⟩ : Token) :: tokenize_loop f gs := rfl

/-- Scanning the lparen glyph emits its token and moves on. -/
theorem tl_lparen (f : Nat) (gs : List String) :
    tokenize_loop (f + 1) (gLParen :: gs) =
      (⟨TokenType.LParenthesis, [gLParen]⟩ : Token) :: tokenize_loop f gs := rfl

/-- Scanning the rparen glyph emits its token and moves on. -/
theorem tl_rparen (f : Nat) (gs : List String) :
    tokenize_loop (f + 1) (gRParen :: gs) =
      (⟨TokenType.RParenthesis, [gRParen]⟩ : Token) :: tokenize_loop f gs := rfl

/-- Scanning the lbrace glyph emits its token and moves on. -/
theorem tl_lbrace (f : Nat) (gs : List String) :
    tokenize_loop (f + 1) (gLBrace :: gs) =
      (⟨TokenType.LBrace, [gLBrace]⟩ : Token) :: tokenize_loop f gs := rfl

/-- Scanning the rbrace glyph emits its token and moves on. -/
theorem tl_rbrace (f : Nat) (gs : List String) :
    tokenize_loop (f + 1) (gRBrace :: gs) =
      (⟨TokenType.RBrace, [gRBrace]⟩ : Token) :: tokenize_loop f gs := rfl

/-- Scanning the compound comparison built from gGreater and the equal sign. -/
theorem tl_ge2 (f : Nat) (gs : List String) :
    tokenize_loop (f + 1) (gGreater :: gEqual :: gs) =
      (⟨TokenType.GreaterThanOrEqual, [gGreater, gEqual]⟩ : Token) :: tokenize_loop f gs := rfl

/-- Scanning the compound comparison built from gLess and the equal sign. -/
theorem tl_le2 (f : Nat) (gs : List String) :
    tokenize_loop (f + 1) (gLess :: gEqual :: gs) =
      (⟨TokenType.LessThanOrEqual, [gLess, gEqual]⟩ : Token) :: tokenize_loop f gs := rfl

/-- Scanning the compound comparison built from gElse and the equal sign. -/
theorem tl_ne2 (f : Nat) (gs : List String) :
    tokenize_loop (f + 1) (gElse :: gEqual :: gs) =
      (⟨TokenType.NotEqual, [gElse, gEqual]⟩ : Token) :: tokenize_loop f gs := rfl

/-- Scanning gGreater not followed by the equal sign emits the single token. -/
theorem tl_greater1 (f : Nat) (c : String) (gs : List String) (h : ¬(c = gEqual)) :
    tokenize_loop (f + 1) (gGreater :: c :: gs) =
      (⟨TokenType.GreaterThan, [gGreater]⟩ : Token) :: tokenize_loop f (c :: gs) := by
  show (handle_two_chars_token TokenType.GreaterThan gGreater gEqual
      TokenType.GreaterThanOrEqual (c :: gs)).1 ::
      tokenize_loop f (handle_two_chars_token TokenType.GreaterThan gGreater gEqual
      TokenType.GreaterThanOrEqual (c :: gs)).2 = _
  simp [handle_two_chars_token, h]

/-- Scanning gLess not followed by the equal sign emits the single token. -/
theorem tl_less1 (f : Nat) (c : String) (gs : List String) (h : ¬(c = gEqual)) :
    tokenize_loop (f + 1) (gLess :: c :: gs) =
      (⟨TokenType.LessThan, [gLess]⟩ : Token) :: tokenize_loop f (c :: gs) := by
  show (handle_two_chars_token TokenType.LessThan gLess gEqual
      TokenType.LessThanOrEqual (c :: gs)).1 ::
      tokenize_loop f (handle_two_chars_token TokenType.LessThan gLess gEqual
      TokenType.LessThanOrEqual (c :: gs)).2 = _
  simp [handle_two_chars_token, h]

/-- Scanning gElse not followed by the equal sign emits the single token. -/
theorem tl_else1 (f : Nat) (c : String) (gs : List String) (h : ¬(c = gEqual)) :
    tokenize_loop (f + 1) (gElse :: c :: gs) =
      (⟨TokenType.Else, [gElse]⟩ : Token) :: tokenize_loop f (c :: gs) := by
  show (handle_two_chars_token TokenType.Else gElse gEqual
      TokenType.NotEqual (c :: gs)).1 ::
      tokenize_loop f (handle_two_chars_token TokenType.Else gElse gEqual
      TokenType.NotEqual (c :: gs)).2 = _
  simp [handle_two_chars_token, h]

/-- Scanning the opening speech bubble runs the string handler. -/
theorem tl_string (f : Nat) (rest : List String) :
    tokenize_loop (f + 1) (gStringOpen :: rest) =
      (handle_string rest).1 :: tokenize_loop f (handle_string rest).2 := rfl

/-- Scanning a space consumes it silently. -/
theorem tl_space (f : Nat) (gs : List String) :
    tokenize_loop (f + 1) (" " :: gs) = tokenize_loop f gs := rfl

/-- The scanning loop on one lookahead step, unfolded (the full dispatch
chain of the Rust `match`, stated once so later lemmas can rewrite with it;
the equality is definitional). -/
theorem tokenize_loop_cons (f : Nat) (c : String) (rest : List String) :
    tokenize_loop (f + 1) (c :: rest) =
      (
      if c = gAssign then ⟨TokenType.Assign, [c]⟩ :: tokenize_loop f rest
      else if c = gPlus then ⟨TokenType.Plus, [c]⟩ :: tokenize_loop f rest
      else if c = gMinus then ⟨TokenType.Minus, [c]⟩ :: tokenize_loop f rest
      else if c = gMultiply then ⟨TokenType.Multiply, [c]⟩ :: tokenize_loop f rest
      else if c = gDivide then ⟨TokenType.Divide, [c]⟩ :: tokenize_loop f rest
      else if c = gModulo then ⟨TokenType.Modulo, [c]⟩ :: tokenize_loop f rest
      else if c = gEqual then ⟨TokenType.Equal, [c]⟩ :: tokenize_loop f rest
      else if c = gGreater then
        let r := handle_two_chars_token TokenType.GreaterThan c gEqual
          TokenType.GreaterThanOrEqual rest
        r.1 :: tokenize_loop f r.2
      else if c = gLess then
        let r := handle_two_chars_token TokenType.LessThan c gEqual
          TokenType.LessThanOrEqual rest
        r.1 :: tokenize_loop f r.2
      else if c = gAnd then ⟨TokenType.And, [c]⟩ :: tokenize_loop f rest
      else if c = gOr then ⟨TokenType.Or, [c]⟩ :: tokenize_loop f rest
      else if c = gNot then ⟨TokenType.Not, [c]⟩ :: tokenize_loop f rest
      else if c = gSemicolon then ⟨TokenType.Semicolon, [c]⟩ :: tokenize_loop f rest
      else if c = gTrue then ⟨TokenType.True, [c]⟩ :: tokenize_loop f rest
      else if c = gFalse then ⟨TokenType.False, [c]⟩ :: tokenize_loop f rest
      else if c = gIf then ⟨TokenType.If, [c]⟩ :: tokenize_loop f rest
      else if c = gElse then
        let r := handle_two_chars_token TokenType.Else c gEqual
          TokenType.NotEqual rest
        r.1 :: tokenize_loop f r.2
      else if c = gWhile then ⟨TokenType.While, [c]⟩ :: tokenize_loop f rest
      else if c = gFunction then ⟨TokenType.Function, [c]⟩ :: tokenize_loop f rest
      else if c = gReturn then ⟨TokenType.Return, [c]⟩ :: tokenize_loop f rest
      else if c = gComma then ⟨TokenType.Comma, [c]⟩ :: tokenize_loop f rest
      else if c = gLParen then ⟨TokenType.LParenthesis, [c]⟩ :: tokenize_loop f rest
      else if c = gRParen then ⟨TokenType.RParenthesis, [c]⟩ :: tokenize_loop f rest
      else if c = gLBracket then ⟨TokenType.LBracket, [c]⟩ :: tokenize_loop f rest
      else if c = gRBracket then ⟨TokenType.RBracket, [c]⟩ :: tokenize_loop f rest
      else if c = gLBrace then ⟨TokenType.LBrace, [c]⟩ :: tokenize_loop f rest
      else if c = gRBrace then ⟨TokenType.RBrace, [c]⟩ :: tokenize_loop f rest
      else if c = gStringOpen then
        let r := handle_string rest
        r.1 :: tokenize_loop f r.2
      else if DIGITALS.contains c then
        let r := handle_number c rest
        r.1 :: tokenize_loop f r.2
      else if SPACES.contains c then tokenize_loop f rest
      else if is_identifier_char c then
        let r := handle_identifier c rest
        r.1 :: tokenize_loop f r.2
      else ⟨TokenType.Illegal, [c]⟩ :: tokenize_loop f rest) := rfl

/-- The identifier accumulation loop, characterised. -/
theorem handle_identifier_aux_spec (l : List String) :
    handle_identifier_aux l =
      (l.takeWhile is_identifier_char, l.dropWhile is_identifier_char) := by
  induction l with
  | nil => simp [handle_identifier_aux]
  | cons c rest ih =>
      by_cases hc : is_identifier_char c = true
      · simp [handle_identifier_aux, hc, ih, List.takeWhile_cons, List.dropWhile_cons]
      · rw [Bool.not_eq_true] at hc
        simp [handle_identifier_aux, hc, List.takeWhile_cons, List.dropWhile_cons]

/-- The string collection loop stops exactly at the closing bubble. -/
theorem handle_string_aux_append (v gs : List String) (h : ¬ gStringClose ∈ v) :
    handle_string_aux (v ++ gStringClose :: gs) = (v, gs) := by
  induction v with
  | nil => simp [handle_string_aux]
  | cons c rest ih =>
      have hc : ¬(c = gStringClose) := fun e => h (by rw [e]; exact List.mem_cons_self _ _)
      have hr : ¬ gStringClose ∈ rest := fun e => h (List.mem_cons_of_mem _ e)
      simp only [List.cons_append, handle_string_aux]
      rw [if_neg hc, show rest.append (gStringClose :: gs) = rest ++ gStringClose :: gs
        from rfl, ih hr]

/-- Scanning an identifier cluster runs the identifier handler. -/
theorem tl_ident (f : Nat) (c : String) (rest : List String)
    (h : is_identifier_char c = true) :
    tokenize_loop (f + 1) (c :: rest) =
      (handle_identifier c rest).1 :: tokenize_loop f (handle_identifier c rest).2 := by
  have hparts := h
  rw [is_identifier_char, Bool.and_eq_true, Bool.and_eq_true, Bool.and_eq_true] at hparts
  obtain ⟨⟨⟨hr, hd⟩, hdo⟩, hs⟩ := hparts
  rw [Bool.not_eq_true'] at hr hd hdo hs
  have hmem : ¬ (c ∈ RESERVED_SYMBOLS) := by
    intro mem
    have h2 : RESERVED_SYMBOLS.contains c = true := List.elem_iff.mpr mem
    rw [hr] at h2
    exact Bool.false_ne_true h2
  have hglyph : ∀ g : String, g ∈ RESERVED_SYMBOLS → ¬(c = g) := by
    intro g hg e
    exact hmem (by rw [e]; exact hg)
  rw [tokenize_loop_cons]
  rw [if_neg (hglyph _ (by decide)), if_neg (hglyph _ (by decide)),
    if_neg (hglyph _ (by decide)), if_neg (hglyph _ (by decide)),
    if_neg (hglyph _ (by decide)), if_neg (hglyph _ (by decide)),
    if_neg (hglyph _ (by decide)), if_neg (hglyph _ (by decide)),
    if_neg (hglyph _ (by decide)), if_neg (hglyph _ (by decide)),
    if_neg (hglyph _ (by decide)), if_neg (hglyph _ (by decide)),
    if_neg (hglyph _ (by decide)), if_neg (hglyph _ (by decide)),
    if_neg (hglyph _ (by decide)), if_neg (hglyph _ (by decide)),
    if_neg (hglyph _ (by decide)), if_neg (hglyph _ (by decide)),
    if_neg (hglyph _ (by decide)), if_neg (hglyph _ (by decide)),
    if_neg (hglyph _ (by decide)), if_neg (hglyph _ (by decide)),
    if_neg (hglyph _ (by decide)), if_neg (hglyph _ (by decide)),
    if_neg (hglyph _ (by decide)), if_neg (hglyph _ (by decide)),
    if_neg (hglyph _ (by decide)), if_neg (hglyph _ (by decide))]
  rw [if_neg (by rw [hd]; exact Bool.false_ne_true),
    if_neg (by rw [hs]; exact Bool.false_ne_true), if_pos h]


/-- Lists shrink under `dropWhile`. -/
theorem dropWhile_len {α : Type} (p : α → Bool) :
    ∀ l : List α, (l.dropWhile p).length ≤ l.length
  | [] => Nat.le_refl _
  | a :: l => by
      rw [List.dropWhile_cons]
      split
      · exact Nat.le_trans (dropWhile_len p l) (Nat.le_succ _)
      · exact Nat.le_refl _

/-- The two-character handler never lengthens the remaining input. -/
theorem handle_two_chars_len (single : TokenType) (cur expected : String)
    (two : TokenType) (l : List String) :
    (handle_two_chars_token single cur expected two l).2.length ≤ l.length := by
  cases l with
  | nil => simp [handle_two_chars_token]
  | cons a r =>
      simp only [handle_two_chars_token]
      split
      · simp
      · simp

/-- The string collection loop never lengthens the remaining input. -/
theorem handle_string_aux_len :
    ∀ l : List String, (handle_string_aux l).2.length ≤ l.length
  | [] => Nat.le_refl _
  | c :: rest => by
      simp only [handle_string_aux]
      split
      · simp
      · simpa using Nat.le_trans (handle_string_aux_len rest) (Nat.le_succ _)

/-- The string handler never lengthens the remaining input. -/
theorem handle_string_len (l : List String) :
    (handle_string l).2.length ≤ l.length := handle_string_aux_len l

/-- The number handler never lengthens the remaining input. -/
theorem handle_number_len (c : String) (l : List String) :
    (handle_number c l).2.length ≤ l.length := by
  show (handle_number_aux l).2.2.length ≤ l.length
  rw [handle_number_aux_spec]
  exact dropWhile_len _ l

/-- The identifier handler never lengthens the remaining input. -/
theorem handle_identifier_len (c : String) (l : List String) :
    (handle_identifier c l).2.length ≤ l.length := by
  show (handle_identifier_aux l).2.length ≤ l.length
  rw [handle_identifier_aux_spec]
  exact dropWhile_len _ l

/-- Above the input length the fuel of the scanning loop is irrelevant:
every step consumes at least one cluster. -/
theorem tokenize_loop_fuel :
    ∀ (n : Nat) (l : List String) (f₁ f₂ : Nat), l.length ≤ n →
      l.length ≤ f₁ → l.length ≤ f₂ → tokenize_loop f₁ l = tokenize_loop f₂ l := by
  intro n
  induction n with
  | zero =>
      intro l f₁ f₂ hn _ _
      cases l with
      | nil => rw [tokenize_loop_nil, tokenize_loop_nil]
      | cons c rest => simp at hn
  | succ n ih =>
      intro l f₁ f₂ hn h1 h2
      cases l with
      | nil => rw [tokenize_loop_nil, tokenize_loop_nil]
      | cons c rest =>
          simp only [List.length_cons] at hn h1 h2
          obtain ⟨g₁, rfl⟩ : ∃ k, f₁ = k + 1 := ⟨f₁ - 1, by omega⟩
          obtain ⟨g₂, rfl⟩ : ∃ k, f₂ = k + 1 := ⟨f₂ - 1, by omega⟩
          have step : ∀ X : List String, X.length ≤ rest.length →
              tokenize_loop g₁ X = tokenize_loop g₂ X := fun X hX =>
            ih X g₁ g₂ (by omega) (by omega) (by omega)
          rw [tokenize_loop_cons, tokenize_loop_cons]
          by_cases h1 : c = gAssign
          · rw [if_pos h1, if_pos h1]
            exact congrArg _ (step rest (Nat.le_refl _))
          · rw [if_neg h1, if_neg h1]
            by_cases h2 : c = gPlus
            · rw [if_pos h2, if_pos h2]
              exact congrArg _ (step rest (Nat.le_refl _))
            · rw [if_neg h2, if_neg h2]
              by_cases h3 : c = gMinus
              · rw [if_pos h3, if_pos h3]
                exact congrArg _ (step rest (Nat.le_refl _))
              · rw [if_neg h3, if_neg h3]
                by_cases h4 : c = gMultiply
                · rw [if_pos h4, if_pos h4]
                  exact congrArg _ (step rest (Nat.le_refl _))
                · rw [if_neg h4, if_neg h4]
                  by_cases h5 : c = gDivide
                  · rw [if_pos h5, if_pos h5]
                    exact congrArg _ (step rest (Nat.le_refl _))
                  · rw [if_neg h5, if_neg h5]
                    by_cases h6 : c = gModulo
                    · rw [if_pos h6, if_pos h6]
                      exact congrArg _ (step rest (Nat.le_refl _))
                    · rw [if_neg h6, if_neg h6]
                      by_cases h7 : c = gEqual
                      · rw [if_pos h7, if_pos h7]
                        exact congrArg _ (step rest (Nat.le_refl _))
                      · rw [if_neg h7, if_neg h7]
                        by_cases h8 : c = gGreater
                        · rw [if_pos h8, if_pos h8]
                          exact congrArg _ (step _ (handle_two_chars_len _ _ _ _ _))
                        · rw [if_neg h8, if_neg h8]
                          by_cases h9 : c = gLess
                          · rw [if_pos h9, if_pos h9]
                            exact congrArg _ (step _ (handle_two_chars_len _ _ _ _ _))
                          · rw [if_neg h9, if_neg h9]
                            by_cases h10 : c = gAnd
                            · rw [if_pos h10, if_pos h10]
                              exact congrArg _ (step rest (Nat.le_refl _))
                            · rw [if_neg h10, if_neg h10]
                              by_cases h11 : c = gOr
                              · rw [if_pos h11, if_pos h11]
                                exact congrArg _ (step rest (Nat.le_refl _))
                              · rw [if_neg h11, if_neg h11]
                                by_cases h12 : c = gNot
                                · rw [if_pos h12, if_pos h12]
                                  exact congrArg _ (step rest (Nat.le_refl _))
                                · rw [if_neg h12, if_neg h12]
                                  by_cases h13 : c = gSemicolon
                                  · rw [if_pos h13, if_pos h13]
                                    exact congrArg _ (step rest (Nat.le_refl _))
                                  · rw [if_neg h13, if_neg h13]
                                    by_cases h14 : c = gTrue
                                    · rw [if_pos h14, if_pos h14]
                                      exact congrArg _ (step rest (Nat.le_refl _))
                                    · rw [if_neg h14, if_neg h14]
                                      by_cases h15 : c = gFalse
                                      · rw [if_pos h15, if_pos h15]
                                        exact congrArg _ (step rest (Nat.le_refl _))
                                      · rw [if_neg h15, if_neg h15]
                                        by_cases h16 : c = gIf
                                        · rw [if_pos h16, if_pos h16]
                                          exact congrArg _ (step rest (Nat.le_refl _))
                                        · rw [if_neg h16, if_neg h16]
                                          by_cases h17 : c = gElse
                                          · rw [if_pos h17, if_pos h17]
                                            exact congrArg _ (step _ (handle_two_chars_len _ _ _ _ _))
                                          · rw [if_neg h17, if_neg h17]
                                            by_cases h18 : c = gWhile
                                            · rw [if_pos h18, if_pos h18]
                                              exact congrArg _ (step rest (Nat.le_refl _))
                                            · rw [if_neg h18, if_neg h18]
                                              by_cases h19 : c = gFunction
                                              · rw [if_pos h19, if_pos h19]
                                                exact congrArg _ (step rest (Nat.le_refl _))
                                              · rw [if_neg h19, if_neg h19]
                                                by_cases h20 : c = gReturn
                                                · rw [if_pos h20, if_pos h20]
                                                  exact congrArg _ (step rest (Nat.le_refl _))
                                                · rw [if_neg h20, if_neg h20]
                                                  by_cases h21 : c = gComma
                                                  · rw [if_pos h21, if_pos h21]
                                                    exact congrArg _ (step rest (Nat.le_refl _))
                                                  · rw [if_neg h21, if_neg h21]
                                                    by_cases h22 : c = gLParen
                                                    · rw [if_pos h22, if_pos h22]
                                                      exact congrArg _ (step rest (Nat.le_refl _))
                                                    · rw [if_neg h22, if_neg h22]
                                                      by_cases h23 : c = gRParen
                                                      · rw [if_pos h23, if_pos h23]
                                                        exact congrArg _ (step rest (Nat.le_refl _))
                                                      · rw [if_neg h23, if_neg h23]
                                                        by_cases h24 : c = gLBracket
                                                        · rw [if_pos h24, if_pos h24]
                                                          exact congrArg _ (step rest (Nat.le_refl _))
                                                        · rw [if_neg h24, if_neg h24]
                                                          by_cases h25 : c = gRBracket
                                                          · rw [if_pos h25, if_pos h25]
                                                            exact congrArg _ (step rest (Nat.le_refl _))
                                                          · rw [if_neg h25, if_neg h25]
                                                            by_cases h26 : c = gLBrace
                                                            · rw [if_pos h26, if_pos h26]
                                                              exact congrArg _ (step rest (Nat.le_refl _))
                                                            · rw [if_neg h26, if_neg h26]
                                                              by_cases h27 : c = gRBrace
                                                              · rw [if_pos h27, if_pos h27]
                                                                exact congrArg _ (step rest (Nat.le_refl _))
                                                              · rw [if_neg h27, if_neg h27]
                                                                by_cases h28 : c = gStringOpen
                                                                · rw [if_pos h28, if_pos h28]
                                                                  exact congrArg _ (step _ (handle_string_len _))
                                                                · rw [if_neg h28, if_neg h28]
                                                                  by_cases h29 : DIGITALS.contains c = true
                                                                  · rw [if_pos h29, if_pos h29]
                                                                    exact congrArg _ (step _ (handle_number_len _ _))
                                                                  · rw [if_neg h29, if_neg h29]
                                                                    by_cases h30 : SPACES.contains c = true
                                                                    · rw [if_pos h30, if_pos h30]
                                                                      exact step rest (Nat.le_refl _)
                                                                    · rw [if_neg h30, if_neg h30]
                                                                      by_cases h31 : is_identifier_char c = true
                                                                      · rw [if_pos h31, if_pos h31]
                                                                        exact congrArg _ (step _ (handle_identifier_len _ _))
                                                                      · rw [if_neg h31, if_neg h31]
                                                                        exact congrArg _ (step rest (Nat.le_refl _))
/-- A space may follow any printed token. -/
theorem followCluster_space (tt : TokenType) : followCluster tt " " := by
  cases tt <;> first
    | trivial
    | exact (by decide : is_identifier_char " " = false)
    | exact (by decide : is_num_cluster " " = false)
    | exact (by decide : ¬(" " = gEqual))

/-- Reserved symbols are neither digit nor dot clusters. -/
theorem reserved_not_num : ∀ c ∈ RESERVED_SYMBOLS,
    DIGITALS.contains c = false ∧ DOTS.contains c = false := by decide

/-- A reserved symbol other than the equal sign may follow any printed
token. -/
theorem followCluster_reserved (tt : TokenType) (c : String)
    (hc : c ∈ RESERVED_SYMBOLS) (hne : ¬(c = gEqual)) : followCluster tt c := by
  have hr : RESERVED_SYMBOLS.contains c = true := List.elem_iff.mpr hc
  have hident : is_identifier_char c = false := by
    rw [is_identifier_char, hr]
    rfl
  have hnum : is_num_cluster c = false := by
    rw [is_num_cluster, (reserved_not_num c hc).1, (reserved_not_num c hc).2]
    rfl
  cases tt <;> trivial

/-- Scanning a wellformed identifier value followed by a non-identifier
cluster yields exactly its identifier token. -/
theorem lex_ident_seg (v gs : List String) (f₁ f₂ : Nat)
    (hv : wfIdentVal v = true)
    (hfollow : ∀ c ∈ gs.head?, is_identifier_char c = false)
    (hf₁ : (v ++ gs).length ≤ f₁) (hf₂ : gs.length ≤ f₂) :
    tokenize_loop f₁ (v ++ gs) =
      (⟨TokenType.Identifier, v⟩ : Token) :: tokenize_loop f₂ gs := by
  rw [wfIdentVal, Bool.and_eq_true] at hv
  obtain ⟨hne, hall⟩ := hv
  cases v with
  | nil => simp at hne
  | cons c v =>
      rw [List.all_cons, Bool.and_eq_true] at hall
      obtain ⟨hc, hall⟩ := hall
      simp only [List.length_append, List.length_cons] at hf₁
      obtain ⟨k, rfl⟩ : ∃ k, f₁ = k + 1 := ⟨f₁ - 1, by omega⟩
      rw [List.cons_append, tl_ident k c (v ++ gs) hc]
      have hvall : ∀ x ∈ v, is_identifier_char x = true := by
        intro x hx
        exact List.all_eq_true.mp hall x hx
      have hspec : handle_identifier_aux (v ++ gs) = (v, gs) := by
        cases gs with
        | nil =>
            rw [List.append_nil, handle_identifier_aux_spec,
              (takeWhile_all_eq _ v hvall).1, (takeWhile_all_eq _ v hvall).2]
        | cons d gs' =>
            have hd : is_identifier_char d = false := hfollow d rfl
            rw [handle_identifier_aux_spec,
              (takeWhile_middle_eq _ v d gs' hvall hd).1,
              (takeWhile_middle_eq _ v d gs' hvall hd).2]
      simp only [handle_identifier, hspec]
      cases gs with
      | nil => rw [tokenize_loop_nil, tokenize_loop_nil]
      | cons d gs' =>
          rw [tokenize_loop_fuel (d :: gs').length (d :: gs') k f₂ (Nat.le_refl _)
            (by simp at hf₁ ⊢; omega) hf₂]

/-- Scanning a printed string literal yields exactly its string token. -/
theorem lex_string_seg (v gs : List String) (f₁ f₂ : Nat)
    (hv : ¬ gStringClose ∈ v)
    (hf₁ : (gStringOpen :: (v ++ gStringClose :: gs)).length ≤ f₁)
    (hf₂ : gs.length ≤ f₂) :
    tokenize_loop f₁ (gStringOpen :: (v ++ gStringClose :: gs)) =
      (⟨TokenType.String, v⟩ : Token) :: tokenize_loop f₂ gs := by
  simp only [List.length_cons, List.length_append] at hf₁
  obtain ⟨k, rfl⟩ : ∃ k, f₁ = k + 1 := ⟨f₁ - 1, by omega⟩
  rw [tl_string, handle_string, handle_string_aux_append v gs hv]
  rw [tokenize_loop_fuel gs.length gs k f₂ (Nat.le_refl _) (by omega) hf₂]

/-- A decimal digit character is not the full stop. -/
theorem digit_char_ne_dot : ∀ d : Fin 10, ¬(Char.ofNat (48 + d.val) = '.') := by decide

/-- Scanning a mapped list with pointwise-matching predicates. -/
theorem any_map_congr {α β : Type} (f : α → β) (p : β → Bool) (q : α → Bool) :
    ∀ l : List α, (∀ x ∈ l, p (f x) = q x) → (l.map f).any p = l.any q
  | [], _ => rfl
  | a :: l, h => by
      rw [List.map_cons, List.any_cons, List.any_cons, h a (List.mem_cons_self a l),
        any_map_congr f p q l (fun x hx => h x (List.mem_cons_of_mem a hx))]

/-- Scanning a printed digit-and-dot run headed by a digit yields exactly
one number token whose literal is the plain character transcription and
whose kind is Float exactly when a dot occurs. -/
theorem lex_number_seg (d₀ : Fin 10) (cs : List Char) (gs : List String) (f₁ f₂ : Nat)
    (hdigits : ∀ c ∈ cs, c = '.' ∨ ∃ d : Fin 10, c = Char.ofNat (48 + d.val))
    (hfollow : ∀ c ∈ gs.head?, is_num_cluster c = false)
    (hf₁ : (((Char.ofNat (48 + d₀.val) :: cs).map
      (fun c => if c = '.' then gDotWhite else keycap c)) ++ gs).length ≤ f₁)
    (hf₂ : gs.length ≤ f₂) :
    tokenize_loop f₁ (((Char.ofNat (48 + d₀.val) :: cs).map
        (fun c => if c = '.' then gDotWhite else keycap c)) ++ gs) =
      (⟨if cs.any (fun c => c = '.') then TokenType.Float else TokenType.Integer,
        (Char.ofNat (48 + d₀.val) :: cs).map (fun c => String.mk [c])⟩ : Token) ::
        tokenize_loop f₂ gs := by
  simp only [List.map_cons, List.length_cons, List.cons_append, List.length_append] at hf₁ ⊢
  rw [if_neg (digit_char_ne_dot d₀)]
  obtain ⟨k, rfl⟩ : ∃ k, f₁ = k + 1 := ⟨f₁ - 1, by omega⟩
  have hmem : keycap (Char.ofNat (48 + d₀.val)) ∈ DIGITALS := digit_cluster_mem d₀
  rw [tokenize_loop_digit k _ _ hmem]
  have hnumall : ∀ x ∈ cs.map (fun c => if c = '.' then gDotWhite else keycap c),
      is_num_cluster x = true := by
    intro x hx
    obtain ⟨c, hc, rfl⟩ := List.mem_map.mp hx
    rcases hdigits c hc with rfl | ⟨d, rfl⟩
    · rw [if_pos rfl]
      decide
    · rw [if_neg (digit_char_ne_dot d)]
      exact digit_cluster_num d
  have hsplit : (cs.map (fun c => if c = '.' then gDotWhite else keycap c) ++ gs).takeWhile
        is_num_cluster = cs.map (fun c => if c = '.' then gDotWhite else keycap c) ∧
      (cs.map (fun c => if c = '.' then gDotWhite else keycap c) ++ gs).dropWhile
        is_num_cluster = gs := by
    cases gs with
    | nil =>
        rw [List.append_nil]
        exact ⟨(takeWhile_all_eq _ _ hnumall).1,
          by rw [(takeWhile_all_eq _ _ hnumall).2]⟩
    | cons d gs' =>
        exact ⟨(takeWhile_middle_eq _ _ d gs' hnumall (hfollow d rfl)).1,
          (takeWhile_middle_eq _ _ d gs' hnumall (hfollow d rfl)).2⟩
  have hlit : (cs.map (fun c => if c = '.' then gDotWhite else keycap c)).map num_char =
      cs.map (fun c => String.mk [c]) := by
    rw [List.map_map]
    refine List.map_congr_left ?_
    intro c hc
    simp only [Function.comp]
    rcases hdigits c hc with rfl | ⟨d, rfl⟩
    · rw [if_pos rfl]
      decide
    · rw [if_neg (digit_char_ne_dot d)]
      exact num_char_digit d
  have htt : (cs.map (fun c => if c = '.' then gDotWhite else keycap c)).any
      (fun c => DOTS.contains c) = cs.any (fun c => c = '.') := by
    refine any_map_congr _ _ _ cs ?_
    intro c hc
    rcases hdigits c hc with rfl | ⟨d, rfl⟩
    · rw [if_pos rfl]
      decide
    · rw [if_neg (digit_char_ne_dot d), decide_eq_false (digit_char_ne_dot d)]
      exact digit_not_dot _ (by simpa using digit_cluster_mem d)
  simp only [handle_number, handle_number_aux_spec, hsplit.1, hsplit.2, hlit, htt]
  rw [show firstCharStr (keycap (Char.ofNat (48 + d₀.val))) =
    String.mk [Char.ofNat (48 + d₀.val)] from rfl]
  rw [tokenize_loop_fuel gs.length gs k f₂ (Nat.le_refl _) (by omega) hf₂]

/-- Every character the decimal printer emits is a digit. -/
theorem nat_to_chars_aux_digits :
    ∀ (f n : Nat), ∀ c ∈ nat_to_chars_aux f n, ∃ d : Fin 10, c = Char.ofNat (48 + d.val)
  | 0, _, c, hc => by simp [nat_to_chars_aux] at hc
  | f + 1, n, c, hc => by
      rw [nat_to_chars_aux] at hc
      split at hc
      · simp only [List.mem_singleton] at hc
        exact ⟨⟨n % 10, Nat.mod_lt _ (by omega)⟩, hc⟩
      · rcases List.mem_append.mp hc with h | h
        · exact nat_to_chars_aux_digits f (n / 10) c h
        · simp only [List.mem_singleton] at h
          exact ⟨⟨n % 10 % 10, Nat.mod_lt _ (by omega)⟩, by simpa [digit_char] using h⟩

/-- The decimal printer emits at least one digit. -/
theorem nat_to_chars_aux_ne_nil (f n : Nat) (hf : 1 ≤ f) :
    nat_to_chars_aux f n ≠ [] := by
  obtain ⟨f, rfl⟩ : ∃ k, f = k + 1 := ⟨f - 1, by omega⟩
  rw [nat_to_chars_aux]
  split
  · simp
  · simp

/-- Appending one digit multiplies the accumulated value by ten. -/
theorem digits_val_append_single (l : List String) (s : String) :
    digits_val (l ++ [s]) = digits_val l * 10 + (str_digit? s).getD 0 := by
  simp [digits_val, List.foldl_append]

/-- The decimal printer and the digit evaluator are mutually inverse. -/
theorem nat_to_chars_aux_val :
    ∀ (f n : Nat), n + 1 ≤ f →
      digits_val ((nat_to_chars_aux f n).map (fun c => String.mk [c])) = n
  | 0, n, h => by omega
  | f + 1, n, h => by
      rw [nat_to_chars_aux]
      split
      · have h10 : n % 10 = n := Nat.mod_eq_of_lt (by omega)
        have := str_digit_fin_char ⟨n % 10, Nat.mod_lt _ (by omega)⟩
        simp only [List.map_cons, List.map_nil, digits_val, List.foldl_cons,
          List.foldl_nil, digit_char]
        rw [show (String.mk [Char.ofNat (48 + n % 10)]) =
          fin_char ⟨n % 10, Nat.mod_lt _ (by omega)⟩ from rfl, this]
        simpa using h10
      · rename_i hge
        rw [List.map_append, List.map_singleton, digits_val_append_single,
          nat_to_chars_aux_val f (n / 10) (by
            have : n / 10 < n := Nat.div_lt_self (by omega) (by omega)
            omega)]
        rw [show (String.mk [digit_char (n % 10)]) =
          fin_char ⟨n % 10 % 10, Nat.mod_lt _ (by omega)⟩ from by
            simp [digit_char, fin_char]]
        rw [str_digit_fin_char]
        show n / 10 * 10 + n % 10 % 10 = n
        omega

/-- Digit count of the decimal printer against a power-of-ten bound. -/
theorem nat_to_chars_aux_len_le :
    ∀ (f n j : Nat), 1 ≤ j → n < 10 ^ j → (nat_to_chars_aux f n).length ≤ j
  | 0, n, j, _, _ => by simp [nat_to_chars_aux]
  | f + 1, n, j, hj, hn => by
      rw [nat_to_chars_aux]
      split
      · simpa using hj
      · rename_i hge
        have hj2 : 2 ≤ j := by
          by_contra hlt
          have : j = 1 := by omega
          subst this
          simp at hn
          omega
        have hdiv : n / 10 < 10 ^ (j - 1) := by
          rw [Nat.div_lt_iff_lt_mul (by omega)]
          calc n < 10 ^ j := hn
            _ = 10 ^ (j - 1) * 10 := by
                rw [← Nat.pow_succ]
                congr 1
                omega
        have := nat_to_chars_aux_len_le f (n / 10) (j - 1) (by omega) hdiv
        simp only [List.length_append, List.length_singleton]
        omega

/-- Every character of the decimal text is a digit. -/
theorem nat_to_chars_digits (n : Nat) :
    ∀ c ∈ nat_to_chars n, ∃ d : Fin 10, c = Char.ofNat (48 + d.val) :=
  nat_to_chars_aux_digits _ _

/-- The decimal text is nonempty. -/
theorem nat_to_chars_ne_nil (n : Nat) : nat_to_chars n ≠ [] :=
  nat_to_chars_aux_ne_nil _ _ (by omega)

/-- Evaluating the decimal text returns the number. -/
theorem nat_to_chars_val (n : Nat) :
    digits_val ((nat_to_chars n).map (fun c => String.mk [c])) = n :=
  nat_to_chars_aux_val _ _ (Nat.le_refl _)

/-- Digit-count bound of the decimal text. -/
theorem nat_to_chars_len_le (n j : Nat) (hj : 1 ≤ j) (hn : n < 10 ^ j) :
    (nat_to_chars n).length ≤ j :=
  nat_to_chars_aux_len_le _ _ _ hj hn

/-- The decimal text of a nonnegative integer has no sign character. -/
theorem int_to_chars_nonneg (v : Int) (h0 : 0 ≤ v) :
    int_to_chars v = nat_to_chars v.natAbs := by
  rw [int_to_chars, if_neg (by omega)]
  rfl

/-- A plain digit string parses as a digit (existence form). -/
theorem str_digit_of_digit (c : Char) (hd : ∃ d : Fin 10, c = Char.ofNat (48 + d.val)) :
    (str_digit? (String.mk [c])).isSome = true := by
  obtain ⟨d, rfl⟩ := hd
  rw [show (String.mk [Char.ofNat (48 + d.val)]) = fin_char d from rfl,
    str_digit_fin_char]
  rfl

/-- A plain digit string is not the full-stop string. -/
theorem str_of_digit_ne_dot (c : Char) (hd : ∃ d : Fin 10, c = Char.ofNat (48 + d.val)) :
    ¬(String.mk [c] = ".") := by
  obtain ⟨d, rfl⟩ := hd
  rw [show (String.mk [Char.ofNat (48 + d.val)]) = fin_char d from rfl]
  exact fun h => (fin_char_ne_dot d).mp h

/-- Parsing the regenerated decimal text of a wellformed integer value
returns the value. -/
theorem parse_i64_roundtrip (v : Int) (h0 : 0 ≤ v) (h1 : v ≤ i64_max) :
    parse_i64 (intTokLit v) = .ok v := by
  have hne : nat_to_chars v.natAbs ≠ [] := nat_to_chars_aux_ne_nil _ _ (by omega)
  have hlit : intTokLit v = (nat_to_chars v.natAbs).map (fun c => String.mk [c]) := by
    rw [intTokLit, int_to_chars_nonneg v h0]
  have hall : ∀ s ∈ intTokLit v, (str_digit? s).isSome = true := by
    intro s hs
    rw [hlit] at hs
    obtain ⟨c, hc, rfl⟩ := List.mem_map.mp hs
    exact str_digit_of_digit c (nat_to_chars_aux_digits _ _ c hc)
  have hval : digits_val (intTokLit v) = v.natAbs := by
    rw [hlit]
    exact nat_to_chars_aux_val _ _ (Nat.le_refl _)
  rw [parse_i64, if_neg (by
      rw [hlit]
      simp only [List.isEmpty_eq_true, List.map_eq_nil_iff]
      exact hne),
    if_pos (List.all_eq_true.mpr (fun s hs => hall s hs)),
    if_pos (by rw [hval]; omega)]
  rw [hval]
  congr 1
  omega

/-- Scanning the printed graphemes of a wellformed integer literal yields
exactly its canonical integer token. -/
theorem lex_int_seg (v : Int) (h0 : 0 ≤ v) (gs : List String) (f₁ f₂ : Nat)
    (hfollow : ∀ c ∈ gs.head?, is_num_cluster c = false)
    (hf₁ : (int_literal_graphemes v ++ gs).length ≤ f₁) (hf₂ : gs.length ≤ f₂) :
    tokenize_loop f₁ (int_literal_graphemes v ++ gs) =
      (⟨TokenType.Integer, intTokLit v⟩ : Token) :: tokenize_loop f₂ gs := by
  have hgr : int_literal_graphemes v = (nat_to_chars v.natAbs).map
      (fun c => if c = '.' then gDotWhite else keycap c) := by
    rw [int_literal_graphemes, int_to_chars_nonneg v h0]
    refine List.map_congr_left ?_
    intro c hc
    obtain ⟨d, rfl⟩ := nat_to_chars_digits _ c hc
    rw [if_neg (digit_char_ne_dot d)]
  obtain ⟨c₀, cs, hcons⟩ : ∃ c₀ cs, nat_to_chars v.natAbs = c₀ :: cs := by
    cases h : nat_to_chars v.natAbs with
    | nil => exact absurd h (nat_to_chars_aux_ne_nil _ _ (by omega))
    | cons a l => exact ⟨a, l, rfl⟩
  obtain ⟨d₀, hd₀⟩ : ∃ d : Fin 10, c₀ = Char.ofNat (48 + d.val) :=
    nat_to_chars_digits _ c₀ (by rw [hcons]; exact List.mem_cons_self _ _)
  have hcs : ∀ c ∈ cs, c = '.' ∨ ∃ d : Fin 10, c = Char.ofNat (48 + d.val) :=
    fun c hc => Or.inr (nat_to_chars_digits _ c
      (by rw [hcons]; exact List.mem_cons_of_mem _ hc))
  have hnodot : cs.any (fun c => c = '.') = false := by
    rw [List.any_eq_false]
    intro c hc
    rcases nat_to_chars_digits _ c (by rw [hcons]; exact List.mem_cons_of_mem _ hc)
      with ⟨d, rfl⟩
    rw [decide_eq_false (digit_char_ne_dot d)]
    exact Bool.false_ne_true
  rw [hgr, hcons, hd₀] at hf₁ ⊢
  rw [lex_number_seg d₀ cs gs f₁ f₂ hcs hfollow hf₁ hf₂, hnodot]
  rw [intTokLit, int_to_chars_nonneg v h0, hcons, hd₀]
  rfl

/-- Every character of the padded fraction is a digit. -/
theorem pad_frac_digits (k x : Nat) :
    ∀ c ∈ pad_frac k x, ∃ d : Fin 10, c = Char.ofNat (48 + d.val) := by
  intro c hc
  rw [pad_frac] at hc
  rcases List.mem_append.mp hc with h | h
  · rw [List.eq_of_mem_replicate h]
    exact ⟨0, rfl⟩
  · exact nat_to_chars_digits _ c h

/-- Length of the padded fraction. -/
theorem pad_frac_len (k x : Nat) (hk : 1 ≤ k) (hx : x < 10 ^ k) :
    (pad_frac k x).length = k := by
  have := nat_to_chars_len_le x k hk hx
  rw [pad_frac, List.length_append, List.length_replicate]
  omega

/-- Leading zero digits do not change the evaluated value. -/
theorem digits_val_zero_pad (l : List String) :
    ∀ z : Nat, digits_val (List.replicate z (String.mk ['0']) ++ l) = digits_val l
  | 0 => by simp
  | z + 1 => by
      rw [List.replicate_succ, List.cons_append]
      show digits_val (List.replicate z (String.mk ['0']) ++ l) = _
      exact digits_val_zero_pad l z

/-- Evaluating the padded fraction returns the remainder. -/
theorem pad_frac_val (k x : Nat) :
    digits_val ((pad_frac k x).map (fun c => String.mk [c])) = x := by
  rw [pad_frac, List.map_append, List.map_replicate]
  rw [digits_val_zero_pad]
  exact nat_to_chars_val x

/-- The printed decimal text of a wellformed non-integral fraction: integer
digits, the full stop, then exactly `k` fraction digits. -/
theorem f64_to_chars_eq (q : F64) (h1 : 1 ≤ q.num) (h2 : 2 ≤ q.den) (k : Nat)
    (hk : find_exp q.den = some k) :
    f64_to_chars q =
      nat_to_chars (q.num.natAbs * 10 ^ k / q.den / 10 ^ k) ++
        '.' :: pad_frac k (q.num.natAbs * 10 ^ k / q.den % 10 ^ k) ∧
    10 ^ k % q.den = 0 ∧ 1 ≤ k := by
  have hprop : (10 ^ k % q.den = 0) := by
    have := List.find?_some hk
    simpa using this
  have hkne : ¬(k = 0) := by
    intro h
    subst h
    rw [pow_zero, Nat.mod_eq_of_lt (by omega)] at hprop
    omega
  refine ⟨?_, hprop, by omega⟩
  rw [f64_to_chars, hk, if_neg (show ¬ q.num < 0 by omega)]
  show ([] ++ (if k = 0 then nat_to_chars (q.num.natAbs * 10 ^ k / q.den)
      else nat_to_chars (q.num.natAbs * 10 ^ k / q.den / 10 ^ k) ++ ['.'] ++
        pad_frac k (q.num.natAbs * 10 ^ k / q.den % 10 ^ k))) = _
  rw [if_neg hkne]
  simp

/-- Parsing the regenerated decimal text of a wellformed non-integral float
value returns the value exactly. -/
theorem parse_f64_roundtrip (q : F64) (h1 : 1 ≤ q.num) (h2 : 2 ≤ q.den)
    (hg : Nat.gcd q.num.natAbs q.den = 1) (k : Nat) (hk : find_exp q.den = some k) :
    parse_f64 (floatTokLit q) = .ok q := by
  obtain ⟨hchars, hdvd0, hk1⟩ := f64_to_chars_eq q h1 h2 k hk
  have hdvd : q.den ∣ 10 ^ k := Nat.dvd_of_mod_eq_zero hdvd0
  have hpow : 0 < 10 ^ k := Nat.pos_pow_of_pos k (by omega)
  have hlitsplit : floatTokLit q =
      (nat_to_chars (q.num.natAbs * 10 ^ k / q.den / 10 ^ k)).map (fun c => String.mk [c]) ++
        String.mk ['.'] ::
        (pad_frac k (q.num.natAbs * 10 ^ k / q.den % 10 ^ k)).map (fun c => String.mk [c]) := by
    rw [floatTokLit, hchars, List.map_append, List.map_cons]
  have hIdig : ∀ s ∈ (nat_to_chars (q.num.natAbs * 10 ^ k / q.den / 10 ^ k)).map
      (fun c => String.mk [c]), decide (s ≠ ".") = true := by
    intro s hs
    obtain ⟨c, hc, rfl⟩ := List.mem_map.mp hs
    exact decide_eq_true (str_of_digit_ne_dot c (nat_to_chars_digits _ c hc))
  have hdotp : decide ((String.mk ['.'] : String) ≠ ".") = false := by decide
  have htake := takeWhile_middle_eq (fun s => (decide (s ≠ ".")))
    ((nat_to_chars (q.num.natAbs * 10 ^ k / q.den / 10 ^ k)).map (fun c => String.mk [c]))
    (String.mk ['.'])
    ((pad_frac k (q.num.natAbs * 10 ^ k / q.den % 10 ^ k)).map (fun c => String.mk [c]))
    hIdig hdotp
  have hFrdig : ∀ s ∈ (pad_frac k (q.num.natAbs * 10 ^ k / q.den % 10 ^ k)).map
      (fun c => String.mk [c]), (str_digit? s).isSome = true := by
    intro s hs
    obtain ⟨c, hc, rfl⟩ := List.mem_map.mp hs
    exact str_digit_of_digit c (pad_frac_digits _ _ c hc)
  have hIsome : ∀ s ∈ (nat_to_chars (q.num.natAbs * 10 ^ k / q.den / 10 ^ k)).map
      (fun c => String.mk [c]), (str_digit? s).isSome = true := by
    intro s hs
    obtain ⟨c, hc, rfl⟩ := List.mem_map.mp hs
    exact str_digit_of_digit c (nat_to_chars_digits _ c hc)
  rw [parse_f64, hlitsplit]
  rw [htake.1, htake.2]
  rw [if_neg]
  · have hlen : ((pad_frac k (q.num.natAbs * 10 ^ k / q.den % 10 ^ k)).map
        (fun c => String.mk [c])).length = k := by
      rw [List.length_map]
      exact pad_frac_len k _ hk1 (Nat.mod_lt _ hpow)
    rw [List.tail_cons, hlen]
    rw [nat_to_chars_val, pad_frac_val]
    have hnat : q.num.natAbs * 10 ^ k / q.den / 10 ^ k * 10 ^ k +
        q.num.natAbs * 10 ^ k / q.den % 10 ^ k = q.num.natAbs * 10 ^ k / q.den :=
      Nat.div_add_mod' _ _
    have hx : ((q.num.natAbs * 10 ^ k / q.den / 10 ^ k : Nat) : Int) * 10 ^ k +
        ((q.num.natAbs * 10 ^ k / q.den % 10 ^ k : Nat) : Int) =
        ((q.num.natAbs * 10 ^ k / q.den : Nat) : Int) := by
      exact_mod_cast congrArg (fun n : Nat => (n : Int)) hnat
    rw [hx]
    have ht1 : 0 < 10 ^ k / q.den :=
      Nat.div_pos (Nat.le_of_dvd hpow hdvd) (by omega)
    have htq : q.den * (10 ^ k / q.den) = 10 ^ k := Nat.mul_div_cancel' hdvd
    have hmt : q.num.natAbs * 10 ^ k / q.den = q.num.natAbs * (10 ^ k / q.den) :=
      Nat.mul_div_assoc _ hdvd
    have hgcd : Nat.gcd (q.num.natAbs * 10 ^ k / q.den) (10 ^ k) = 10 ^ k / q.den := by
      rw [hmt]
      nth_rewrite 2 [← htq]
      rw [Nat.gcd_mul_right, hg, Nat.one_mul]
    rw [F64.norm]
    have habs : ((q.num.natAbs * 10 ^ k / q.den : Nat) : Int).natAbs =
        q.num.natAbs * 10 ^ k / q.den := Int.natAbs_ofNat _
    rw [habs, hgcd]
    rw [if_neg (by omega)]
    have htdiv : ((q.num.natAbs * 10 ^ k / q.den : Nat) : Int).tdiv
        ((10 ^ k / q.den : Nat) : Int) =
        ((q.num.natAbs * 10 ^ k / q.den / (10 ^ k / q.den) : Nat) : Int) := rfl
    rw [htdiv]
    have hnum : q.num.natAbs * 10 ^ k / q.den / (10 ^ k / q.den) = q.num.natAbs := by
      rw [hmt]
      exact Nat.mul_div_cancel _ ht1
    have hden : 10 ^ k / (10 ^ k / q.den) = q.den := by
      nth_rewrite 1 [← htq]
      exact Nat.mul_div_cancel _ ht1
    rw [hnum, hden, Int.natAbs_of_nonneg (by omega)]
  · intro hcon
    rcases hcon with h | h | h | h
    · rw [List.isEmpty_eq_true, List.append_eq_nil] at h
      exact nat_to_chars_ne_nil _ (List.map_eq_nil_iff.mp h.1)
    · refine h ?_
      rw [List.tail_cons, List.all_append]
      rw [List.all_eq_true.mpr hIsome, List.all_eq_true.mpr hFrdig]
      rfl
    · rw [List.tail_cons] at h
      have hmem : ("." : String) ∈ (pad_frac k (q.num.natAbs * 10 ^ k / q.den % 10 ^ k)).map
          (fun c => String.mk [c]) := List.elem_iff.mp h
      obtain ⟨c, hc, hcc⟩ := List.mem_map.mp hmem
      exact str_of_digit_ne_dot c (pad_frac_digits _ _ c hc) hcc
    · exact h.2 rfl

/-- Scanning the printed graphemes of a wellformed non-integral float
literal yields exactly its canonical float token. -/
theorem lex_float_seg (q : F64) (h1 : 1 ≤ q.num) (h2 : 2 ≤ q.den) (k : Nat)
    (hk : find_exp q.den = some k) (gs : List String) (f₁ f₂ : Nat)
    (hfollow : ∀ c ∈ gs.head?, is_num_cluster c = false)
    (hf₁ : (float_literal_graphemes q ++ gs).length ≤ f₁) (hf₂ : gs.length ≤ f₂) :
    tokenize_loop f₁ (float_literal_graphemes q ++ gs) =
      (⟨TokenType.Float, floatTokLit q⟩ : Token) :: tokenize_loop f₂ gs := by
  obtain ⟨hchars, _, _⟩ := f64_to_chars_eq q h1 h2 k hk
  obtain ⟨c₀, cs₀, hcons⟩ : ∃ c₀ cs₀,
      nat_to_chars (q.num.natAbs * 10 ^ k / q.den / 10 ^ k) = c₀ :: cs₀ := by
    cases h : nat_to_chars (q.num.natAbs * 10 ^ k / q.den / 10 ^ k) with
    | nil => exact absurd h (nat_to_chars_ne_nil _)
    | cons a l => exact ⟨a, l, rfl⟩
  obtain ⟨d₀, hd₀⟩ : ∃ d : Fin 10, c₀ = Char.ofNat (48 + d.val) :=
    nat_to_chars_digits _ c₀ (by rw [hcons]; exact List.mem_cons_self _ _)
  have hfull : f64_to_chars q =
      c₀ :: (cs₀ ++ '.' :: pad_frac k (q.num.natAbs * 10 ^ k / q.den % 10 ^ k)) := by
    rw [hchars, hcons]
    rfl
  have hdigits : ∀ c ∈ cs₀ ++ '.' :: pad_frac k (q.num.natAbs * 10 ^ k / q.den % 10 ^ k),
      c = '.' ∨ ∃ d : Fin 10, c = Char.ofNat (48 + d.val) := by
    intro c hc
    rcases List.mem_append.mp hc with h | h
    · exact Or.inr (nat_to_chars_digits _ c (by rw [hcons]; exact List.mem_cons_of_mem _ h))
    · rcases List.mem_cons.mp h with rfl | h
      · exact Or.inl rfl
      · exact Or.inr (pad_frac_digits _ _ c h)
  have hany : (cs₀ ++ '.' :: pad_frac k (q.num.natAbs * 10 ^ k / q.den % 10 ^ k)).any
      (fun c => c = '.') = true := by
    rw [List.any_eq_true]
    exact ⟨'.', List.mem_append_right _ (List.mem_cons_self _ _), by decide⟩
  rw [float_literal_graphemes, hfull, hd₀] at hf₁ ⊢
  rw [lex_number_seg d₀ _ gs f₁ f₂ hdigits hfollow hf₁ hf₂, hany]
  rw [floatTokLit, hfull, hd₀]
  rfl

/-! ### Lexer correctness over printed nodes -/

/-- Fuel normalisation to the exact input length. -/
theorem tokenize_loop_norm (l : List String) (f : Nat) (h : l.length ≤ f) :
    tokenize_loop f l = tokenize_loop l.length l :=
  tokenize_loop_fuel l.length l f l.length (Nat.le_refl _) h (Nat.le_refl _)

/-- The follow condition read off the head of the rest. -/
theorem followg_head (t : Token) (gs : List String) (h : followg t gs) :
    ∀ c ∈ gs.head?, followCluster t.token_type c := by
  cases gs with
  | nil => intro c hc; simp at hc
  | cons a l =>
      intro c hc
      simp only [List.head?_cons, Option.mem_def, Option.some.injEq] at hc
      subst hc
      exact h

/-- A wellformed block node is a wellformed statement. -/
theorem wfBlockNode_wfS (b : Node) (h : wfBlockNode b = true) : wfS b = true := by
  cases b <;> first
    | exact h
    | simp [wfBlockNode] at h

/-- A wellformed parameter list is a wellformed expression list. -/
theorem wfIdentList_wfE_list : ∀ ps : List Node, wfIdentList ps = true →
    wfE_list ps = true := by
  intro ps
  induction ps with
  | nil => intro h; rfl
  | cons x rest ih =>
      intro h
      cases x <;> first
        | (rw [wfIdentList, Bool.and_eq_true] at h
           rw [wfE_list, Bool.and_eq_true, wfE]
           exact ⟨h.1, ih h.2⟩)
        | simp [wfIdentList] at h

/-- Lexer correctness of a printed identifier node. -/
theorem lxe_ident (t : Token) (v : List String) (hv : wfIdentVal v = true) :
    LXE (.Identifier t v) := by
  intro gs f₁ hfol hf₁
  rw [Node.string] at hf₁ ⊢
  rw [lastTok] at hfol
  rw [tokensOf]
  simp only [List.singleton_append]
  exact lex_ident_seg v gs f₁ gs.length hv
    (fun c hc => followg_head _ _ hfol c hc) hf₁ (Nat.le_refl _)

/-- Lexer correctness of a printed integer literal. -/
theorem lxe_int (t : Token) (v : Int) (h0 : 0 ≤ v) :
    LXE (.IntegerLiteral t v) := by
  intro gs f₁ hfol hf₁
  rw [Node.string] at hf₁ ⊢
  rw [lastTok] at hfol
  rw [tokensOf]
  simp only [List.singleton_append]
  exact lex_int_seg v h0 gs f₁ gs.length
    (fun c hc => followg_head _ _ hfol c hc) hf₁ (Nat.le_refl _)

/-- Lexer correctness of a printed non-integral float literal. -/
theorem lxe_float (t : Token) (q : F64) (h1 : 1 ≤ q.num) (h2 : 2 ≤ q.den)
    (k : Nat) (hk : find_exp q.den = some k) :
    LXE (.FloatLiteral t q) := by
  intro gs f₁ hfol hf₁
  rw [Node.string] at hf₁ ⊢
  rw [lastTok] at hfol
  rw [tokensOf]
  simp only [List.singleton_append]
  exact lex_float_seg q h1 h2 k hk gs f₁ gs.length
    (fun c hc => followg_head _ _ hfol c hc) hf₁ (Nat.le_refl _)

/-- Lexer correctness of a printed boolean literal. -/
theorem lxe_bool (t : Token) (b : Bool)
    (hlit : t.literal = [if b then gTrue else gFalse]) :
    LXE (.BooleanLiteral t b) := by
  intro gs f₁ hfol hf₁
  rw [Node.string, hlit] at hf₁ ⊢
  rw [tokensOf]
  cases b
  · replace hf₁ : gs.length + 1 ≤ f₁ := by simpa using hf₁
    obtain ⟨k, rfl⟩ : ∃ k, f₁ = k + 1 := ⟨f₁ - 1, by omega⟩
    show tokenize_loop (k + 1) (gFalse :: gs) = [tkFalse] ++ tokenize_loop gs.length gs
    rw [tl_false, List.singleton_append, tokenize_loop_norm gs k (by omega)]
    rfl
  · replace hf₁ : gs.length + 1 ≤ f₁ := by simpa using hf₁
    obtain ⟨k, rfl⟩ : ∃ k, f₁ = k + 1 := ⟨f₁ - 1, by omega⟩
    show tokenize_loop (k + 1) (gTrue :: gs) = [tkTrue] ++ tokenize_loop gs.length gs
    rw [tl_true, List.singleton_append, tokenize_loop_norm gs k (by omega)]
    rfl

/-- Lexer correctness of a printed string literal. -/
theorem lxe_string (t : Token) (v : List String)
    (hv : v.contains gStringClose = false) :
    LXE (.StringLiteral t v) := by
  intro gs f₁ hfol hf₁
  rw [Node.string] at hf₁ ⊢
  rw [tokensOf]
  have hmem : ¬ gStringClose ∈ v := by simpa using hv
  simp only [List.append_assoc, List.cons_append, List.singleton_append,
    List.nil_append] at hf₁ ⊢
  exact lex_string_seg v gs f₁ gs.length hmem hf₁ (Nat.le_refl _)


/-- Scanning a printed operator at exact fuel emits its canonical token. -/
theorem lex_op_seg (op : List String) (hop : op ∈ opLits) (gs : List String)
    (hhead : ∀ c ∈ gs.head?, ¬(c = gEqual)) :
    tokenize_loop (op ++ gs).length (op ++ gs) =
      (⟨opTokenType op, op⟩ : Token) :: tokenize_loop gs.length gs := by
  fin_cases hop <;>
    simp only [List.cons_append, List.nil_append, List.length_cons]
  · rw [tl_plus]; rfl
  · rw [tl_minus]; rfl
  · rw [tl_mult]; rfl
  · rw [tl_div]; rfl
  · rw [tl_mod]; rfl
  · rw [tl_equal]; rfl
  · rw [tl_ne2, tokenize_loop_norm gs (gs.length + 1) (by omega)]; rfl
  · cases gs with
    | nil => rfl
    | cons c gs' => rw [tl_greater1 _ c gs' (hhead c rfl)]; rfl
  · rw [tl_ge2, tokenize_loop_norm gs (gs.length + 1) (by omega)]; rfl
  · cases gs with
    | nil => rfl
    | cons c gs' => rw [tl_less1 _ c gs' (hhead c rfl)]; rfl
  · rw [tl_le2, tokenize_loop_norm gs (gs.length + 1) (by omega)]; rfl
  · rw [tl_and]; rfl
  · rw [tl_or]; rfl

/-- Lexer correctness of a printed prefix expression. -/
theorem lxe_prefix (t : Token) (op : List String) (r : Node)
    (hop : op = [gNot] ∨ op = [gMinus]) (hr : LXE r) :
    LXE (.PrefixExpression t op r) := by
  intro gs f₁ hfol hf₁
  rw [Node.string] at hf₁ ⊢
  rw [tokensOf]
  rcases hop with rfl | rfl <;>
    simp only [List.append_assoc, List.cons_append, List.singleton_append,
      List.nil_append] at hf₁ ⊢ <;>
    replace hf₁ : (Node.string r).length + gs.length + 3 ≤ f₁ := by
      simp only [List.length_cons, List.length_append] at hf₁
      omega
  · obtain ⟨k, rfl⟩ : ∃ k, f₁ = k + 1 := ⟨f₁ - 1, by omega⟩
    rw [tl_lparen]
    obtain ⟨k₂, rfl⟩ : ∃ j, k = j + 1 := ⟨k - 1, by omega⟩
    rw [tl_not]
    rw [hr (gRParen :: gs) k₂
      (followCluster_reserved (lastTok r).token_type gRParen (by decide) (by decide))
      (by simp only [List.length_cons, List.length_append]; omega)]
    rw [List.length_cons, tl_rparen]
    rfl
  · obtain ⟨k, rfl⟩ : ∃ k, f₁ = k + 1 := ⟨f₁ - 1, by omega⟩
    rw [tl_lparen]
    obtain ⟨k₂, rfl⟩ : ∃ j, k = j + 1 := ⟨k - 1, by omega⟩
    rw [tl_minus]
    rw [hr (gRParen :: gs) k₂
      (followCluster_reserved (lastTok r).token_type gRParen (by decide) (by decide))
      (by simp only [List.length_cons, List.length_append]; omega)]
    rw [List.length_cons, tl_rparen]
    rfl

/-- Lexer correctness of a printed infix expression. -/
theorem lxe_infix (t : Token) (l : Node) (op : List String) (r : Node)
    (hop : op ∈ opLits) (hl : LXE l) (hr : LXE r) :
    LXE (.InfixExpression t l op r) := by
  intro gs f₁ hfol hf₁
  rw [Node.string] at hf₁ ⊢
  rw [tokensOf]
  simp only [List.append_assoc, List.cons_append, List.singleton_append,
    List.nil_append] at hf₁ ⊢
  replace hf₁ : (Node.string l).length + op.length + (Node.string r).length +
      gs.length + 4 ≤ f₁ := by
    simp only [List.length_cons, List.length_append] at hf₁
    omega
  obtain ⟨k, rfl⟩ : ∃ k, f₁ = k + 1 := ⟨f₁ - 1, by omega⟩
  rw [tl_lparen]
  rw [hl (" " :: (op ++ (" " :: (Node.string r ++ gRParen :: gs)))) k
    (followCluster_space _)
    (by simp only [List.length_cons, List.length_append]; omega)]
  rw [List.length_cons, tl_space]
  rw [lex_op_seg op hop (" " :: (Node.string r ++ gRParen :: gs))
    (by intro c hc; simp only [List.head?_cons, Option.mem_def,
      Option.some.injEq] at hc; subst hc; decide)]
  rw [List.length_cons, tl_space]
  rw [hr (gRParen :: gs) (Node.string r ++ gRParen :: gs).length
    (followCluster_reserved (lastTok r).token_type gRParen (by decide) (by decide))
    (Nat.le_refl _)]
  rw [List.length_cons, tl_rparen]
  rfl

/-- Lexer correctness of a printed if expression without an else branch. -/
theorem lxe_if_none (t : Token) (c q : Node) (hlit : t.literal = [gIf])
    (hc : LXE c) (hq : LXS q) : LXE (.IfExpression t c q none) := by
  intro gs f₁ hfol hf₁
  rw [Node.string, hlit] at hf₁ ⊢
  rw [tokensOf]
  simp only [List.append_assoc, List.cons_append, List.singleton_append,
    List.nil_append, List.append_nil] at hf₁ ⊢
  replace hf₁ : (Node.string c).length + (Node.string q).length + gs.length + 3 ≤ f₁ := by
    simp only [List.length_cons, List.length_append] at hf₁
    omega
  obtain ⟨k, rfl⟩ : ∃ k, f₁ = k + 1 := ⟨f₁ - 1, by omega⟩
  rw [tl_if]
  obtain ⟨k₂, rfl⟩ : ∃ j, k = j + 1 := ⟨k - 1, by omega⟩
  rw [tl_space]
  rw [hc (" " :: (Node.string q ++ gs)) k₂ (followCluster_space _)
    (by simp only [List.length_cons, List.length_append]; omega)]
  rw [List.length_cons, tl_space]
  rw [hq gs (Node.string q ++ gs).length (Nat.le_refl _)]
  rfl

/-- Lexer correctness of a printed if expression with an else branch. -/
theorem lxe_if_some (t : Token) (c q alt : Node) (hlit : t.literal = [gIf])
    (hc : LXE c) (hq : LXS q) (halt : LXS alt) :
    LXE (.IfExpression t c q (some alt)) := by
  intro gs f₁ hfol hf₁
  rw [Node.string, hlit] at hf₁ ⊢
  rw [tokensOf]
  simp only [List.append_assoc, List.cons_append, List.singleton_append,
    List.nil_append] at hf₁ ⊢
  replace hf₁ : (Node.string c).length + (Node.string q).length +
      (Node.string alt).length + gs.length + 6 ≤ f₁ := by
    simp only [List.length_cons, List.length_append] at hf₁
    omega
  obtain ⟨k, rfl⟩ : ∃ k, f₁ = k + 1 := ⟨f₁ - 1, by omega⟩
  rw [tl_if]
  obtain ⟨k₂, rfl⟩ : ∃ j, k = j + 1 := ⟨k - 1, by omega⟩
  rw [tl_space]
  rw [hc (" " :: (Node.string q ++ (" " :: (gElse :: (" " :: (Node.string alt ++ gs))))))
    k₂ (followCluster_space _)
    (by simp only [List.length_cons, List.length_append]; omega)]
  rw [List.length_cons, tl_space]
  rw [hq (" " :: (gElse :: (" " :: (Node.string alt ++ gs))))
    (Node.string q ++ " " :: (gElse :: (" " :: (Node.string alt ++ gs)))).length
    (Nat.le_refl _)]
  rw [List.length_cons, tl_space, List.length_cons]
  rw [tl_else1 _ " " _ (by decide)]
  rw [List.length_cons, tl_space]
  rw [halt gs (Node.string alt ++ gs).length (Nat.le_refl _)]
  rfl

/-- Lexer correctness of a printed while expression. -/
theorem lxe_while (t : Token) (c b : Node) (hlit : t.literal = [gWhile])
    (hc : LXE c) (hb : LXS b) : LXE (.WhileExpression t c b) := by
  intro gs f₁ hfol hf₁
  rw [Node.string, hlit] at hf₁ ⊢
  rw [tokensOf]
  simp only [List.append_assoc, List.cons_append, List.singleton_append,
    List.nil_append] at hf₁ ⊢
  replace hf₁ : (Node.string c).length + (Node.string b).length + gs.length + 3 ≤ f₁ := by
    simp only [List.length_cons, List.length_append] at hf₁
    omega
  obtain ⟨k, rfl⟩ : ∃ k, f₁ = k + 1 := ⟨f₁ - 1, by omega⟩
  rw [tl_while]
  obtain ⟨k₂, rfl⟩ : ∃ j, k = j + 1 := ⟨k - 1, by omega⟩
  rw [tl_space]
  rw [hc (" " :: (Node.string b ++ gs)) k₂ (followCluster_space _)
    (by simp only [List.length_cons, List.length_append]; omega)]
  rw [List.length_cons, tl_space]
  rw [hb gs (Node.string b ++ gs).length (Nat.le_refl _)]
  rfl

/-- Lexer correctness of a printed call expression. -/
theorem lxe_call (t : Token) (f : Node) (args : List Node)
    (hf : LXE f) (hargs : LXA args) : LXE (.CallExpression t f args) := by
  intro gs f₁ hfol hf₁
  rw [Node.string] at hf₁ ⊢
  rw [tokensOf]
  simp only [List.append_assoc, List.cons_append, List.singleton_append,
    List.nil_append] at hf₁ ⊢
  rw [hf (gLParen :: (Node.string_join_comma args ++ (gRParen :: gs))) f₁
    (followCluster_reserved (lastTok f).token_type gLParen (by decide) (by decide))
    hf₁]
  rw [List.length_cons, tl_lparen]
  rw [hargs (gRParen :: gs) (Node.string_join_comma args ++ gRParen :: gs).length
    rfl (Nat.le_refl _)]
  rw [List.length_cons, tl_rparen]
  rfl

/-- Lexer correctness of a printed anonymous function literal. -/
theorem lxe_fn_none (t : Token) (ps : List Node) (b : Node)
    (hlit : t.literal = [gFunction]) (hps : LXA ps) (hb : LXS b) :
    LXE (.FunctionLiteral t none ps b) := by
  intro gs f₁ hfol hf₁
  rw [Node.string, hlit] at hf₁ ⊢
  rw [tokensOf]
  simp only [List.append_assoc, List.cons_append, List.singleton_append,
    List.nil_append] at hf₁ ⊢
  replace hf₁ : (Node.string_join_comma ps).length + (Node.string b).length +
      gs.length + 5 ≤ f₁ := by
    simp only [List.length_cons, List.length_append] at hf₁
    omega
  obtain ⟨k, rfl⟩ : ∃ k, f₁ = k + 1 := ⟨f₁ - 1, by omega⟩
  rw [tl_function]
  obtain ⟨k₂, rfl⟩ : ∃ j, k = j + 1 := ⟨k - 1, by omega⟩
  rw [tl_space]
  obtain ⟨k₃, rfl⟩ : ∃ j, k₂ = j + 1 := ⟨k₂ - 1, by omega⟩
  rw [tl_lparen]
  rw [tokenize_loop_norm (Node.string_join_comma ps ++
    (gRParen :: (" " :: (Node.string b ++ gs)))) k₃
    (by simp only [List.length_cons, List.length_append]; omega)]
  rw [hps (gRParen :: (" " :: (Node.string b ++ gs)))
    (Node.string_join_comma ps ++ gRParen :: (" " :: (Node.string b ++ gs))).length
    rfl (Nat.le_refl _)]
  rw [List.length_cons, tl_rparen, List.length_cons, tl_space]
  rw [hb gs (Node.string b ++ gs).length (Nat.le_refl _)]
  rfl

/-- Lexer correctness of a printed named function literal. -/
theorem lxe_fn_some (t nt : Token) (v : List String) (ps : List Node) (b : Node)
    (hlit : t.literal = [gFunction]) (hv : wfIdentVal v) (hps : LXA ps) (hb : LXS b) :
    LXE (.FunctionLiteral t (some (.Identifier nt v)) ps b) := by
  intro gs f₁ hfol hf₁
  rw [Node.string, hlit] at hf₁ ⊢
  rw [tokensOf]
  rw [Node.string] at hf₁ ⊢
  simp only [List.append_assoc, List.cons_append, List.singleton_append,
    List.nil_append] at hf₁ ⊢
  replace hf₁ : v.length + (Node.string_join_comma ps).length +
      (Node.string b).length + gs.length + 6 ≤ f₁ := by
    simp only [List.length_cons, List.length_append] at hf₁
    omega
  obtain ⟨k, rfl⟩ : ∃ k, f₁ = k + 1 := ⟨f₁ - 1, by omega⟩
  rw [tl_function]
  obtain ⟨k₂, rfl⟩ : ∃ j, k = j + 1 := ⟨k - 1, by omega⟩
  rw [tl_space]
  rw [lex_ident_seg v
    (" " :: (gLParen :: (Node.string_join_comma ps ++
      (gRParen :: (" " :: (Node.string b ++ gs)))))) k₂
    ((" " :: (gLParen :: (Node.string_join_comma ps ++
      (gRParen :: (" " :: (Node.string b ++ gs)))))).length) hv
    (by intro c hc; simp only [List.head?_cons, Option.mem_def,
      Option.some.injEq] at hc; subst hc; decide)
    (by simp only [List.length_cons, List.length_append]; omega) (Nat.le_refl _)]
  rw [List.length_cons, tl_space, List.length_cons, tl_lparen]
  rw [hps (gRParen :: (" " :: (Node.string b ++ gs)))
    (Node.string_join_comma ps ++ gRParen :: (" " :: (Node.string b ++ gs))).length
    rfl (Nat.le_refl _)]
  rw [List.length_cons, tl_rparen, List.length_cons, tl_space]
  rw [hb gs (Node.string b ++ gs).length (Nat.le_refl _)]
  rfl

/-- Lexer correctness of a printed assign statement. -/
theorem lxs_assign (t nt : Token) (v : List String) (value : Node)
    (hlit : t.literal = [gAssign]) (hv : wfIdentVal v) (hval : LXE value) :
    LXS (.AssignStatement t (.Identifier nt v) value) := by
  intro gs f₁ hf₁
  rw [Node.string, hlit] at hf₁ ⊢
  rw [tokensOf]
  rw [Node.string] at hf₁ ⊢
  rw [tokensOf]
  simp only [List.append_assoc, List.cons_append, List.singleton_append,
    List.nil_append] at hf₁ ⊢
  rw [lex_ident_seg v
    (" " :: (gAssign :: (" " :: (Node.string value ++ (" " :: (gSemicolon :: gs)))))) f₁
    ((" " :: (gAssign :: (" " :: (Node.string value ++
      (" " :: (gSemicolon :: gs)))))).length) hv
    (by intro c hc; simp only [List.head?_cons, Option.mem_def,
      Option.some.injEq] at hc; subst hc; decide)
    hf₁ (Nat.le_refl _)]
  rw [List.length_cons, tl_space, List.length_cons, tl_assign, List.length_cons,
    tl_space]
  rw [hval (" " :: (gSemicolon :: gs))
    (Node.string value ++ " " :: (gSemicolon :: gs)).length
    (followCluster_space _) (Nat.le_refl _)]
  rw [List.length_cons, tl_space, List.length_cons, tl_semi]
  rfl

/-- Lexer correctness of a printed return statement. -/
theorem lxs_return (t : Token) (value : Node) (hlit : t.literal = [gReturn])
    (hval : LXE value) : LXS (.ReturnStatement t value) := by
  intro gs f₁ hf₁
  rw [Node.string, hlit] at hf₁ ⊢
  rw [tokensOf]
  simp only [List.append_assoc, List.cons_append, List.singleton_append,
    List.nil_append] at hf₁ ⊢
  replace hf₁ : (Node.string value).length + gs.length + 4 ≤ f₁ := by
    simp only [List.length_cons, List.length_append] at hf₁
    omega
  obtain ⟨k, rfl⟩ : ∃ k, f₁ = k + 1 := ⟨f₁ - 1, by omega⟩
  rw [tl_return]
  obtain ⟨k₂, rfl⟩ : ∃ j, k = j + 1 := ⟨k - 1, by omega⟩
  rw [tl_space]
  rw [hval (" " :: (gSemicolon :: gs)) k₂ (followCluster_space _)
    (by simp only [List.length_cons, List.length_append]; omega)]
  rw [List.length_cons, tl_space, List.length_cons, tl_semi]
  rfl

/-- Lexer correctness of a printed expression statement. -/
theorem lxs_exprstmt (t : Token) (e : Node) (he : LXE e) :
    LXS (.ExpressionStatement t e) := by
  intro gs f₁ hf₁
  rw [Node.string] at hf₁ ⊢
  rw [tokensOf]
  simp only [List.append_assoc, List.cons_append, List.singleton_append,
    List.nil_append] at hf₁ ⊢
  rw [he (" " :: (gSemicolon :: gs)) f₁ (followCluster_space _) hf₁]
  rw [List.length_cons, tl_space, List.length_cons, tl_semi]
  rfl

/-- Lexer correctness of a printed block statement. -/
theorem lxs_block (t : Token) (ss : List Node) (hlit : t.literal = [gLBrace])
    (hss : LXSL ss) : LXS (.BlockStatement t ss) := by
  intro gs f₁ hf₁
  rw [Node.string, hlit] at hf₁ ⊢
  rw [tokensOf]
  simp only [List.append_assoc, List.cons_append, List.singleton_append,
    List.nil_append] at hf₁ ⊢
  replace hf₁ : (Node.string_concat ss).length + gs.length + 4 ≤ f₁ := by
    simp only [List.length_cons, List.length_append] at hf₁
    omega
  obtain ⟨k, rfl⟩ : ∃ k, f₁ = k + 1 := ⟨f₁ - 1, by omega⟩
  rw [tl_lbrace]
  obtain ⟨k₂, rfl⟩ : ∃ j, k = j + 1 := ⟨k - 1, by omega⟩
  rw [tl_space]
  rw [hss (" " :: (gRBrace :: gs)) k₂
    (by simp only [List.length_cons, List.length_append]; omega)]
  rw [List.length_cons, tl_space, List.length_cons, tl_rbrace]
  rfl

/-- Lexer correctness of the empty printed statement list. -/
theorem lxsl_nil : LXSL [] := by
  intro gs f₁ hf₁
  rw [Node.string_concat, tokensOf_list]
  simp only [List.nil_append] at hf₁ ⊢
  exact tokenize_loop_norm gs f₁ hf₁

/-- Lexer correctness of a printed statement list, cons case. -/
theorem lxsl_cons (s : Node) (rest : List Node) (hs : LXS s) (hrest : LXSL rest) :
    LXSL (s :: rest) := by
  intro gs f₁ hf₁
  rw [Node.string_concat] at hf₁
  rw [Node.string_concat, tokensOf_list]
  simp only [List.append_assoc] at hf₁ ⊢
  rw [hs (Node.string_concat rest ++ gs) f₁ hf₁]
  rw [hrest gs (Node.string_concat rest ++ gs).length (Nat.le_refl _)]

/-- Lexer correctness of the empty printed argument list. -/
theorem lxa_nil : LXA [] := by
  intro gs f₁ hhead hf₁
  rw [Node.string_join_comma, tokensOf_args]
  simp only [List.nil_append] at hf₁ ⊢
  exact tokenize_loop_norm gs f₁ hf₁

/-- Lexer correctness of a one-element printed argument list. -/
theorem lxa_single (x : Node) (hx : LXE x) : LXA [x] := by
  intro gs f₁ hhead hf₁
  rw [Node.string_join_comma, tokensOf_args]
  refine hx gs f₁ ?_ hf₁
  cases gs with
  | nil => simp at hhead
  | cons c gs' =>
      simp only [List.head?_cons, Option.some.injEq] at hhead
      subst hhead
      exact followCluster_reserved (lastTok x).token_type gRParen (by decide) (by decide)

/-- Lexer correctness of a printed argument list with a comma. -/
theorem lxa_cons (x y : Node) (rest : List Node) (hx : LXE x)
    (hrest : LXA (y :: rest)) : LXA (x :: y :: rest) := by
  intro gs f₁ hhead hf₁
  have hjoin : Node.string_join_comma (x :: y :: rest) =
      Node.string x ++ [gComma, " "] ++ Node.string_join_comma (y :: rest) := rfl
  have htoks : tokensOf_args (x :: y :: rest) =
      tokensOf x ++ tkComma :: tokensOf_args (y :: rest) := rfl
  rw [hjoin] at hf₁
  rw [hjoin, htoks]
  simp only [List.append_assoc, List.cons_append, List.singleton_append,
    List.nil_append] at hf₁ ⊢
  rw [hx (gComma :: (" " :: (Node.string_join_comma (y :: rest) ++ gs))) f₁
    (followCluster_reserved (lastTok x).token_type gComma (by decide) (by decide))
    hf₁]
  rw [List.length_cons, tl_comma, List.length_cons, tl_space]
  rw [hrest gs (Node.string_join_comma (y :: rest) ++ gs).length hhead (Nat.le_refl _)]
  rfl

/-- Lexer correctness over all printed wellformed nodes, by strong
induction on size: the printed text of a node re-tokenizes to exactly its
token stream. -/
theorem lex_print_mega : ∀ n : Nat, LexMegaAt n := by
  intro n
  induction n using Nat.strong_induction_on with
  | _ n ih =>
  have hEs : ∀ e : Node, sizeOf e < n → wfE e = true → LXE e :=
    fun e h hw => (ih (sizeOf e) h).1 e (Nat.le_refl _) hw
  have hSs : ∀ s : Node, sizeOf s < n → wfS s = true → LXS s :=
    fun s h hw => (ih (sizeOf s) h).2.1 s (Nat.le_refl _) hw
  have hSLs : ∀ ss : List Node, sizeOf ss < n → wfS_list ss = true → LXSL ss :=
    fun ss h hw => (ih (sizeOf ss) h).2.2.1 ss (Nat.le_refl _) hw
  have hAs : ∀ A : List Node, sizeOf A < n → wfE_list A = true → LXA A :=
    fun A h hw => (ih (sizeOf A) h).2.2.2 A (Nat.le_refl _) hw
  refine ⟨?_, ?_, ?_, ?_⟩
  · intro e hsize hwf
    cases e with
    | Program ss => simp [wfE] at hwf
    | AssignStatement t a b => simp [wfE] at hwf
    | ReturnStatement t a => simp [wfE] at hwf
    | ExpressionStatement t a => simp [wfE] at hwf
    | BlockStatement t a => simp [wfE] at hwf
    | Identifier t v => exact lxe_ident t v (by rwa [wfE] at hwf)
    | IntegerLiteral t v =>
        rw [wfE, Bool.and_eq_true, decide_eq_true_eq, decide_eq_true_eq] at hwf
        exact lxe_int t v hwf.1
    | FloatLiteral t q =>
        rw [wfE] at hwf
        simp only [Bool.and_eq_true, decide_eq_true_eq, beq_iff_eq,
          Option.isSome_iff_exists] at hwf
        obtain ⟨⟨⟨h1, h2⟩, hg⟩, k, hk⟩ := hwf
        exact lxe_float t q h1 h2 k hk
    | BooleanLiteral t b =>
        rw [wfE, beq_iff_eq] at hwf
        exact lxe_bool t b hwf
    | StringLiteral t v =>
        rw [wfE, Bool.not_eq_true'] at hwf
        exact lxe_string t v hwf
    | PrefixExpression t op r =>
        rw [wfE, Bool.and_eq_true, Bool.or_eq_true, beq_iff_eq, beq_iff_eq] at hwf
        have hsz : sizeOf r < n := by simp at hsize; omega
        exact lxe_prefix t op r hwf.1 (hEs r hsz hwf.2)
    | InfixExpression t l op r =>
        rw [wfE, Bool.and_eq_true, Bool.and_eq_true] at hwf
        obtain ⟨⟨hop, hl⟩, hr⟩ := hwf
        have hszl : sizeOf l < n := by simp at hsize; omega
        have hszr : sizeOf r < n := by simp at hsize; omega
        exact lxe_infix t l op r (by simpa using hop) (hEs l hszl hl) (hEs r hszr hr)
    | IfExpression t c q a =>
        cases a with
        | none =>
            rw [wfE] at hwf
            simp only [Bool.and_eq_true, beq_iff_eq] at hwf
            obtain ⟨⟨⟨hlit, hc⟩, hq⟩, -⟩ := hwf
            have hszc : sizeOf c < n := by simp at hsize; omega
            have hszq : sizeOf q < n := by simp at hsize; omega
            exact lxe_if_none t c q hlit (hEs c hszc hc)
              (hSs q hszq (wfBlockNode_wfS q hq))
        | some alt =>
            rw [wfE] at hwf
            simp only [Bool.and_eq_true, beq_iff_eq] at hwf
            obtain ⟨⟨⟨hlit, hc⟩, hq⟩, halt⟩ := hwf
            have hszc : sizeOf c < n := by simp at hsize; omega
            have hszq : sizeOf q < n := by simp at hsize; omega
            have hszalt : sizeOf alt < n := by simp at hsize; omega
            exact lxe_if_some t c q alt hlit (hEs c hszc hc)
              (hSs q hszq (wfBlockNode_wfS q hq))
              (hSs alt hszalt (wfBlockNode_wfS alt halt))
    | WhileExpression t c b =>
        rw [wfE] at hwf
        simp only [Bool.and_eq_true, beq_iff_eq] at hwf
        obtain ⟨⟨hlit, hc⟩, hb⟩ := hwf
        have hszc : sizeOf c < n := by simp at hsize; omega
        have hszb : sizeOf b < n := by simp at hsize; omega
        exact lxe_while t c b hlit (hEs c hszc hc) (hSs b hszb (wfBlockNode_wfS b hb))
    | FunctionLiteral t nm ps b =>
        cases nm with
        | none =>
            rw [wfE] at hwf
            simp only [Bool.and_eq_true, beq_iff_eq] at hwf
            obtain ⟨⟨⟨hlit, -⟩, hps⟩, hb⟩ := hwf
            have hszps : sizeOf ps < n := by simp at hsize; omega
            have hszb : sizeOf b < n := by simp at hsize; omega
            exact lxe_fn_none t ps b hlit
              (hAs ps hszps (wfIdentList_wfE_list ps hps))
              (hSs b hszb (wfBlockNode_wfS b hb))
        | some nmNode =>
            cases nmNode with
            | Identifier nt v =>
                rw [wfE] at hwf
                simp only [Bool.and_eq_true, beq_iff_eq] at hwf
                obtain ⟨⟨⟨hlit, hv⟩, hps⟩, hb⟩ := hwf
                have hszps : sizeOf ps < n := by simp at hsize; omega
                have hszb : sizeOf b < n := by simp at hsize; omega
                exact lxe_fn_some t nt v ps b hlit hv
                  (hAs ps hszps (wfIdentList_wfE_list ps hps))
                  (hSs b hszb (wfBlockNode_wfS b hb))
            | Program x => simp [wfE] at hwf
            | AssignStatement x y z => simp [wfE] at hwf
            | ReturnStatement x y => simp [wfE] at hwf
            | ExpressionStatement x y => simp [wfE] at hwf
            | BlockStatement x y => simp [wfE] at hwf
            | IntegerLiteral x y => simp [wfE] at hwf
            | FloatLiteral x y => simp [wfE] at hwf
            | BooleanLiteral x y => simp [wfE] at hwf
            | StringLiteral x y => simp [wfE] at hwf
            | PrefixExpression x y z => simp [wfE] at hwf
            | InfixExpression x y z w => simp [wfE] at hwf
            | IfExpression x y z w => simp [wfE] at hwf
            | WhileExpression x y z => simp [wfE] at hwf
            | FunctionLiteral x y z w => simp [wfE] at hwf
            | CallExpression x y z => simp [wfE] at hwf
    | CallExpression t f args =>
        rw [wfE, Bool.and_eq_true] at hwf
        have hszf : sizeOf f < n := by simp at hsize; omega
        have hszargs : sizeOf args < n := by simp at hsize; omega
        exact lxe_call t f args (hEs f hszf hwf.1) (hAs args hszargs hwf.2)
  · intro s hsize hwf
    cases s with
    | AssignStatement t name value =>
        cases name with
        | Identifier nt v =>
            rw [wfS] at hwf
            simp only [Bool.and_eq_true, beq_iff_eq] at hwf
            obtain ⟨⟨hlit, hv⟩, hval⟩ := hwf
            have hsz : sizeOf value < n := by simp at hsize; omega
            exact lxs_assign t nt v value hlit hv (hEs value hsz hval)
        | Program x => simp [wfS] at hwf
        | AssignStatement x y z => simp [wfS] at hwf
        | ReturnStatement x y => simp [wfS] at hwf
        | ExpressionStatement x y => simp [wfS] at hwf
        | BlockStatement x y => simp [wfS] at hwf
        | IntegerLiteral x y => simp [wfS] at hwf
        | FloatLiteral x y => simp [wfS] at hwf
        | BooleanLiteral x y => simp [wfS] at hwf
        | StringLiteral x y => simp [wfS] at hwf
        | PrefixExpression x y z => simp [wfS] at hwf
        | InfixExpression x y z w => simp [wfS] at hwf
        | IfExpression x y z w => simp [wfS] at hwf
        | WhileExpression x y z => simp [wfS] at hwf
        | FunctionLiteral x y z w => simp [wfS] at hwf
        | CallExpression x y z => simp [wfS] at hwf
    | ReturnStatement t value =>
        rw [wfS] at hwf
        simp only [Bool.and_eq_true, beq_iff_eq] at hwf
        have hsz : sizeOf value < n := by simp at hsize; omega
        exact lxs_return t value hwf.1 (hEs value hsz hwf.2)
    | ExpressionStatement t e =>
        rw [wfS] at hwf
        have hsz : sizeOf e < n := by simp at hsize; omega
        exact lxs_exprstmt t e (hEs e hsz hwf)
    | BlockStatement t ss =>
        rw [wfS] at hwf
        simp only [Bool.and_eq_true, beq_iff_eq] at hwf
        have hsz : sizeOf ss < n := by simp at hsize; omega
        exact lxs_block t ss hwf.1 (hSLs ss hsz hwf.2)
    | Program ss => simp [wfS] at hwf
    | Identifier x y => simp [wfS] at hwf
    | IntegerLiteral x y => simp [wfS] at hwf
    | FloatLiteral x y => simp [wfS] at hwf
    | BooleanLiteral x y => simp [wfS] at hwf
    | StringLiteral x y => simp [wfS] at hwf
    | PrefixExpression x y z => simp [wfS] at hwf
    | InfixExpression x y z w => simp [wfS] at hwf
    | IfExpression x y z w => simp [wfS] at hwf
    | WhileExpression x y z => simp [wfS] at hwf
    | FunctionLiteral x y z w => simp [wfS] at hwf
    | CallExpression x y z => simp [wfS] at hwf
  · intro ss hsize hwf
    cases ss with
    | nil => exact lxsl_nil
    | cons s rest =>
        rw [wfS_list, Bool.and_eq_true] at hwf
        have h1 : sizeOf s < n := by simp at hsize; omega
        have h2 : sizeOf rest < n := by simp at hsize; omega
        exact lxsl_cons s rest (hSs s h1 hwf.1) (hSLs rest h2 hwf.2)
  · intro A hsize hwf
    cases A with
    | nil => exact lxa_nil
    | cons x rest =>
        rw [wfE_list, Bool.and_eq_true] at hwf
        cases rest with
        | nil => exact lxa_single x (hEs x (by simp at hsize; omega) hwf.1)
        | cons y rest' =>
            exact lxa_cons x y rest' (hEs x (by simp at hsize; omega) hwf.1)
              (hAs (y :: rest') (by simp at hsize ⊢; omega) hwf.2)

/-! ### Parser correctness over printed tokens: groundwork -/

/-- Nothing is below the lowest precedence. -/
theorem not_lt_lowest : ∀ p : Precedence, ¬(p < Precedence.Lowest) := by
  intro p
  cases p <;> decide

/-- The shared facts of the thirteen operator literals: registered infix
kind, not a semicolon, not the call parenthesis, not the else keyword, a
precedence strictly between Lowest and Call. -/
theorem op_facts : ∀ op ∈ opLits,
    infix_registered (opTokenType op) = true ∧
    ¬(opTokenType op = TokenType.Semicolon) ∧
    ¬(opTokenType op = TokenType.LParenthesis) ∧
    ¬(opTokenType op = TokenType.Else) ∧
    Precedence.Lowest < get_operator_precedence ⟨opTokenType op, op⟩ ∧
    get_operator_precedence ⟨opTokenType op, op⟩ < Precedence.Call := by decide

/-- Expression head kinds are not structural punctuation. -/
theorem isExprHead_facts : ∀ tt : TokenType, isExprHead tt = true →
    ¬(tt = TokenType.RBrace) ∧ ¬(tt = TokenType.Semicolon) ∧
    ¬(tt = TokenType.RParenthesis) ∧ ¬(tt = TokenType.Assign) := by
  intro tt
  cases tt <;> decide

/-- The stop conditions behind the canonical followers of printed
expressions. -/
theorem restOK_semi (r : List Token) : restOK (tkSemi :: r) := by
  exact ⟨rfl, by decide⟩

theorem restOK_rparen (r : List Token) : restOK (tkRParen :: r) := by
  exact ⟨rfl, by decide⟩

theorem restOK_lbrace (r : List Token) : restOK (tkLBrace :: r) := by
  exact ⟨rfl, by decide⟩

theorem restOK_comma (r : List Token) : restOK (tkComma :: r) := by
  exact ⟨rfl, by decide⟩

/-- The expression loop stops when the next token stops it. -/
theorem parse_expression_loop_stop (f : Nat) (prec : Precedence) (left : Node)
    (cur : Token) (rest : List Token) (h : restOK rest) :
    parse_expression_loop (f + 1) prec left (cur :: rest) =
      some (.ok left, cur :: rest) := by
  cases rest with
  | nil => rfl
  | cons t r =>
      obtain ⟨h1, _⟩ := h
      simp only [parse_expression_loop, next_tok, List.tail_cons, List.head?_cons]
      rw [if_neg (fun hc => not_lt_lowest prec (h1 ▸ hc.2))]

/-- One advancing step of the cursor. -/
theorem advance_cons (a b : Token) (l : List Token) :
    advance_or_stay (a :: b :: l) = b :: l := rfl

/-- The trailing-semicolon loop consumes the printed single semicolon. -/
theorem eat_semis (cur : Token) (rest : List Token) (h : stmtFollowOK rest) :
    eat_semicolons (cur :: tkSemi :: rest) = tkSemi :: rest := by
  rw [eat_semicolons,
    if_pos (show tkSemi.token_type = TokenType.Semicolon from rfl)]
  cases rest with
  | nil => rfl
  | cons t r =>
      rw [eat_semicolons, if_neg h]

/-- The fold-token lists concatenate. -/
theorem foldsToks_append : ∀ fs₁ fs₂ : List CFold,
    foldsToks (fs₁ ++ fs₂) = foldsToks fs₁ ++ foldsToks fs₂
  | [], _ => rfl
  | f :: fs₁, fs₂ => by
      rw [List.cons_append, foldsToks, foldsToks, foldsToks_append fs₁ fs₂,
        List.append_assoc]

/-- The fold application concatenates. -/
theorem foldsApply_append : ∀ (fs₁ fs₂ : List CFold) (left : Node),
    foldsApply left (fs₁ ++ fs₂) = foldsApply (foldsApply left fs₁) fs₂
  | [], _, _ => rfl
  | f :: fs₁, fs₂, left => by
      rw [List.cons_append, foldsApply, foldsApply, foldsApply_append fs₁ fs₂]

/-- The final cursor token of a nonempty fold list ignores the start. -/
theorem foldsLast_ne_nil : ∀ (fs : List CFold) (c₁ c₂ : Token), fs ≠ [] →
    foldsLast c₁ fs = foldsLast c₂ fs
  | [], _, _, h => absurd rfl h
  | [.call _], _, _, _ => rfl
  | [.infx _ _], _, _, _ => rfl
  | .call _ :: f :: fs, c₁, c₂, _ => by
      show foldsLast c₁ (f :: fs) = foldsLast c₂ (f :: fs)
      exact foldsLast_ne_nil (f :: fs) c₁ c₂ (by simp)
  | .infx _ _ :: f :: fs, c₁, c₂, _ => by
      show foldsLast c₁ (f :: fs) = foldsLast c₂ (f :: fs)
      exact foldsLast_ne_nil (f :: fs) c₁ c₂ (by simp)

/-- The spine of a node: its printed tokens are its base's followed by its
call folds. -/
theorem spine_toks : ∀ e : Node,
    tokensOf e = tokensOf (spineBase e) ++ foldsToks (spineFolds e)
  | .CallExpression t f A => by
      rw [tokensOf, spineBase, spineFolds, foldsToks_append,
        spine_toks f, List.append_assoc]
      simp [foldsToks, CFold.toks]
  | .Program ss => by
      rw [show spineFolds (Node.Program ss) = [] from rfl,
        show spineBase (Node.Program ss) = (Node.Program ss) from rfl, foldsToks, List.append_nil]
  | .AssignStatement t a b => by
      rw [show spineFolds (Node.AssignStatement t a b) = [] from rfl,
        show spineBase (Node.AssignStatement t a b) = (Node.AssignStatement t a b) from rfl, foldsToks, List.append_nil]
  | .ReturnStatement t a => by
      rw [show spineFolds (Node.ReturnStatement t a) = [] from rfl,
        show spineBase (Node.ReturnStatement t a) = (Node.ReturnStatement t a) from rfl, foldsToks, List.append_nil]
  | .ExpressionStatement t a => by
      rw [show spineFolds (Node.ExpressionStatement t a) = [] from rfl,
        show spineBase (Node.ExpressionStatement t a) = (Node.ExpressionStatement t a) from rfl, foldsToks, List.append_nil]
  | .BlockStatement t a => by
      rw [show spineFolds (Node.BlockStatement t a) = [] from rfl,
        show spineBase (Node.BlockStatement t a) = (Node.BlockStatement t a) from rfl, foldsToks, List.append_nil]
  | .Identifier t v => by
      rw [show spineFolds (Node.Identifier t v) = [] from rfl,
        show spineBase (Node.Identifier t v) = (Node.Identifier t v) from rfl, foldsToks, List.append_nil]
  | .IntegerLiteral t v => by
      rw [show spineFolds (Node.IntegerLiteral t v) = [] from rfl,
        show spineBase (Node.IntegerLiteral t v) = (Node.IntegerLiteral t v) from rfl, foldsToks, List.append_nil]
  | .FloatLiteral t q => by
      rw [show spineFolds (Node.FloatLiteral t q) = [] from rfl,
        show spineBase (Node.FloatLiteral t q) = (Node.FloatLiteral t q) from rfl, foldsToks, List.append_nil]
  | .BooleanLiteral t b => by
      rw [show spineFolds (Node.BooleanLiteral t b) = [] from rfl,
        show spineBase (Node.BooleanLiteral t b) = (Node.BooleanLiteral t b) from rfl, foldsToks, List.append_nil]
  | .StringLiteral t v => by
      rw [show spineFolds (Node.StringLiteral t v) = [] from rfl,
        show spineBase (Node.StringLiteral t v) = (Node.StringLiteral t v) from rfl, foldsToks, List.append_nil]
  | .PrefixExpression t o r => by
      rw [show spineFolds (Node.PrefixExpression t o r) = [] from rfl,
        show spineBase (Node.PrefixExpression t o r) = (Node.PrefixExpression t o r) from rfl, foldsToks, List.append_nil]
  | .InfixExpression t l o r => by
      rw [show spineFolds (Node.InfixExpression t l o r) = [] from rfl,
        show spineBase (Node.InfixExpression t l o r) = (Node.InfixExpression t l o r) from rfl, foldsToks, List.append_nil]
  | .IfExpression t c q a => by
      rw [show spineFolds (Node.IfExpression t c q a) = [] from rfl,
        show spineBase (Node.IfExpression t c q a) = (Node.IfExpression t c q a) from rfl, foldsToks, List.append_nil]
  | .WhileExpression t c b => by
      rw [show spineFolds (Node.WhileExpression t c b) = [] from rfl,
        show spineBase (Node.WhileExpression t c b) = (Node.WhileExpression t c b) from rfl, foldsToks, List.append_nil]
  | .FunctionLiteral t nm ps b => by
      rw [show spineFolds (Node.FunctionLiteral t nm ps b) = [] from rfl,
        show spineBase (Node.FunctionLiteral t nm ps b) = (Node.FunctionLiteral t nm ps b) from rfl, foldsToks, List.append_nil]

/-- The spine folds applied to the canonical base rebuild the canonical
node. -/
theorem spine_apply : ∀ e : Node,
    foldsApply (canon (spineBase e)) (spineFolds e) = canon e
  | .CallExpression t f A => by
      rw [spineBase, spineFolds, foldsApply_append, spine_apply f]
      rfl
  | .Program ss => rfl
  | .AssignStatement t a b => rfl
  | .ReturnStatement t a => rfl
  | .ExpressionStatement t a => rfl
  | .BlockStatement t a => rfl
  | .Identifier t v => rfl
  | .IntegerLiteral t v => rfl
  | .FloatLiteral t q => rfl
  | .BooleanLiteral t b => rfl
  | .StringLiteral t v => rfl
  | .PrefixExpression t o r => rfl
  | .InfixExpression t l o r => rfl
  | .IfExpression t c q a => rfl
  | .WhileExpression t c b => rfl
  | .FunctionLiteral t nm ps b => rfl

/-- The spine base is never a call. -/
theorem spine_base_notCall : ∀ e : Node, notCall (spineBase e) = true
  | .CallExpression t f A => by rw [spineBase]; exact spine_base_notCall f
  | .Program ss => rfl
  | .AssignStatement t a b => rfl
  | .ReturnStatement t a => rfl
  | .ExpressionStatement t a => rfl
  | .BlockStatement t a => rfl
  | .Identifier t v => rfl
  | .IntegerLiteral t v => rfl
  | .FloatLiteral t q => rfl
  | .BooleanLiteral t b => rfl
  | .StringLiteral t v => rfl
  | .PrefixExpression t o r => rfl
  | .InfixExpression t l o r => rfl
  | .IfExpression t c q a => rfl
  | .WhileExpression t c b => rfl
  | .FunctionLiteral t nm ps b => rfl

/-- Size lower bound of a token. -/
theorem token_sizeOf_ge (t : Token) : 2 ≤ sizeOf t := by
  cases t with
  | mk tt lit =>
      have h1 : 1 ≤ sizeOf tt := by cases tt <;> simp
      simp
      omega

/-- Call folds stay call folds under appending one. -/
theorem onlyCalls_append_call : ∀ fs : List CFold, onlyCalls fs = true →
    ∀ A, onlyCalls (fs ++ [CFold.call A]) = true
  | [], _, A => rfl
  | .call B :: fs, h, A => by
      rw [List.cons_append]
      rw [onlyCalls] at h ⊢
      exact onlyCalls_append_call fs h A
  | .infx o r :: fs, h, A => by simp [onlyCalls] at h

/-- Wellformedness of a call-fold list extended by a call fold. -/
theorem wfFolds_append_call : ∀ fs : List CFold, onlyCalls fs = true →
    wfFolds fs = true → ∀ A, wfE_list A = true →
    wfFolds (fs ++ [CFold.call A]) = true
  | [], _, _, A, hA => by
      rw [List.nil_append, wfFolds, Bool.and_eq_true]
      exact ⟨hA, rfl⟩
  | .call B :: fs, hc, hw, A, hA => by
      rw [onlyCalls] at hc
      rw [wfFolds, Bool.and_eq_true] at hw
      rw [List.cons_append, wfFolds, Bool.and_eq_true]
      exact ⟨hw.1, wfFolds_append_call fs hc hw.2 A hA⟩
  | .infx o r :: fs, hc, _, _, _ => by simp [onlyCalls] at hc

/-- Wellformedness of a call-fold list extended by a final infix fold. -/
theorem wfFolds_append_infx : ∀ fs : List CFold, onlyCalls fs = true →
    wfFolds fs = true → ∀ op r, opLits.contains op = true → wfE r = true →
    wfFolds (fs ++ [CFold.infx op r]) = true
  | [], _, _, op, r, hop, hr => by
      rw [List.nil_append, wfFolds, Bool.and_eq_true]
      exact ⟨hop, hr⟩
  | .call B :: fs, hc, hw, op, r, hop, hr => by
      rw [onlyCalls] at hc
      rw [wfFolds, Bool.and_eq_true] at hw
      rw [List.cons_append, wfFolds, Bool.and_eq_true]
      exact ⟨hw.1, wfFolds_append_infx fs hc hw.2 op r hop hr⟩
  | .infx o r' :: fs, hc, _, _, _, _, _ => by simp [onlyCalls] at hc

/-- Call folds satisfy the precedence side condition at any level. -/
theorem foldsPrecOK_calls (prec : Precedence) : ∀ fs : List CFold,
    onlyCalls fs = true → foldsPrecOK prec fs
  | [], _ => trivial
  | .call A :: fs, h => by
      rw [onlyCalls] at h
      exact foldsPrecOK_calls prec fs h
  | .infx o r :: fs, h => by simp [onlyCalls] at h

/-- A final infix fold satisfies the side condition at lowest level. -/
theorem foldsPrecOK_append_infx : ∀ fs : List CFold, onlyCalls fs = true →
    ∀ op r, foldsPrecOK Precedence.Lowest (fs ++ [CFold.infx op r])
  | [], _, op, r => ⟨rfl, trivial⟩
  | .call A :: fs, h, op, r => by
      rw [onlyCalls] at h
      rw [List.cons_append]
      exact foldsPrecOK_append_infx fs h op r
  | .infx o r' :: fs, h, _, _ => by simp [onlyCalls] at h

/-- The wellformedness of a node distributes over its call spine. -/
theorem spine_wf : ∀ (n : Nat) (e : Node), sizeOf e ≤ n → wfE e = true →
    wfE (spineBase e) = true ∧ wfFolds (spineFolds e) = true ∧
      onlyCalls (spineFolds e) = true := by
  intro n
  induction n using Nat.strong_induction_on with
  | _ n ih =>
  intro e hsize hwf
  cases e with
  | CallExpression t f A =>
      rw [wfE, Bool.and_eq_true] at hwf
      have hf := ih (sizeOf f) (by simp at hsize; omega) f (Nat.le_refl _) hwf.1
      rw [spineBase, spineFolds]
      exact ⟨hf.1, wfFolds_append_call _ hf.2.2 hf.2.1 A hwf.2,
        onlyCalls_append_call _ hf.2.2 A⟩
  | Program ss => exact ⟨hwf, rfl, rfl⟩
  | AssignStatement t a b => exact ⟨hwf, rfl, rfl⟩
  | ReturnStatement t a => exact ⟨hwf, rfl, rfl⟩
  | ExpressionStatement t a => exact ⟨hwf, rfl, rfl⟩
  | BlockStatement t a => exact ⟨hwf, rfl, rfl⟩
  | Identifier t v => exact ⟨hwf, rfl, rfl⟩
  | IntegerLiteral t v => exact ⟨hwf, rfl, rfl⟩
  | FloatLiteral t q => exact ⟨hwf, rfl, rfl⟩
  | BooleanLiteral t b => exact ⟨hwf, rfl, rfl⟩
  | StringLiteral t v => exact ⟨hwf, rfl, rfl⟩
  | PrefixExpression t o r => exact ⟨hwf, rfl, rfl⟩
  | InfixExpression t l o r => exact ⟨hwf, rfl, rfl⟩
  | IfExpression t c q a => exact ⟨hwf, rfl, rfl⟩
  | WhileExpression t c b => exact ⟨hwf, rfl, rfl⟩
  | FunctionLiteral t nm ps b => exact ⟨hwf, rfl, rfl⟩

/-- The first token of a printed wellformed expression: its kind is an
expression head, and after an identifier head the next printed token, when
one exists, is the call parenthesis. -/
theorem tokensOf_head_all : ∀ (n : Nat) (e : Node), sizeOf e ≤ n → wfE e = true →
    ∃ t ts, tokensOf e = t :: ts ∧ isExprHead t.token_type = true ∧
      (t.token_type = TokenType.Identifier → ts = [] ∨
        ∃ t2 ts2, ts = t2 :: ts2 ∧ t2.token_type = TokenType.LParenthesis) := by
  intro n
  induction n using Nat.strong_induction_on with
  | _ n ih =>
  intro e hsize hwf
  cases e with
  | Program ss => simp [wfE] at hwf
  | AssignStatement t a b => simp [wfE] at hwf
  | ReturnStatement t a => simp [wfE] at hwf
  | ExpressionStatement t a => simp [wfE] at hwf
  | BlockStatement t a => simp [wfE] at hwf
  | Identifier t v =>
      exact ⟨⟨TokenType.Identifier, v⟩, [], rfl, rfl, fun _ => Or.inl rfl⟩
  | IntegerLiteral t v =>
      exact ⟨⟨TokenType.Integer, intTokLit v⟩, [], rfl, rfl,
        fun h => TokenType.noConfusion h⟩
  | FloatLiteral t q =>
      exact ⟨⟨TokenType.Float, floatTokLit q⟩, [], rfl, rfl,
        fun h => TokenType.noConfusion h⟩
  | BooleanLiteral t b =>
      cases b
      · exact ⟨tkFalse, [], rfl, rfl, fun h => TokenType.noConfusion h⟩
      · exact ⟨tkTrue, [], rfl, rfl, fun h => TokenType.noConfusion h⟩
  | StringLiteral t v =>
      exact ⟨⟨TokenType.String, v⟩, [], rfl, rfl, fun h => TokenType.noConfusion h⟩
  | PrefixExpression t o r =>
      exact ⟨tkLParen, _, rfl, rfl, fun h => TokenType.noConfusion h⟩
  | InfixExpression t l o r =>
      exact ⟨tkLParen, _, rfl, rfl, fun h => TokenType.noConfusion h⟩
  | IfExpression t c q a =>
      refine ⟨tkIf, tokensOf c ++ tokensOf q ++
        (match a with
         | some alt => tkElse :: tokensOf alt
         | none => []), ?_, rfl, fun h => TokenType.noConfusion h⟩
      cases a <;> rw [tokensOf]
  | WhileExpression t c b =>
      refine ⟨tkWhile, tokensOf c ++ tokensOf b, ?_, rfl,
        fun h => TokenType.noConfusion h⟩
      rw [tokensOf]
  | FunctionLiteral t nm ps b =>
      refine ⟨tkFunction,
        (match nm with
         | some n => tokensOf n
         | none => []) ++ tkLParen :: (tokensOf_args ps ++ tkRParen :: tokensOf b),
        ?_, rfl, fun h => TokenType.noConfusion h⟩
      cases nm <;> rw [tokensOf]
  | CallExpression t f A =>
      rw [wfE, Bool.and_eq_true] at hwf
      obtain ⟨t0, ts0, heq, hhead, hident⟩ :=
        ih (sizeOf f) (by simp at hsize; omega) f (Nat.le_refl _) hwf.1
      refine ⟨t0, ts0 ++ tkLParen :: (tokensOf_args A ++ [tkRParen]), ?_, hhead, ?_⟩
      · rw [tokensOf, heq, List.cons_append]
      · intro hid
        rcases hident hid with rfl | ⟨t2, ts2, rfl, ht2⟩
        · exact Or.inr ⟨tkLParen, _, rfl, rfl⟩
        · exact Or.inr ⟨t2, _, rfl, ht2⟩

/-- The first token of a printed wellformed statement is never a closing
brace or semicolon. -/
theorem tokensOf_stmt_head : ∀ s : Node, wfS s = true →
    ∃ t ts, tokensOf s = t :: ts ∧ ¬(t.token_type = TokenType.RBrace) ∧
      ¬(t.token_type = TokenType.Semicolon) := by
  intro s hwf
  cases s with
  | AssignStatement t name value =>
      cases name with
      | Identifier nt v =>
          exact ⟨⟨TokenType.Identifier, v⟩, _, rfl, fun h => TokenType.noConfusion h,
            fun h => TokenType.noConfusion h⟩
      | Program x => simp [wfS] at hwf
      | AssignStatement x y z => simp [wfS] at hwf
      | ReturnStatement x y => simp [wfS] at hwf
      | ExpressionStatement x y => simp [wfS] at hwf
      | BlockStatement x y => simp [wfS] at hwf
      | IntegerLiteral x y => simp [wfS] at hwf
      | FloatLiteral x y => simp [wfS] at hwf
      | BooleanLiteral x y => simp [wfS] at hwf
      | StringLiteral x y => simp [wfS] at hwf
      | PrefixExpression x y z => simp [wfS] at hwf
      | InfixExpression x y z w => simp [wfS] at hwf
      | IfExpression x y z w => simp [wfS] at hwf
      | WhileExpression x y z => simp [wfS] at hwf
      | FunctionLiteral x y z w => simp [wfS] at hwf
      | CallExpression x y z => simp [wfS] at hwf
  | ReturnStatement t value =>
      exact ⟨tkReturn, _, rfl, fun h => TokenType.noConfusion h,
        fun h => TokenType.noConfusion h⟩
  | ExpressionStatement t e =>
      rw [wfS] at hwf
      obtain ⟨t0, ts0, heq, hhead, -⟩ :=
        tokensOf_head_all (sizeOf e) e (Nat.le_refl _) hwf
      obtain ⟨h1, h2, -, -⟩ := isExprHead_facts _ hhead
      exact ⟨t0, ts0 ++ [tkSemi], by rw [tokensOf, heq, List.cons_append], h1, h2⟩
  | BlockStatement t ss =>
      exact ⟨tkLBrace, _, rfl, fun h => TokenType.noConfusion h,
        fun h => TokenType.noConfusion h⟩
  | Program ss => simp [wfS] at hwf
  | Identifier x y => simp [wfS] at hwf
  | IntegerLiteral x y => simp [wfS] at hwf
  | FloatLiteral x y => simp [wfS] at hwf
  | BooleanLiteral x y => simp [wfS] at hwf
  | StringLiteral x y => simp [wfS] at hwf
  | PrefixExpression x y z => simp [wfS] at hwf
  | InfixExpression x y z w => simp [wfS] at hwf
  | IfExpression x y z w => simp [wfS] at hwf
  | WhileExpression x y z => simp [wfS] at hwf
  | FunctionLiteral x y z w => simp [wfS] at hwf
  | CallExpression x y z => simp [wfS] at hwf

/-- Dispatcher correctness on a printed identifier. -/
theorem pd_ident (t : Token) (v : List String) : PD (.Identifier t v) := by
  intro t0 ts rest f heq hf hrest
  obtain ⟨rfl, rfl⟩ : t0 = ⟨TokenType.Identifier, v⟩ ∧ ts = [] := by
    have := heq.symm
    simp only [tokensOf, List.cons.injEq] at this
    exact ⟨this.1, this.2⟩
  obtain ⟨f, rfl⟩ : ∃ j, f = j + 1 := ⟨f - 1, by omega⟩
  simp only [parse_prefix_dispatch, parse_identifier, List.nil_append]
  rfl

/-- Dispatcher correctness on a printed integer literal. -/
theorem pd_int (t : Token) (v : Int) (h0 : 0 ≤ v) (h1 : v ≤ i64_max) :
    PD (.IntegerLiteral t v) := by
  intro t0 ts rest f heq hf hrest
  obtain ⟨rfl, rfl⟩ : t0 = ⟨TokenType.Integer, intTokLit v⟩ ∧ ts = [] := by
    have := heq.symm
    simp only [tokensOf, List.cons.injEq] at this
    exact ⟨this.1, this.2⟩
  obtain ⟨f, rfl⟩ : ∃ j, f = j + 1 := ⟨f - 1, by omega⟩
  simp only [parse_prefix_dispatch, parse_integer_literal, List.nil_append]
  rw [parse_i64_roundtrip v h0 h1]
  rfl

/-- Dispatcher correctness on a printed non-integral float literal. -/
theorem pd_float (t : Token) (q : F64) (h1 : 1 ≤ q.num) (h2 : 2 ≤ q.den)
    (hg : Nat.gcd q.num.natAbs q.den = 1) (k : Nat) (hk : find_exp q.den = some k) :
    PD (.FloatLiteral t q) := by
  intro t0 ts rest f heq hf hrest
  obtain ⟨rfl, rfl⟩ : t0 = ⟨TokenType.Float, floatTokLit q⟩ ∧ ts = [] := by
    have := heq.symm
    simp only [tokensOf, List.cons.injEq] at this
    exact ⟨this.1, this.2⟩
  obtain ⟨f, rfl⟩ : ∃ j, f = j + 1 := ⟨f - 1, by omega⟩
  simp only [parse_prefix_dispatch, parse_float_literal, List.nil_append]
  rw [parse_f64_roundtrip q h1 h2 hg k hk]
  rfl

/-- Dispatcher correctness on a printed boolean literal. -/
theorem pd_bool (t : Token) (b : Bool) : PD (.BooleanLiteral t b) := by
  intro t0 ts rest f heq hf hrest
  obtain ⟨rfl, rfl⟩ : t0 = (if b then tkTrue else tkFalse) ∧ ts = [] := by
    have := heq.symm
    simp only [tokensOf, List.cons.injEq] at this
    exact ⟨this.1, this.2⟩
  obtain ⟨f, rfl⟩ : ∃ j, f = j + 1 := ⟨f - 1, by omega⟩
  cases b
  · simp only [if_neg (show ¬(false = true) from Bool.false_ne_true)]
    simp only [parse_prefix_dispatch, parse_bool_literal, List.nil_append]
    rfl
  · simp only [if_pos rfl]
    simp only [parse_prefix_dispatch, parse_bool_literal, List.nil_append]
    rfl

/-- Dispatcher correctness on a printed string literal. -/
theorem pd_string (t : Token) (v : List String) : PD (.StringLiteral t v) := by
  intro t0 ts rest f heq hf hrest
  obtain ⟨rfl, rfl⟩ : t0 = ⟨TokenType.String, v⟩ ∧ ts = [] := by
    have := heq.symm
    simp only [tokensOf, List.cons.injEq] at this
    exact ⟨this.1, this.2⟩
  obtain ⟨f, rfl⟩ : ∃ j, f = j + 1 := ⟨f - 1, by omega⟩
  simp only [parse_prefix_dispatch, parse_string_literal, List.nil_append]
  rfl

/-- Dispatcher correctness on a printed prefix expression (parsed through
the group parser). -/
theorem pd_prefix (t : Token) (op : List String) (r : Node)
    (hop : op = [gNot] ∨ op = [gMinus]) (hwfr : wfE r = true) (hr : PE r []) :
    PD (.PrefixExpression t op r) := by
  intro t0 ts rest f heq hf hrest
  obtain ⟨rfl, rfl⟩ : t0 = tkLParen ∧
      ts = ⟨opTokenType op, op⟩ :: (tokensOf r ++ [tkRParen]) := by
    have := heq
    simp only [tokensOf, List.cons.injEq] at this
    exact ⟨this.1.symm, this.2.symm⟩
  simp only [tokensOf, List.length_cons, List.length_append] at hf
  obtain ⟨g, rfl⟩ : ∃ g, f = g + 8 := ⟨f - 8, by omega⟩
  obtain ⟨tr, tsr, hr_toks, -, -⟩ := tokensOf_head_all (sizeOf r) r (Nat.le_refl _) hwfr
  rw [show tkLParen.token_type = TokenType.LParenthesis from rfl]
  simp only [parse_prefix_dispatch]
  simp only [parse_group_expression]
  rw [List.cons_append, advance_cons]
  rcases hop with rfl | rfl
  · rw [show (⟨opTokenType [gNot], [gNot]⟩ : Token) = ⟨TokenType.Not, [gNot]⟩ from rfl]
    simp only [parse_expression]
    simp only [parse_prefix_dispatch]
    simp only [parse_prefix_expression]
    have hre := hr Precedence.Prefix (tkRParen :: rest) (g + 3)
      (by simp only [foldsToks, List.length_nil]; omega)
      (restOK_rparen rest) (by decide) trivial
    simp only [foldsToks, List.nil_append, foldsApply, foldsLast] at hre
    rw [hr_toks] at hre
    simp only [List.cons_append] at hre
    rw [hr_toks]
    simp only [List.cons_append, List.append_assoc, List.singleton_append,
      List.nil_append]
    rw [hre]
    dsimp only
    rw [(by omega : g + 5 = g + 4 + 1)]
    rw [parse_expression_loop_stop (g + 4) Precedence.Lowest _ (lastTok r)
      (tkRParen :: rest) (restOK_rparen rest)]
    rfl
  · rw [show (⟨opTokenType [gMinus], [gMinus]⟩ : Token) =
      ⟨TokenType.Minus, [gMinus]⟩ from rfl]
    simp only [parse_expression]
    simp only [parse_prefix_dispatch]
    simp only [parse_prefix_expression]
    have hre := hr Precedence.Prefix (tkRParen :: rest) (g + 3)
      (by simp only [foldsToks, List.length_nil]; omega)
      (restOK_rparen rest) (by decide) trivial
    simp only [foldsToks, List.nil_append, foldsApply, foldsLast] at hre
    rw [hr_toks] at hre
    simp only [List.cons_append] at hre
    rw [hr_toks]
    simp only [List.cons_append, List.append_assoc, List.singleton_append,
      List.nil_append]
    rw [hre]
    dsimp only
    rw [(by omega : g + 5 = g + 4 + 1)]
    rw [parse_expression_loop_stop (g + 4) Precedence.Lowest _ (lastTok r)
      (tkRParen :: rest) (restOK_rparen rest)]
    rfl

/-- Dispatcher correctness on a printed infix expression (parsed through
the group parser, folding once). -/
theorem pd_infix (t : Token) (l : Node) (op : List String) (r : Node)
    (hwfl : wfE l = true)
    (hl : PE l [.infx op r]) : PD (.InfixExpression t l op r) := by
  intro t0 ts rest f heq hf hrest
  obtain ⟨rfl, rfl⟩ : t0 = tkLParen ∧
      ts = tokensOf l ++ ⟨opTokenType op, op⟩ :: (tokensOf r ++ [tkRParen]) := by
    have := heq
    simp only [tokensOf, List.cons.injEq] at this
    exact ⟨this.1.symm, this.2.symm⟩
  simp only [tokensOf, List.length_cons, List.length_append] at hf
  obtain ⟨g, rfl⟩ : ∃ g, f = g + 8 := ⟨f - 8, by omega⟩
  obtain ⟨tl, tsl, hl_toks, -, -⟩ := tokensOf_head_all (sizeOf l) l (Nat.le_refl _) hwfl
  rw [show tkLParen.token_type = TokenType.LParenthesis from rfl]
  simp only [parse_prefix_dispatch]
  simp only [parse_group_expression]
  rw [hl_toks]
  simp only [List.cons_append, List.append_assoc, List.singleton_append,
    List.nil_append]
  rw [advance_cons]
  have hle := hl Precedence.Lowest (tkRParen :: rest) (g + 6)
    (by simp only [foldsToks, CFold.toks, List.length_cons, List.length_append,
          List.append_nil, List.length_nil]; omega)
    (restOK_rparen rest) (by decide) (by exact ⟨rfl, trivial⟩)
  simp only [foldsToks, CFold.toks, foldsApply, CFold.apply, foldsLast,
    List.append_nil, List.nil_append] at hle
  rw [hl_toks] at hle
  simp only [List.cons_append, List.append_assoc] at hle
  rw [hle]
  dsimp only
  rfl

/-- Dispatcher correctness on a printed while expression. -/
theorem pd_while (t tb : Token) (c : Node) (ss : List Node)
    (hwfc : wfE c = true) (hc : PE c [])
    (hb : PBlk (.BlockStatement tb ss)) :
    PD (.WhileExpression t c (.BlockStatement tb ss)) := by
  intro t0 ts rest f heq hf hrest
  obtain ⟨rfl, rfl⟩ : t0 = tkWhile ∧
      ts = tokensOf c ++ (tkLBrace :: (tokensOf_list ss ++ [tkRBrace])) := by
    have := heq
    simp only [tokensOf, List.cons.injEq] at this
    exact ⟨this.1.symm, this.2.symm⟩
  simp only [tokensOf, List.length_cons, List.length_append,
    List.length_nil] at hf
  obtain ⟨g, rfl⟩ : ∃ g, f = g + 8 := ⟨f - 8, by omega⟩
  obtain ⟨tc, tsc, hc_toks, -, -⟩ := tokensOf_head_all (sizeOf c) c (Nat.le_refl _) hwfc
  rw [show tkWhile.token_type = TokenType.While from rfl]
  simp only [parse_prefix_dispatch]
  simp only [parse_while_expression]
  rw [hc_toks]
  simp only [List.cons_append, List.append_assoc, List.singleton_append,
    List.nil_append]
  rw [advance_cons]
  have hce := hc Precedence.Lowest
    (tkLBrace :: (tokensOf_list ss ++ tkRBrace :: rest)) (g + 6)
    (by simp only [foldsToks, List.length_nil]; omega)
    (restOK_lbrace _) (by decide) trivial
  simp only [foldsToks, List.nil_append, foldsApply, foldsLast] at hce
  rw [hc_toks] at hce
  simp only [List.cons_append] at hce
  rw [hce]
  dsimp only
  rw [show next_tok (lastTok c :: tkLBrace :: (tokensOf_list ss ++ tkRBrace :: rest)) =
    some tkLBrace from rfl]
  rw [if_neg (by decide)]
  rw [advance_cons]
  have hbe := hb (rest) (g + 6)
    (by simp only [tokensOf, List.length_cons, List.length_append,
          List.length_nil]; omega)
  simp only [tokensOf] at hbe
  simp only [List.cons_append, List.append_assoc, List.singleton_append,
    List.nil_append] at hbe
  rw [hbe]
  rfl

/-- Dispatcher correctness on a printed if expression without an else
branch. -/
theorem pd_if_none (t tb : Token) (c : Node) (ss : List Node)
    (hwfc : wfE c = true) (hc : PE c [])
    (hb : PBlk (.BlockStatement tb ss)) :
    PD (.IfExpression t c (.BlockStatement tb ss) none) := by
  intro t0 ts rest f heq hf hrest
  obtain ⟨rfl, rfl⟩ : t0 = tkIf ∧
      ts = tokensOf c ++ (tkLBrace :: (tokensOf_list ss ++ [tkRBrace])) := by
    have := heq
    simp only [tokensOf, List.cons.injEq, List.append_nil] at this
    exact ⟨this.1.symm, this.2.symm⟩
  simp only [tokensOf, List.length_cons, List.length_append,
    List.length_nil] at hf
  obtain ⟨g, rfl⟩ : ∃ g, f = g + 8 := ⟨f - 8, by omega⟩
  obtain ⟨tc, tsc, hc_toks, -, -⟩ := tokensOf_head_all (sizeOf c) c (Nat.le_refl _) hwfc
  rw [show tkIf.token_type = TokenType.If from rfl]
  simp only [parse_prefix_dispatch]
  simp only [parse_if_expression]
  rw [hc_toks]
  simp only [List.cons_append, List.append_assoc, List.singleton_append,
    List.nil_append]
  rw [advance_cons]
  have hce := hc Precedence.Lowest
    (tkLBrace :: (tokensOf_list ss ++ tkRBrace :: rest)) (g + 6)
    (by simp only [foldsToks, List.length_nil]; omega)
    (restOK_lbrace _) (by decide) trivial
  simp only [foldsToks, List.nil_append, foldsApply, foldsLast] at hce
  rw [hc_toks] at hce
  simp only [List.cons_append] at hce
  rw [hce]
  dsimp only
  rw [show next_tok (lastTok c :: tkLBrace :: (tokensOf_list ss ++ tkRBrace :: rest)) =
    some tkLBrace from rfl]
  rw [if_neg (by decide)]
  rw [advance_cons]
  have hbe := hb (rest) (g + 6)
    (by simp only [tokensOf, List.length_cons, List.length_append,
          List.length_nil]; omega)
  simp only [tokensOf] at hbe
  simp only [List.cons_append, List.append_assoc, List.singleton_append,
    List.nil_append] at hbe
  rw [hbe]
  dsimp only
  cases rest with
  | nil => rfl
  | cons t2 r2 =>
      rw [show next_tok (tkRBrace :: t2 :: r2) = some t2 from rfl]
      rw [if_neg (by
        simp only [Option.any_some, decide_eq_true_eq]
        exact hrest)]
      rfl

/-- Dispatcher correctness on a printed if expression with an else
branch. -/
theorem pd_if_some (t tb ta : Token) (c : Node) (ss ss2 : List Node)
    (hwfc : wfE c = true) (hc : PE c [])
    (hb : PBlk (.BlockStatement tb ss))
    (hb2 : PBlk (.BlockStatement ta ss2)) :
    PD (.IfExpression t c (.BlockStatement tb ss)
      (some (.BlockStatement ta ss2))) := by
  intro t0 ts rest f heq hf hrest
  obtain ⟨rfl, rfl⟩ : t0 = tkIf ∧
      ts = tokensOf c ++ (tkLBrace :: (tokensOf_list ss ++ [tkRBrace])) ++
        (tkElse :: (tkLBrace :: (tokensOf_list ss2 ++ [tkRBrace]))) := by
    have := heq
    simp only [tokensOf, List.cons.injEq] at this
    exact ⟨this.1.symm, this.2.symm⟩
  simp only [tokensOf, List.length_cons, List.length_append,
    List.length_nil] at hf
  obtain ⟨g, rfl⟩ : ∃ g, f = g + 8 := ⟨f - 8, by omega⟩
  obtain ⟨tc, tsc, hc_toks, -, -⟩ := tokensOf_head_all (sizeOf c) c (Nat.le_refl _) hwfc
  rw [show tkIf.token_type = TokenType.If from rfl]
  simp only [parse_prefix_dispatch]
  simp only [parse_if_expression]
  rw [hc_toks]
  simp only [List.cons_append, List.append_assoc, List.singleton_append,
    List.nil_append]
  rw [advance_cons]
  have hce := hc Precedence.Lowest
    (tkLBrace :: (tokensOf_list ss ++ tkRBrace ::
      (tkElse :: (tkLBrace :: (tokensOf_list ss2 ++ tkRBrace :: rest))))) (g + 6)
    (by simp only [foldsToks, List.length_nil]; omega)
    (restOK_lbrace _) (by decide) trivial
  simp only [foldsToks, List.nil_append, foldsApply, foldsLast] at hce
  rw [hc_toks] at hce
  simp only [List.cons_append] at hce
  rw [hce]
  dsimp only
  rw [show next_tok (lastTok c :: tkLBrace :: (tokensOf_list ss ++ tkRBrace ::
    (tkElse :: (tkLBrace :: (tokensOf_list ss2 ++ tkRBrace :: rest))))) =
    some tkLBrace from rfl]
  rw [if_neg (by decide)]
  rw [advance_cons]
  have hbe := hb (tkElse :: (tkLBrace :: (tokensOf_list ss2 ++ tkRBrace :: rest)))
    (g + 6)
    (by simp only [tokensOf, List.length_cons, List.length_append,
          List.length_nil]; omega)
  simp only [tokensOf] at hbe
  simp only [List.cons_append, List.append_assoc, List.singleton_append,
    List.nil_append] at hbe
  rw [hbe]
  dsimp only
  rw [show next_tok (tkRBrace :: tkElse :: (tkLBrace ::
    (tokensOf_list ss2 ++ tkRBrace :: rest))) = some tkElse from rfl]
  rw [if_pos (by decide)]
  rw [advance_cons]
  rw [show next_tok (tkElse :: tkLBrace :: (tokensOf_list ss2 ++ tkRBrace :: rest)) =
    some tkLBrace from rfl]
  rw [if_neg (by decide)]
  rw [advance_cons]
  have hbe2 := hb2 rest (g + 6)
    (by simp only [tokensOf, List.length_cons, List.length_append,
          List.length_nil]; omega)
  simp only [tokensOf] at hbe2
  simp only [List.cons_append, List.append_assoc, List.singleton_append,
    List.nil_append] at hbe2
  rw [hbe2]
  rfl

/-- Dispatcher correctness on a printed anonymous function literal. -/
theorem pd_fn_none (t tb : Token) (ps : List Node) (ss : List Node)
    (hp : PP ps) (hb : PBlk (.BlockStatement tb ss)) :
    PD (.FunctionLiteral t none ps (.BlockStatement tb ss)) := by
  intro t0 ts rest f heq hf hrest
  obtain ⟨rfl, rfl⟩ : t0 = tkFunction ∧
      ts = tkLParen :: (tokensOf_args ps ++ tkRParen ::
        (tkLBrace :: (tokensOf_list ss ++ [tkRBrace]))) := by
    have := heq
    simp only [tokensOf, List.cons.injEq, List.nil_append] at this
    exact ⟨this.1.symm, this.2.symm⟩
  simp only [tokensOf, List.length_cons, List.length_append,
    List.length_nil] at hf
  obtain ⟨g, rfl⟩ : ∃ g, f = g + 8 := ⟨f - 8, by omega⟩
  rw [show tkFunction.token_type = TokenType.Function from rfl]
  simp only [parse_prefix_dispatch]
  simp only [parse_function_literal]
  simp only [List.cons_append, List.append_assoc, List.singleton_append,
    List.nil_append]
  rw [show next_tok (tkFunction :: tkLParen :: (tokensOf_args ps ++ tkRParen ::
    (tkLBrace :: (tokensOf_list ss ++ tkRBrace :: rest)))) =
    some tkLParen from rfl]
  rw [if_neg (show ¬(Option.any
    (fun t => decide (t.token_type = TokenType.Identifier)) (some tkLParen) = true)
    by decide)]
  dsimp only
  rw [show next_tok (tkFunction :: tkLParen :: (tokensOf_args ps ++ tkRParen ::
    (tkLBrace :: (tokensOf_list ss ++ tkRBrace :: rest)))) =
    some tkLParen from rfl]
  rw [if_neg (show ¬(Option.any
    (fun t => decide (t.token_type ≠ TokenType.LParenthesis)) (some tkLParen) = true)
    by decide)]
  rw [advance_cons]
  have hpe := hp [] tkLParen
    (tkLBrace :: (tokensOf_list ss ++ tkRBrace :: rest)) (g + 6)
    (by omega)
  simp only [List.nil_append] at hpe
  rw [hpe]
  dsimp only
  rw [show next_tok (tkRParen :: tkLBrace :: (tokensOf_list ss ++ tkRBrace :: rest)) =
    some tkLBrace from rfl]
  rw [if_neg (by decide)]
  rw [advance_cons]
  have hbe := hb rest (g + 6)
    (by simp only [tokensOf, List.length_cons, List.length_append,
          List.length_nil]; omega)
  simp only [tokensOf] at hbe
  simp only [List.cons_append, List.append_assoc, List.singleton_append,
    List.nil_append] at hbe
  rw [hbe]
  rfl

/-- Dispatcher correctness on a printed named function literal. -/
theorem pd_fn_some (t tb tn : Token) (v : List String) (ps : List Node)
    (ss : List Node)
    (hp : PP ps) (hb : PBlk (.BlockStatement tb ss)) :
    PD (.FunctionLiteral t (some (.Identifier tn v)) ps
      (.BlockStatement tb ss)) := by
  intro t0 ts rest f heq hf hrest
  obtain ⟨rfl, rfl⟩ : t0 = tkFunction ∧
      ts = ⟨TokenType.Identifier, v⟩ :: (tkLParen :: (tokensOf_args ps ++ tkRParen ::
        (tkLBrace :: (tokensOf_list ss ++ [tkRBrace])))) := by
    have := heq
    simp only [tokensOf, List.cons.injEq, List.cons_append, List.nil_append] at this
    exact ⟨this.1.symm, this.2.symm⟩
  simp only [tokensOf, List.length_cons, List.length_append,
    List.length_nil] at hf
  obtain ⟨g, rfl⟩ : ∃ g, f = g + 8 := ⟨f - 8, by omega⟩
  rw [show tkFunction.token_type = TokenType.Function from rfl]
  simp only [parse_prefix_dispatch]
  simp only [parse_function_literal]
  simp only [List.cons_append, List.append_assoc, List.singleton_append,
    List.nil_append]
  rw [show next_tok (tkFunction :: ⟨TokenType.Identifier, v⟩ :: (tkLParen ::
    (tokensOf_args ps ++ tkRParen ::
      (tkLBrace :: (tokensOf_list ss ++ tkRBrace :: rest))))) =
    some ⟨TokenType.Identifier, v⟩ from rfl]
  rw [if_pos (show Option.any
    (fun t => decide (t.token_type = TokenType.Identifier))
    (some (⟨TokenType.Identifier, v⟩ : Token)) = true from rfl)]
  rw [advance_cons]
  dsimp only
  rw [show next_tok ((⟨TokenType.Identifier, v⟩ : Token) :: tkLParen ::
    (tokensOf_args ps ++ tkRParen ::
      (tkLBrace :: (tokensOf_list ss ++ tkRBrace :: rest)))) =
    some tkLParen from rfl]
  rw [if_neg (show ¬(Option.any
    (fun t => decide (t.token_type ≠ TokenType.LParenthesis)) (some tkLParen) = true)
    by decide)]
  rw [advance_cons]
  have hpe := hp [] tkLParen
    (tkLBrace :: (tokensOf_list ss ++ tkRBrace :: rest)) (g + 6)
    (by omega)
  simp only [List.nil_append] at hpe
  rw [hpe]
  dsimp only
  rw [show next_tok (tkRParen :: tkLBrace :: (tokensOf_list ss ++ tkRBrace :: rest)) =
    some tkLBrace from rfl]
  rw [if_neg (by decide)]
  rw [advance_cons]
  have hbe := hb rest (g + 6)
    (by simp only [tokensOf, List.length_cons, List.length_append,
          List.length_nil]; omega)
  simp only [tokensOf] at hbe
  simp only [List.cons_append, List.append_assoc, List.singleton_append,
    List.nil_append] at hbe
  rw [hbe]
  rfl

/-- One step of the expression loop, stated for a single rewrite. -/
theorem parse_expression_loop_cons (f : Nat) (prec : Precedence) (left : Node)
    (st : List Token) :
    parse_expression_loop (f + 1) prec left st =
      match next_tok st with
      | none => some (.ok left, st)
      | some next =>
          if next.token_type ≠ TokenType.Semicolon ∧
              prec < get_operator_precedence next then
            if infix_registered next.token_type then
              match parse_infix_dispatch f next.token_type left (st.tail) with
              | none => none
              | some (.error e, st') => some (.error e, st')
              | some (.ok left', st') => parse_expression_loop f prec left' st'
            else
              parse_expression_loop f prec left st
          else some (.ok left, st) := rfl

/-- The loop-stop condition implies the weaker dispatcher condition. -/
theorem restOK_dispRestOK (rest : List Token) (h : restOK rest) :
    dispRestOK rest := by
  cases rest with
  | nil => trivial
  | cons t r => exact h.2

/-- Fold tokens followed by a stopping rest satisfy the dispatcher
condition. -/
theorem dispRestOK_folds (fs : List CFold) (rest : List Token)
    (hw : wfFolds fs = true) (hr : restOK rest) :
    dispRestOK (foldsToks fs ++ rest) := by
  cases fs with
  | nil => exact restOK_dispRestOK rest hr
  | cons f0 fs2 =>
      cases f0 with
      | call A =>
          simp only [foldsToks, CFold.toks, List.cons_append, List.append_assoc]
          exact (by decide : ¬(tkLParen.token_type = TokenType.Else))
      | infx op r =>
          cases fs2 with
          | cons f1 fs3 =>
              have : wfFolds (CFold.infx op r :: f1 :: fs3) = false := rfl
              rw [this] at hw
              exact Bool.noConfusion hw
          | nil =>
              rw [wfFolds, Bool.and_eq_true] at hw
              have hop : op ∈ opLits := by
                have := hw.1
                exact List.elem_iff.mp this
              simp only [foldsToks, CFold.toks, List.cons_append, List.append_assoc]
              exact (op_facts op hop).2.2.2.1

/-- The cursor after a call fold and its successors. -/
theorem foldsLast_call_cons (cur : Token) (A : List Node) (fs2 : List CFold) :
    foldsLast cur (.call A :: fs2) = foldsLast tkRParen fs2 := by
  cases fs2 with
  | nil => rfl
  | cons f1 fs3 =>
      show foldsLast cur (f1 :: fs3) = foldsLast tkRParen (f1 :: fs3)
      exact foldsLast_ne_nil (f1 :: fs3) cur tkRParen (by simp)

/-- The infix dispatcher forwards every binary operator kind to the generic
infix parser. -/
theorem infix_dispatch_op (op : List String) (hop : op ∈ opLits) (f : Nat)
    (left : Node) (st : List Token) :
    parse_infix_dispatch (f + 1) (opTokenType op) left st =
      parse_infix_expression f left st := by
  fin_cases hop <;> rfl

/-- The empty fold list: the expression loop stops immediately. -/
theorem pl_nil : PL [] := by
  intro left cur prec rest f hf hrest hlt hfp
  obtain ⟨g, rfl⟩ : ∃ g, f = g + 1 := ⟨f - 1, by omega⟩
  simp only [foldsToks, List.nil_append, foldsApply, foldsLast]
  exact parse_expression_loop_stop g prec left cur rest hrest

/-- Assembling `parse_expression` correctness for a non-call head from the
dispatcher and the loop. -/
theorem pe_assemble (e : Node) (fs : List CFold)
    (hwf : wfE e = true) (hwfs : wfFolds fs = true)
    (hd : PD e) (hl : PL fs) : PE e fs := by
  intro prec rest f hf hrest hlt hfp
  obtain ⟨t, ts, he, hh, -⟩ := tokensOf_head_all (sizeOf e) e (Nat.le_refl _) hwf
  obtain ⟨g, rfl⟩ : ∃ g, f = g + 1 := ⟨f - 1, by omega⟩
  have hlen : (tokensOf e).length = ts.length + 1 := by rw [he]; rfl
  simp only [parse_expression]
  rw [he, List.cons_append]
  have hde := hd t ts (foldsToks fs ++ rest) g he (by omega)
    (dispRestOK_folds fs rest hwfs hrest)
  dsimp only
  rw [hde]
  dsimp only
  exact hl (canon e) (lastTok e) prec rest g (by omega) hrest hlt hfp

/-- One call fold of the expression loop. -/
theorem pl_call_cons (A : List Node) (fs2 : List CFold)
    (ha : PA A) (hl : PL fs2) : PL (.call A :: fs2) := by
  intro left cur prec rest f hf hrest hlt hfp
  simp only [foldsToks, CFold.toks, List.length_cons, List.length_append,
    List.length_nil] at hf
  obtain ⟨g, rfl⟩ : ∃ g, f = g + 4 := ⟨f - 4, by omega⟩
  simp only [foldsToks, CFold.toks, List.cons_append, List.append_assoc,
    List.singleton_append, List.nil_append]
  rw [parse_expression_loop_cons]
  simp only [next_tok, List.tail_cons, List.head?_cons]
  rw [if_pos (show ¬(tkLParen.token_type = TokenType.Semicolon) ∧
    prec < get_operator_precedence tkLParen from ⟨by decide, hlt⟩)]
  rw [if_pos (show infix_registered tkLParen.token_type = true from rfl)]
  simp only [parse_infix_dispatch]
  simp only [parse_call_expression]
  have hae := ha [] tkLParen (foldsToks fs2 ++ rest) (g + 1) (by omega)
  simp only [List.nil_append] at hae
  rw [hae]
  rw [show tkLParen.token_type = TokenType.LParenthesis from rfl]
  dsimp only
  have hle := hl (Node.CallExpression tkLParen left (canon_list A)) tkRParen
    prec rest (g + 3) (by omega) hrest hlt hfp
  rw [hle]
  rw [foldsLast_call_cons]
  rfl

/-- One final infix fold of the expression loop. -/
theorem pl_infx (op : List String) (r : Node)
    (hop : op ∈ opLits) (hwfr : wfE r = true) (hr : PE r []) :
    PL [.infx op r] := by
  intro left cur prec rest f hf hrest hlt hfp
  have hpl : prec = Precedence.Lowest := hfp.1
  subst hpl
  simp only [foldsToks, CFold.toks, List.length_cons, List.length_append,
    List.length_nil] at hf
  obtain ⟨g, rfl⟩ : ∃ g, f = g + 4 := ⟨f - 4, by omega⟩
  obtain ⟨tr, tsr, hr_toks, -, -⟩ := tokensOf_head_all (sizeOf r) r (Nat.le_refl _) hwfr
  simp only [foldsToks, CFold.toks, List.cons_append, List.append_assoc,
    List.singleton_append, List.append_nil, List.nil_append]
  rw [parse_expression_loop_cons]
  simp only [next_tok, List.tail_cons, List.head?_cons]
  rw [if_pos (show ¬((⟨opTokenType op, op⟩ : Token).token_type = TokenType.Semicolon) ∧
    Precedence.Lowest < get_operator_precedence ⟨opTokenType op, op⟩ from
    ⟨(op_facts op hop).2.1, (op_facts op hop).2.2.2.2.1⟩)]
  rw [if_pos ((op_facts op hop).1 :
    infix_registered (⟨opTokenType op, op⟩ : Token).token_type = true)]
  rw [infix_dispatch_op op hop (g + 2)]
  simp only [parse_infix_expression]
  rw [hr_toks]
  simp only [List.cons_append]
  rw [advance_cons]
  have hre := hr (get_operator_precedence ⟨opTokenType op, op⟩) rest (g + 1)
    (by simp only [foldsToks, List.length_nil]; omega)
    hrest ((op_facts op hop).2.2.2.2.2) trivial
  simp only [foldsToks, List.nil_append, foldsApply, foldsLast] at hre
  rw [hr_toks] at hre
  simp only [List.cons_append] at hre
  rw [hre]
  dsimp only
  rw [(by omega : g + 3 = g + 2 + 1)]
  rw [parse_expression_loop_stop (g + 2) Precedence.Lowest _ (lastTok r) rest hrest]
  rfl

/-- One step of the call-argument loop, stated for a single rewrite. -/
theorem parse_call_args_step (f : Nat) (acc : List Node) (st : List Token) :
    parse_call_args (f + 1) acc st =
      match st with
      | [] => none
      | [_] => some (.ok acc, st)
      | _ :: next :: rest =>
          if next.token_type = TokenType.RParenthesis then
            some (.ok acc, next :: rest)
          else
            match parse_expression f Precedence.Lowest (next :: rest) with
            | none => none
            | some (.error e, st') => some (.error e, st')
            | some (.ok arg, st') =>
                if (next_tok st').any (fun t => t.token_type = TokenType.RParenthesis) then
                  parse_call_args f (acc ++ [arg]) st'
                else
                  match next_tok st' with
                  | none => parse_call_args f (acc ++ [arg]) st'
                  | some t =>
                      if t.token_type ≠ TokenType.Comma then
                        some (.error ("Expected a comma, but got a " ++
                          String.join t.literal), advance_or_stay st')
                      else parse_call_args f (acc ++ [arg]) (advance_or_stay st') := rfl

/-- One step of the parameter loop, stated for a single rewrite. -/
theorem parse_fn_params_step (f : Nat) (acc : List Node) (st : List Token) :
    parse_fn_params (f + 1) acc st =
      match st with
      | [] => none
      | [_] => some (.ok acc, st)
      | _ :: next :: rest =>
          if next.token_type = TokenType.RParenthesis then
            some (.ok acc, next :: rest)
          else if next.token_type ≠ TokenType.Identifier then
            some (.error ("Expected a identifier, but got a " ++
              String.join next.literal), next :: rest)
          else
            let param := Node.Identifier next next.literal
            let stp := next :: rest
            if (next_tok stp).any (fun t => t.token_type = TokenType.RParenthesis) then
              parse_fn_params f (acc ++ [param]) stp
            else
              match next_tok stp with
              | none => parse_fn_params f (acc ++ [param]) stp
              | some t =>
                  if t.token_type ≠ TokenType.Comma then
                    some (.error ("Expected a comma, but got a " ++
                      String.join t.literal), advance_or_stay stp)
                  else parse_fn_params f (acc ++ [param]) (advance_or_stay stp) := rfl

/-- The empty argument list: the loop stops on the right parenthesis. -/
theorem pa_nil : PA [] := by
  intro acc cur rest f hf
  obtain ⟨g, rfl⟩ : ∃ g, f = g + 1 := ⟨f - 1, by omega⟩
  simp only [tokensOf_args, List.nil_append]
  rw [parse_call_args_step]
  dsimp only
  rw [if_pos (show tkRParen.token_type = TokenType.RParenthesis from rfl)]
  simp only [canon_list, List.append_nil]

/-- One parsed argument of the call-argument loop. -/
theorem pa_cons (a : Node) (A2 : List Node)
    (hwfa : wfE a = true) (hea : PE a []) (hrec : PA A2) : PA (a :: A2) := by
  intro acc cur rest f hf
  obtain ⟨ta, tsa, ha_toks, hh, -⟩ :=
    tokensOf_head_all (sizeOf a) a (Nat.le_refl _) hwfa
  have hlen : (tokensOf a).length = tsa.length + 1 := by rw [ha_toks]; rfl
  cases A2 with
  | nil =>
      simp only [tokensOf_args, List.length_append, List.length_cons,
        List.length_nil] at hf
      obtain ⟨g, rfl⟩ : ∃ g, f = g + 2 := ⟨f - 2, by omega⟩
      simp only [tokensOf_args]
      rw [ha_toks]
      simp only [List.cons_append, List.append_assoc, List.singleton_append,
        List.nil_append]
      rw [parse_call_args_step]
      dsimp only
      rw [if_neg (fun h => ((isExprHead_facts ta.token_type hh).2.2.1) h)]
      have hae := hea Precedence.Lowest (tkRParen :: rest) (g + 1)
        (by simp only [foldsToks, List.length_nil]; omega)
        (restOK_rparen rest) (by decide) trivial
      simp only [foldsToks, List.nil_append, foldsApply, foldsLast] at hae
      rw [ha_toks] at hae
      simp only [List.cons_append] at hae
      rw [hae]
      dsimp only
      rw [show next_tok (lastTok a :: tkRParen :: rest) = some tkRParen from rfl]
      rw [if_pos (show Option.any
        (fun t => decide (t.token_type = TokenType.RParenthesis))
        (some tkRParen) = true from rfl)]
      have hrec2 := hrec (acc ++ [canon a]) (lastTok a) rest (g + 1)
        (by simp only [tokensOf_args, List.length_nil]; omega)
      simp only [tokensOf_args, List.nil_append] at hrec2
      rw [hrec2]
      simp only [canon_list, List.append_nil, List.append_assoc,
        List.singleton_append]
  | cons b A3 =>
      simp only [tokensOf_args, List.length_append, List.length_cons,
        List.length_nil] at hf
      obtain ⟨g, rfl⟩ : ∃ g, f = g + 2 := ⟨f - 2, by omega⟩
      simp only [tokensOf_args]
      rw [ha_toks]
      simp only [List.cons_append, List.append_assoc, List.singleton_append,
        List.nil_append]
      rw [parse_call_args_step]
      dsimp only
      rw [if_neg (fun h => ((isExprHead_facts ta.token_type hh).2.2.1) h)]
      have hae := hea Precedence.Lowest
        (tkComma :: (tokensOf_args (b :: A3) ++ tkRParen :: rest)) (g + 1)
        (by simp only [foldsToks, List.length_nil]; omega)
        (restOK_comma _) (by decide) trivial
      simp only [foldsToks, List.nil_append, foldsApply, foldsLast] at hae
      rw [ha_toks] at hae
      simp only [List.cons_append] at hae
      rw [hae]
      dsimp only
      rw [show next_tok (lastTok a :: tkComma ::
        (tokensOf_args (b :: A3) ++ tkRParen :: rest)) = some tkComma from rfl]
      rw [if_neg (show ¬(Option.any
        (fun t => decide (t.token_type = TokenType.RParenthesis))
        (some tkComma) = true) by decide)]
      dsimp only
      rw [if_neg (show ¬(tkComma.token_type ≠ TokenType.Comma) from fun h => h rfl)]
      rw [advance_cons]
      have hrec2 := hrec (acc ++ [canon a]) tkComma rest (g + 1) (by omega)
      rw [hrec2]
      simp only [canon_list, List.append_assoc, List.singleton_append]

/-- The empty parameter list: the loop stops on the right parenthesis. -/
theorem pp_nil : PP [] := by
  intro acc cur rest f hf
  obtain ⟨g, rfl⟩ : ∃ g, f = g + 1 := ⟨f - 1, by omega⟩
  simp only [tokensOf_args, List.nil_append]
  rw [parse_fn_params_step]
  dsimp only
  rw [if_pos (show tkRParen.token_type = TokenType.RParenthesis from rfl)]
  simp only [canon_list, List.append_nil]

/-- One parsed identifier of the parameter loop. -/
theorem pp_cons (tp : Token) (v : List String) (ps2 : List Node)
    (hrec : PP ps2) : PP (.Identifier tp v :: ps2) := by
  intro acc cur rest f hf
  cases ps2 with
  | nil =>
      simp only [tokensOf_args, tokensOf, List.length_cons, List.length_nil] at hf
      obtain ⟨g, rfl⟩ : ∃ g, f = g + 1 := ⟨f - 1, by omega⟩
      simp only [tokensOf_args, tokensOf, List.cons_append, List.singleton_append,
        List.nil_append]
      rw [parse_fn_params_step]
      dsimp only
      rw [if_neg (show ¬(TokenType.Identifier = TokenType.RParenthesis) from
        fun h => TokenType.noConfusion h)]
      rw [if_neg (show ¬(TokenType.Identifier ≠ TokenType.Identifier) from
        fun h => h rfl)]
      rw [show next_tok ((⟨TokenType.Identifier, v⟩ : Token) :: tkRParen :: rest) =
        some tkRParen from rfl]
      rw [if_pos (show Option.any
        (fun t => decide (t.token_type = TokenType.RParenthesis))
        (some tkRParen) = true from rfl)]
      have hrec2 := hrec (acc ++ [Node.Identifier ⟨TokenType.Identifier, v⟩ v])
        ⟨TokenType.Identifier, v⟩ rest g
        (by simp only [tokensOf_args, List.length_nil]; omega)
      simp only [tokensOf_args, List.nil_append] at hrec2
      rw [hrec2]
      simp only [canon_list, canon, List.append_nil, List.append_assoc,
        List.singleton_append]
  | cons q ps3 =>
      simp only [tokensOf_args, tokensOf, List.length_cons, List.length_append,
        List.length_nil] at hf
      obtain ⟨g, rfl⟩ : ∃ g, f = g + 1 := ⟨f - 1, by omega⟩
      simp only [tokensOf_args, tokensOf, List.cons_append, List.singleton_append,
        List.nil_append]
      rw [parse_fn_params_step]
      dsimp only
      rw [if_neg (show ¬(TokenType.Identifier = TokenType.RParenthesis) from
        fun h => TokenType.noConfusion h)]
      rw [if_neg (show ¬(TokenType.Identifier ≠ TokenType.Identifier) from
        fun h => h rfl)]
      rw [show next_tok ((⟨TokenType.Identifier, v⟩ : Token) :: tkComma ::
        (tokensOf_args (q :: ps3) ++ tkRParen :: rest)) = some tkComma from rfl]
      rw [if_neg (show ¬(Option.any
        (fun t => decide (t.token_type = TokenType.RParenthesis))
        (some tkComma) = true) by decide)]
      dsimp only
      rw [if_neg (show ¬(tkComma.token_type ≠ TokenType.Comma) from fun h => h rfl)]
      rw [advance_cons]
      have hrec2 := hrec (acc ++ [Node.Identifier ⟨TokenType.Identifier, v⟩ v])
        tkComma rest g (by omega)
      rw [hrec2]
      simp only [canon_list, canon, List.append_assoc, List.singleton_append]

/-- One step of the block-statement loop, stated for a single rewrite. -/
theorem parse_block_loop_step (f : Nat) (token : Token) (acc : List Node)
    (cur : Token) (tl : List Token) :
    parse_block_loop (f + 1) token acc (cur :: tl) =
      if cur.token_type = TokenType.RBrace then
        some (.ok (.BlockStatement token acc), cur :: tl)
      else
        match parse_statement f (cur :: tl) with
        | none => none
        | some (.error e, st') => some (.error e, st')
        | some (.ok stmt, st') =>
            parse_block_loop f token (acc ++ [stmt]) (advance_or_stay st') := rfl

/-- The statement dispatcher on an opening brace. -/
theorem parse_statement_lbrace (f : Nat) (tl : List Token) :
    parse_statement (f + 1) (tkLBrace :: tl) =
      parse_block_statement f (tkLBrace :: tl) := rfl

/-- The statement dispatcher on the return keyword. -/
theorem parse_statement_return (f : Nat) (tl : List Token) :
    parse_statement (f + 1) (tkReturn :: tl) =
      parse_return_statement f (tkReturn :: tl) := rfl

/-- The statement dispatcher on an identifier token. -/
theorem parse_statement_ident (f : Nat) (lit : List String) (tl : List Token) :
    parse_statement (f + 1) ((⟨TokenType.Identifier, lit⟩ : Token) :: tl) =
      parse_assign_statement f ((⟨TokenType.Identifier, lit⟩ : Token) :: tl) := rfl

/-- The statement dispatcher falls through to an expression statement on
every non-identifier expression head. -/
theorem parse_statement_expr_head (f : Nat) (cur : Token) (tl : List Token)
    (h1 : isExprHead cur.token_type = true)
    (h2 : ¬(cur.token_type = TokenType.Identifier)) :
    parse_statement (f + 1) (cur :: tl) =
      parse_expression_statement f (cur :: tl) := by
  rcases cur with ⟨tt, lit⟩
  simp only at h1 h2
  simp only [parse_statement]
  cases tt <;> first
    | rfl
    | exact absurd h1 (by decide)
    | exact absurd rfl h2

/-- The printed statements of a block followed by the closing brace satisfy
the statement-follow condition. -/
theorem stmtFollowOK_blocklist (ss : List Node) (rest : List Token)
    (hw : wfS_list ss = true) :
    stmtFollowOK (tokensOf_list ss ++ tkRBrace :: rest) := by
  cases ss with
  | nil => exact (by decide : ¬(tkRBrace.token_type = TokenType.Semicolon))
  | cons s ss2 =>
      rw [wfS_list, Bool.and_eq_true] at hw
      obtain ⟨t, ts, hts, -, hns⟩ := tokensOf_stmt_head s hw.1
      rw [tokensOf_list, hts]
      simp only [List.cons_append, List.append_assoc]
      exact hns

/-- A printed block body with its closing brace is a nonempty token list. -/
theorem blocklist_head (ss : List Node) (rest : List Token)
    (hw : wfS_list ss = true) :
    ∃ u us, tokensOf_list ss ++ tkRBrace :: rest = u :: us := by
  cases ss with
  | nil => exact ⟨tkRBrace, rest, rfl⟩
  | cons s ss2 =>
      rw [wfS_list, Bool.and_eq_true] at hw
      obtain ⟨t, ts, hts, -, -⟩ := tokensOf_stmt_head s hw.1
      exact ⟨t, ts ++ (tokensOf_list ss2 ++ tkRBrace :: rest), by
        rw [tokensOf_list, hts]
        simp only [List.cons_append, List.append_assoc]⟩

/-- The block loop stops at the closing brace. -/
theorem pb_nil : PB [] := by
  intro tok acc rest f hf
  obtain ⟨g, rfl⟩ : ∃ g, f = g + 1 := ⟨f - 1, by omega⟩
  simp only [tokensOf_list, List.nil_append]
  rw [parse_block_loop_step]
  rw [if_pos (show tkRBrace.token_type = TokenType.RBrace from rfl)]
  simp only [canon_list, List.append_nil]

/-- One statement of the block loop. -/
theorem pb_cons (s : Node) (ss2 : List Node)
    (hwfs : wfS s = true) (hwl : wfS_list ss2 = true)
    (hs : PS s) (hrec : PB ss2) : PB (s :: ss2) := by
  intro tok acc rest f hf
  simp only [tokensOf_list, List.length_append] at hf
  obtain ⟨g, rfl⟩ : ∃ g, f = g + 1 := ⟨f - 1, by omega⟩
  obtain ⟨t, ts, hts, hnrb, -⟩ := tokensOf_stmt_head s hwfs
  have hlen : (tokensOf s).length = ts.length + 1 := by rw [hts]; rfl
  simp only [tokensOf_list, List.append_assoc]
  rw [hts, List.cons_append]
  rw [parse_block_loop_step]
  rw [if_neg hnrb]
  have hse := hs (tokensOf_list ss2 ++ tkRBrace :: rest) g (by omega)
    (stmtFollowOK_blocklist ss2 rest hwl)
  rw [hts, List.cons_append] at hse
  rw [hse]
  dsimp only
  obtain ⟨u, us, huu⟩ := blocklist_head ss2 rest hwl
  rw [huu, advance_cons]
  have hrec2 := hrec tok (acc ++ [canon s]) rest g (by omega)
  rw [huu] at hrec2
  rw [hrec2]
  simp only [canon_list, List.append_assoc, List.singleton_append]

/-- `parse_block_statement` correctness on a printed block. -/
theorem pblk (tb : Token) (ss : List Node)
    (hwl : wfS_list ss = true) (hpb : PB ss) : PBlk (.BlockStatement tb ss) := by
  intro rest f hf
  simp only [tokensOf, List.length_cons, List.length_append,
    List.length_nil] at hf
  obtain ⟨g, rfl⟩ : ∃ g, f = g + 1 := ⟨f - 1, by omega⟩
  simp only [tokensOf]
  simp only [List.cons_append, List.append_assoc, List.singleton_append,
    List.nil_append]
  simp only [parse_block_statement]
  obtain ⟨u, us, huu⟩ := blocklist_head ss rest hwl
  rw [huu, advance_cons]
  have hpe := hpb tkLBrace [] rest g (by omega)
  rw [huu] at hpe
  rw [hpe]
  simp only [List.nil_append]
  rfl

/-- `parse_statement` correctness on a printed block statement. -/
theorem ps_block (tb : Token) (ss : List Node)
    (hb : PBlk (.BlockStatement tb ss)) : PS (.BlockStatement tb ss) := by
  intro rest f hf hfollow
  obtain ⟨g, rfl⟩ : ∃ g, f = g + 1 := ⟨f - 1, by omega⟩
  have hst : tokensOf (Node.BlockStatement tb ss) ++ rest =
      tkLBrace :: (tokensOf_list ss ++ tkRBrace :: rest) := by
    rw [tokensOf]
    simp only [List.cons_append, List.append_assoc, List.singleton_append,
      List.nil_append]
  rw [hst, parse_statement_lbrace]
  have hbe := hb rest g (by omega)
  rw [hst] at hbe
  exact hbe

/-- `parse_statement` correctness on a printed return statement. -/
theorem ps_return (tok : Token) (v : Node)
    (hwfv : wfE v = true) (hv : PE v []) : PS (.ReturnStatement tok v) := by
  intro rest f hf hfollow
  simp only [tokensOf, List.length_cons, List.length_append,
    List.length_nil] at hf
  obtain ⟨g, rfl⟩ : ∃ g, f = g + 3 := ⟨f - 3, by omega⟩
  obtain ⟨tv, tsv, hv_toks, -, -⟩ :=
    tokensOf_head_all (sizeOf v) v (Nat.le_refl _) hwfv
  have hst : tokensOf (Node.ReturnStatement tok v) ++ rest =
      tkReturn :: (tv :: (tsv ++ tkSemi :: rest)) := by
    rw [tokensOf, hv_toks]
    simp only [List.cons_append, List.append_assoc, List.singleton_append,
      List.nil_append]
  rw [hst, parse_statement_return]
  simp only [parse_return_statement]
  rw [advance_cons]
  have hve := hv Precedence.Lowest (tkSemi :: rest) (g + 1)
    (by simp only [foldsToks, List.length_nil]; omega)
    (restOK_semi rest) (by decide) trivial
  simp only [foldsToks, List.nil_append, foldsApply, foldsLast] at hve
  rw [hv_toks] at hve
  simp only [List.cons_append] at hve
  rw [hve]
  dsimp only
  rw [eat_semis (lastTok v) rest hfollow]
  rfl

/-- `parse_statement` correctness on a printed assign statement. -/
theorem ps_assign (tok tn : Token) (v : List String) (value : Node)
    (hwfval : wfE value = true) (hval : PE value []) :
    PS (.AssignStatement tok (.Identifier tn v) value) := by
  intro rest f hf hfollow
  simp only [tokensOf, List.length_cons, List.length_append,
    List.length_nil] at hf
  obtain ⟨g, rfl⟩ : ∃ g, f = g + 3 := ⟨f - 3, by omega⟩
  obtain ⟨tv, tsv, hval_toks, -, -⟩ :=
    tokensOf_head_all (sizeOf value) value (Nat.le_refl _) hwfval
  have hst : tokensOf (Node.AssignStatement tok (.Identifier tn v) value) ++ rest =
      (⟨TokenType.Identifier, v⟩ : Token) :: (tkAssign ::
        (tv :: (tsv ++ tkSemi :: rest))) := by
    rw [tokensOf, tokensOf, hval_toks]
    simp only [List.cons_append, List.append_assoc, List.singleton_append,
      List.nil_append]
  rw [hst, parse_statement_ident]
  simp only [parse_assign_statement]
  rw [if_neg (show ¬(tkAssign.token_type ≠ TokenType.Assign) from fun h => h rfl)]
  rw [advance_cons]
  have hve := hval Precedence.Lowest (tkSemi :: rest) (g + 1)
    (by simp only [foldsToks, List.length_nil]; omega)
    (restOK_semi rest) (by decide) trivial
  simp only [foldsToks, List.nil_append, foldsApply, foldsLast] at hve
  rw [hval_toks] at hve
  simp only [List.cons_append] at hve
  rw [hve]
  dsimp only
  rw [eat_semis (lastTok value) rest hfollow]
  rfl

/-- `parse_statement` correctness on a printed expression statement
(including the assignment fallback on an identifier head). -/
theorem ps_exprstmt (tok : Token) (e : Node)
    (hwfe : wfE e = true) (hee : PE e []) : PS (.ExpressionStatement tok e) := by
  intro rest f hf hfollow
  simp only [tokensOf, List.length_append, List.length_cons,
    List.length_nil] at hf
  obtain ⟨g, rfl⟩ : ∃ g, f = g + 3 := ⟨f - 3, by omega⟩
  obtain ⟨t, ts, he, hh, hident⟩ :=
    tokensOf_head_all (sizeOf e) e (Nat.le_refl _) hwfe
  have hlen : (tokensOf e).length = ts.length + 1 := by rw [he]; rfl
  have hhead : headTokOf e = t := by rw [headTokOf, he]; rfl
  have hst : tokensOf (Node.ExpressionStatement tok e) ++ rest =
      t :: (ts ++ tkSemi :: rest) := by
    rw [tokensOf, he]
    simp only [List.cons_append, List.append_assoc, List.singleton_append,
      List.nil_append]
  have hexp : ∀ k, 8 * (tokensOf e).length + 8 ≤ k →
      parse_expression_statement k (t :: (ts ++ tkSemi :: rest)) =
        some (.ok (Node.ExpressionStatement t (canon e)), tkSemi :: rest) := by
    intro k hk
    obtain ⟨j, rfl⟩ : ∃ j, k = j + 1 := ⟨k - 1, by omega⟩
    simp only [parse_expression_statement]
    have hve := hee Precedence.Lowest (tkSemi :: rest) j
      (by simp only [foldsToks, List.length_nil]; omega)
      (restOK_semi rest) (by decide) trivial
    simp only [foldsToks, List.nil_append, foldsApply, foldsLast] at hve
    rw [he] at hve
    simp only [List.cons_append] at hve
    rw [hve]
    dsimp only
    rw [eat_semis (lastTok e) rest hfollow]
  rw [hst]
  by_cases hid : t.token_type = TokenType.Identifier
  · rcases t with ⟨tt, lit⟩
    simp only at hid
    subst hid
    rw [parse_statement_ident]
    simp only [parse_assign_statement]
    rcases hident rfl with rfl | ⟨t2, ts2, rfl, ht2⟩
    · simp only [List.nil_append] at hexp ⊢
      rw [if_pos (show tkSemi.token_type ≠ TokenType.Assign from
        fun h => TokenType.noConfusion h)]
      rw [hexp (g + 1) (by omega)]
      simp only [canon, lastTok, hhead]
    · simp only [List.cons_append] at hexp ⊢
      rw [if_pos (show t2.token_type ≠ TokenType.Assign from
        fun h => absurd (ht2.symm.trans h) (by decide))]
      rw [hexp (g + 1) (by omega)]
      simp only [canon, lastTok, hhead]
  · rw [parse_statement_expr_head (g + 2) t _ hh hid]
    rw [hexp (g + 2) (by omega)]
    simp only [canon, lastTok, hhead]

/-- Every token value has size at least three. -/
theorem token_sizeOf_ge3 (t : Token) : 3 ≤ sizeOf t := by
  rcases t with ⟨tt, lit⟩
  have h1 : 1 ≤ sizeOf tt := by cases tt <;> simp
  have h2 : 1 ≤ sizeOf lit := by cases lit <;> simp <;> omega
  simp
  omega

/-- Peeling one call off a call expression moves it into the fold list. -/
theorem pe_call_step (t : Token) (g : Node) (A : List Node) (fs : List CFold)
    (hrec : PE g (.call A :: fs)) : PE (.CallExpression t g A) fs := by
  intro prec rest f hf hrest hlt hfp
  have hre := hrec prec rest f
    (by simp only [tokensOf, foldsToks, CFold.toks, List.length_append,
          List.length_cons, List.length_nil] at hf ⊢; omega)
    hrest hlt (by exact hfp)
  simp only [tokensOf, foldsToks, CFold.toks, List.cons_append,
    List.append_assoc, List.singleton_append, List.nil_append] at hre ⊢
  rw [hre]
  rw [foldsLast_call_cons]
  rfl

/-- The joint parser-correctness statement holds at every size. -/
theorem parse_print_mega : ∀ n, MegaAt n := by
  intro n
  induction n using Nat.strong_induction_on with
  | _ n ih =>
  have ihPE : ∀ e fs, sizeOf e + sizeOf fs < n → wfE e = true →
      wfFolds fs = true → PE e fs :=
    fun e fs h => (ih (sizeOf e + sizeOf fs) h).2.2.1 e fs (Nat.le_refl _)
  have ihPL : ∀ fs, sizeOf fs < n → wfFolds fs = true → PL fs :=
    fun fs h => (ih (sizeOf fs) h).2.1 fs (Nat.le_refl _)
  have ihPA : ∀ A, sizeOf A < n → wfE_list A = true → PA A :=
    fun A h => (ih (sizeOf A) h).2.2.2.1 A (Nat.le_refl _)
  have ihPP : ∀ ps, sizeOf ps < n → wfIdentList ps = true → PP ps :=
    fun ps h => (ih (sizeOf ps) h).2.2.2.2.1 ps (Nat.le_refl _)
  have ihPBlk : ∀ b, sizeOf b < n → wfBlockNode b = true → PBlk b :=
    fun b h => (ih (sizeOf b) h).2.2.2.2.2.1 b (Nat.le_refl _)
  have ihPB : ∀ ss, sizeOf ss < n → wfS_list ss = true → PB ss :=
    fun ss h => (ih (sizeOf ss) h).2.2.2.2.2.2.2 ss (Nat.le_refl _)
  have hPD : ∀ e, sizeOf e ≤ n → notCall e = true → wfE e = true → PD e := by
    intro e hsize hnc hwf
    cases e with
    | Program ss => simp [wfE] at hwf
    | AssignStatement t a b => simp [wfE] at hwf
    | ReturnStatement t a => simp [wfE] at hwf
    | ExpressionStatement t a => simp [wfE] at hwf
    | BlockStatement t a => simp [wfE] at hwf
    | Identifier t v => exact pd_ident t v
    | IntegerLiteral t v =>
        rw [wfE] at hwf
        simp only [Bool.and_eq_true, decide_eq_true_eq] at hwf
        exact pd_int t v hwf.1 hwf.2
    | FloatLiteral t q =>
        rw [wfE] at hwf
        simp only [Bool.and_eq_true, decide_eq_true_eq, beq_iff_eq,
          Option.isSome_iff_exists] at hwf
        obtain ⟨⟨⟨h1, h2⟩, hg⟩, k, hk⟩ := hwf
        exact pd_float t q h1 h2 hg k hk
    | BooleanLiteral t b => exact pd_bool t b
    | StringLiteral t v => exact pd_string t v
    | PrefixExpression t op r =>
        rw [wfE] at hwf
        simp only [Bool.and_eq_true, Bool.or_eq_true, beq_iff_eq] at hwf
        have h3 := token_sizeOf_ge3 t
        exact pd_prefix t op r hwf.1 hwf.2
          (ihPE r [] (by simp at hsize ⊢; omega) hwf.2 rfl)
    | InfixExpression t l op r =>
        rw [wfE] at hwf
        simp only [Bool.and_eq_true] at hwf
        obtain ⟨⟨hcon, hwl⟩, hwr⟩ := hwf
        have h3 := token_sizeOf_ge3 t
        exact pd_infix t l op r hwl
          (ihPE l [.infx op r] (by simp at hsize ⊢; omega) hwl
            (by rw [wfFolds, Bool.and_eq_true]; exact ⟨hcon, hwr⟩))
    | IfExpression t c q a =>
        cases a with
        | none =>
            rw [wfE] at hwf
            simp only [Bool.and_eq_true, beq_iff_eq, Bool.and_true] at hwf
            obtain ⟨⟨hlit, hwc⟩, hwq⟩ := hwf
            cases q
            case BlockStatement tb ss =>
              exact pd_if_none t tb c ss hwc
                (ihPE c [] (by simp at hsize ⊢; omega) hwc rfl)
                (ihPBlk _ (by simp at hsize ⊢; omega) hwq)
            all_goals simp [wfBlockNode] at hwq
        | some alt =>
            rw [wfE] at hwf
            simp only [Bool.and_eq_true, beq_iff_eq] at hwf
            obtain ⟨⟨⟨hlit, hwc⟩, hwq⟩, hwa⟩ := hwf
            cases q
            case BlockStatement tb ss =>
              cases alt
              case BlockStatement ta ss2 =>
                exact pd_if_some t tb ta c ss ss2 hwc
                  (ihPE c [] (by simp at hsize ⊢; omega) hwc rfl)
                  (ihPBlk _ (by simp at hsize ⊢; omega) hwq)
                  (ihPBlk _ (by simp at hsize ⊢; omega) hwa)
              all_goals simp [wfBlockNode] at hwa
            all_goals simp [wfBlockNode] at hwq
    | WhileExpression t c b =>
        rw [wfE] at hwf
        simp only [Bool.and_eq_true, beq_iff_eq] at hwf
        obtain ⟨⟨hlit, hwc⟩, hwb⟩ := hwf
        cases b
        case BlockStatement tb ss =>
          exact pd_while t tb c ss hwc
            (ihPE c [] (by simp at hsize ⊢; omega) hwc rfl)
            (ihPBlk _ (by simp at hsize ⊢; omega) hwb)
        all_goals simp [wfBlockNode] at hwb
    | FunctionLiteral t nm ps b =>
        cases nm with
        | none =>
            rw [wfE] at hwf
            simp only [Bool.and_eq_true, beq_iff_eq, Bool.and_true] at hwf
            obtain ⟨⟨hlit, hps⟩, hwb⟩ := hwf
            cases b
            case BlockStatement tb ss =>
              exact pd_fn_none t tb ps ss
                (ihPP ps (by simp at hsize ⊢; omega) hps)
                (ihPBlk _ (by simp at hsize ⊢; omega) hwb)
            all_goals simp [wfBlockNode] at hwb
        | some nmv =>
            cases nmv
            case Identifier tn v =>
              rw [wfE] at hwf
              simp only [Bool.and_eq_true, beq_iff_eq] at hwf
              obtain ⟨⟨⟨hlit, hnm⟩, hps⟩, hwb⟩ := hwf
              cases b
              case BlockStatement tb ss =>
                exact pd_fn_some t tb tn v ps ss
                  (ihPP ps (by simp at hsize ⊢; omega) hps)
                  (ihPBlk _ (by simp at hsize ⊢; omega) hwb)
              all_goals simp [wfBlockNode] at hwb
            all_goals simp [wfE] at hwf
    | CallExpression t g A => exact Bool.noConfusion hnc
  have hPL : ∀ fs, sizeOf fs ≤ n → wfFolds fs = true → PL fs := by
    intro fs hsize hwf
    cases fs with
    | nil => exact pl_nil
    | cons f0 fs2 =>
        cases f0 with
        | call A =>
            rw [wfFolds, Bool.and_eq_true] at hwf
            exact pl_call_cons A fs2
              (ihPA A (by simp at hsize ⊢; omega) hwf.1)
              (ihPL fs2 (by simp at hsize ⊢; omega) hwf.2)
        | infx op r =>
            cases fs2 with
            | nil =>
                rw [wfFolds, Bool.and_eq_true] at hwf
                exact pl_infx op r (List.elem_iff.mp hwf.1) hwf.2
                  (ihPE r [] (by simp at hsize ⊢; omega) hwf.2 rfl)
            | cons f1 fs3 =>
                have hfalse : wfFolds (CFold.infx op r :: f1 :: fs3) = false := rfl
                rw [hfalse] at hwf
                exact Bool.noConfusion hwf
  have hPE : ∀ e fs, sizeOf e + sizeOf fs ≤ n → wfE e = true →
      wfFolds fs = true → PE e fs := by
    intro e fs hsize hwe hwf
    by_cases hnc : notCall e = true
    · have h1 : 1 ≤ sizeOf fs := by cases fs <;> simp <;> omega
      have h2 : 1 ≤ sizeOf e := by cases e <;> simp <;> omega
      exact pe_assemble e fs hwe hwf (hPD e (by omega) hnc hwe)
        (hPL fs (by omega) hwf)
    · cases e with
      | CallExpression t g A =>
          rw [wfE, Bool.and_eq_true] at hwe
          have h3 := token_sizeOf_ge3 t
          exact pe_call_step t g A fs
            (ihPE g (.call A :: fs) (by simp at hsize ⊢; omega) hwe.1
              (by rw [wfFolds, Bool.and_eq_true]; exact ⟨hwe.2, hwf⟩))
      | Program ss => exact absurd rfl hnc
      | AssignStatement t a b => exact absurd rfl hnc
      | ReturnStatement t a => exact absurd rfl hnc
      | ExpressionStatement t a => exact absurd rfl hnc
      | BlockStatement t a => exact absurd rfl hnc
      | Identifier t v => exact absurd rfl hnc
      | IntegerLiteral t v => exact absurd rfl hnc
      | FloatLiteral t q => exact absurd rfl hnc
      | BooleanLiteral t b => exact absurd rfl hnc
      | StringLiteral t v => exact absurd rfl hnc
      | PrefixExpression t op r => exact absurd rfl hnc
      | InfixExpression t l op r => exact absurd rfl hnc
      | IfExpression t c q a => exact absurd rfl hnc
      | WhileExpression t c b => exact absurd rfl hnc
      | FunctionLiteral t nm ps b => exact absurd rfl hnc
  have hPA : ∀ A, sizeOf A ≤ n → wfE_list A = true → PA A := by
    intro A hsize hwf
    cases A with
    | nil => exact pa_nil
    | cons a A2 =>
        rw [wfE_list, Bool.and_eq_true] at hwf
        have h1 : 1 ≤ sizeOf A2 := by cases A2 <;> simp <;> omega
        exact pa_cons a A2 hwf.1
          (hPE a [] (by simp at hsize ⊢; omega) hwf.1 rfl)
          (ihPA A2 (by simp at hsize ⊢; omega) hwf.2)
  have hPP : ∀ ps, sizeOf ps ≤ n → wfIdentList ps = true → PP ps := by
    intro ps hsize hwf
    cases ps with
    | nil => exact pp_nil
    | cons p ps2 =>
        cases p
        case Identifier tp v =>
          rw [wfIdentList, Bool.and_eq_true] at hwf
          exact pp_cons tp v ps2 (ihPP ps2 (by simp at hsize ⊢; omega) hwf.2)
        all_goals simp [wfIdentList] at hwf
  have hPBlk : ∀ b, sizeOf b ≤ n → wfBlockNode b = true → PBlk b := by
    intro b hsize hwf
    cases b
    case BlockStatement tb ss =>
      rw [wfBlockNode, Bool.and_eq_true] at hwf
      exact pblk tb ss hwf.2 (ihPB ss (by simp at hsize ⊢; omega) hwf.2)
    all_goals simp [wfBlockNode] at hwf
  have hPS : ∀ s, sizeOf s ≤ n → wfS s = true → PS s := by
    intro s hsize hwf
    cases s
    case AssignStatement t name value =>
      cases name
      case Identifier tn v =>
        rw [wfS] at hwf
        simp only [Bool.and_eq_true, beq_iff_eq] at hwf
        obtain ⟨⟨hlit, hident⟩, hwv⟩ := hwf
        exact ps_assign t tn v value hwv
          (hPE value [] (by simp at hsize ⊢; omega) hwv rfl)
      all_goals simp [wfS] at hwf
    case ReturnStatement t v =>
      rw [wfS] at hwf
      simp only [Bool.and_eq_true, beq_iff_eq] at hwf
      exact ps_return t v hwf.2 (hPE v [] (by simp at hsize ⊢; omega) hwf.2 rfl)
    case ExpressionStatement t e =>
      rw [wfS] at hwf
      exact ps_exprstmt t e hwf (hPE e [] (by simp at hsize ⊢; omega) hwf rfl)
    case BlockStatement t ss =>
      exact ps_block t ss (hPBlk _ hsize (by exact hwf))
    all_goals simp [wfS] at hwf
  have hPB : ∀ ss, sizeOf ss ≤ n → wfS_list ss = true → PB ss := by
    intro ss hsize hwf
    cases ss with
    | nil => exact pb_nil
    | cons s ss2 =>
        rw [wfS_list, Bool.and_eq_true] at hwf
        exact pb_cons s ss2 hwf.1 hwf.2
          (hPS s (by simp at hsize ⊢; omega) hwf.1)
          (ihPB ss2 (by simp at hsize ⊢; omega) hwf.2)
  exact ⟨hPD, hPL, hPE, hPA, hPP, hPBlk, hPS, hPB⟩

set_option maxHeartbeats 3200000 in
/-- The reparsed node is structurally equivalent to the printed one. -/
theorem canon_equiv_all : ∀ n : Nat,
    (∀ e : Node, sizeOf e ≤ n → node_equiv (canon e) e = true) ∧
    (∀ ss : List Node, sizeOf ss ≤ n → node_list_equiv (canon_list ss) ss = true) ∧
    (∀ a : Option Node, sizeOf a ≤ n → node_opt_equiv (canon_opt a) a = true) := by
  intro n
  induction n using Nat.strong_induction_on with
  | _ n ih =>
  have ihE : ∀ e : Node, sizeOf e < n → node_equiv (canon e) e = true :=
    fun e h => (ih (sizeOf e) h).1 e (Nat.le_refl _)
  have ihL : ∀ ss : List Node, sizeOf ss < n →
      node_list_equiv (canon_list ss) ss = true :=
    fun ss h => (ih (sizeOf ss) h).2.1 ss (Nat.le_refl _)
  have ihO : ∀ a : Option Node, sizeOf a < n →
      node_opt_equiv (canon_opt a) a = true :=
    fun a h => (ih (sizeOf a) h).2.2 a (Nat.le_refl _)
  refine ⟨?_, ?_, ?_⟩
  · intro e hsize
    cases e with
    | Program ss =>
        rw [canon, node_equiv]
        exact ihL ss (by simp at hsize ⊢; omega)
    | AssignStatement t a b =>
        rw [canon, node_equiv, Bool.and_eq_true]
        exact ⟨ihE a (by simp at hsize ⊢; omega), ihE b (by simp at hsize ⊢; omega)⟩
    | ReturnStatement t a =>
        rw [canon, node_equiv]
        exact ihE a (by simp at hsize ⊢; omega)
    | ExpressionStatement t a =>
        rw [canon, node_equiv]
        exact ihE a (by simp at hsize ⊢; omega)
    | BlockStatement t ss =>
        rw [canon, node_equiv]
        exact ihL ss (by simp at hsize ⊢; omega)
    | Identifier t v => rw [canon, node_equiv]; simp
    | IntegerLiteral t v => rw [canon, node_equiv]; simp
    | FloatLiteral t q => rw [canon, node_equiv]; simp
    | BooleanLiteral t b => rw [canon, node_equiv]; simp
    | StringLiteral t v => rw [canon, node_equiv]; simp
    | PrefixExpression t op r =>
        rw [canon, node_equiv, Bool.and_eq_true]
        exact ⟨by simp, ihE r (by simp at hsize ⊢; omega)⟩
    | InfixExpression t l op r =>
        rw [canon, node_equiv]
        simp only [Bool.and_eq_true]
        exact ⟨⟨ihE l (by simp at hsize ⊢; omega), by simp⟩,
          ihE r (by simp at hsize ⊢; omega)⟩
    | IfExpression t c q a =>
        rw [canon, node_equiv]
        simp only [Bool.and_eq_true]
        exact ⟨⟨ihE c (by simp at hsize ⊢; omega),
          ihE q (by simp at hsize ⊢; omega)⟩,
          ihO a (by simp at hsize ⊢; omega)⟩
    | WhileExpression t c b =>
        rw [canon, node_equiv, Bool.and_eq_true]
        exact ⟨ihE c (by simp at hsize ⊢; omega), ihE b (by simp at hsize ⊢; omega)⟩
    | FunctionLiteral t nm ps b =>
        rw [canon, node_equiv]
        simp only [Bool.and_eq_true]
        exact ⟨⟨ihO nm (by simp at hsize ⊢; omega),
          ihL ps (by simp at hsize ⊢; omega)⟩,
          ihE b (by simp at hsize ⊢; omega)⟩
    | CallExpression t f A =>
        rw [canon, node_equiv, Bool.and_eq_true]
        exact ⟨ihE f (by simp at hsize ⊢; omega), ihL A (by simp at hsize ⊢; omega)⟩
  · intro ss hsize
    cases ss with
    | nil => rfl
    | cons s rest =>
        rw [canon_list, node_list_equiv, Bool.and_eq_true]
        exact ⟨ihE s (by simp at hsize ⊢; omega),
          ihL rest (by simp at hsize ⊢; omega)⟩
  · intro a hsize
    cases a with
    | none => rfl
    | some x =>
        rw [canon_opt, node_opt_equiv]
        exact ihE x (by simp at hsize ⊢; omega)

set_option maxHeartbeats 3200000 in
/-- Printing the reparsed node reproduces the printed text. -/
theorem print_canon_all : ∀ n : Nat,
    (∀ s : Node, sizeOf s ≤ n → wfS s = true →
        Node.string (canon s) = Node.string s) ∧
    (∀ e : Node, sizeOf e ≤ n → wfE e = true →
        Node.string (canon e) = Node.string e) ∧
    (∀ ss : List Node, sizeOf ss ≤ n → wfS_list ss = true →
        Node.string_concat (canon_list ss) = Node.string_concat ss) ∧
    (∀ A : List Node, sizeOf A ≤ n → wfE_list A = true →
        Node.string_join_comma (canon_list A) = Node.string_join_comma A) := by
  intro n
  induction n using Nat.strong_induction_on with
  | _ n ih =>
  have ihS : ∀ s : Node, sizeOf s < n → wfS s = true →
      Node.string (canon s) = Node.string s :=
    fun s h => (ih (sizeOf s) h).1 s (Nat.le_refl _)
  have ihE : ∀ e : Node, sizeOf e < n → wfE e = true →
      Node.string (canon e) = Node.string e :=
    fun e h => (ih (sizeOf e) h).2.1 e (Nat.le_refl _)
  have ihL : ∀ ss : List Node, sizeOf ss < n → wfS_list ss = true →
      Node.string_concat (canon_list ss) = Node.string_concat ss :=
    fun ss h => (ih (sizeOf ss) h).2.2.1 ss (Nat.le_refl _)
  have ihA : ∀ A : List Node, sizeOf A < n → wfE_list A = true →
      Node.string_join_comma (canon_list A) = Node.string_join_comma A :=
    fun A h => (ih (sizeOf A) h).2.2.2 A (Nat.le_refl _)
  refine ⟨?_, ?_, ?_, ?_⟩
  · intro s hsize hwf
    cases s
    case AssignStatement t name value =>
      cases name
      case Identifier tn v =>
        rw [wfS] at hwf
        simp only [Bool.and_eq_true, beq_iff_eq] at hwf
        obtain ⟨⟨hlit, hiv⟩, hwv⟩ := hwf
        simp only [canon, Node.string, tkAssign]
        rw [hlit, ihE value (by simp at hsize ⊢; omega) hwv]
      all_goals simp [wfS] at hwf
    case ReturnStatement t v =>
      rw [wfS] at hwf
      simp only [Bool.and_eq_true, beq_iff_eq] at hwf
      simp only [canon, Node.string, tkReturn]
      rw [hwf.1, ihE v (by simp at hsize ⊢; omega) hwf.2]
    case ExpressionStatement t e =>
      rw [wfS] at hwf
      simp only [canon, Node.string]
      rw [ihE e (by simp at hsize ⊢; omega) hwf]
    case BlockStatement t ss =>
      rw [wfS] at hwf
      simp only [Bool.and_eq_true, beq_iff_eq] at hwf
      simp only [canon, Node.string, tkLBrace]
      rw [hwf.1, ihL ss (by simp at hsize ⊢; omega) hwf.2]
    all_goals simp [wfS] at hwf
  · intro e hsize hwf
    cases e
    case Identifier t v => rfl
    case IntegerLiteral t v => rfl
    case FloatLiteral t q => rfl
    case StringLiteral t v => rfl
    case BooleanLiteral t b =>
      rw [wfE] at hwf
      simp only [beq_iff_eq] at hwf
      cases b <;> simp [canon, Node.string, hwf, tkTrue, tkFalse]
    case PrefixExpression t op r =>
      rw [wfE] at hwf
      simp only [Bool.and_eq_true] at hwf
      simp only [canon, Node.string]
      rw [ihE r (by simp at hsize ⊢; omega) hwf.2]
    case InfixExpression t l op r =>
      rw [wfE] at hwf
      simp only [Bool.and_eq_true] at hwf
      simp only [canon, Node.string]
      rw [ihE l (by simp at hsize ⊢; omega) hwf.1.2,
        ihE r (by simp at hsize ⊢; omega) hwf.2]
    case IfExpression t c q a =>
      cases a with
      | none =>
          rw [wfE] at hwf
          simp only [Bool.and_eq_true, beq_iff_eq, Bool.and_true] at hwf
          obtain ⟨⟨hlit, hwc⟩, hwq⟩ := hwf
          simp only [canon, canon_opt, Node.string, tkIf]
          rw [hlit, ihE c (by simp at hsize ⊢; omega) hwc,
            ihS q (by simp at hsize ⊢; omega) (wfBlockNode_wfS q hwq)]
      | some alt =>
          rw [wfE] at hwf
          simp only [Bool.and_eq_true, beq_iff_eq] at hwf
          obtain ⟨⟨⟨hlit, hwc⟩, hwq⟩, hwa⟩ := hwf
          simp only [canon, canon_opt, Node.string, tkIf]
          rw [hlit, ihE c (by simp at hsize ⊢; omega) hwc,
            ihS q (by simp at hsize ⊢; omega) (wfBlockNode_wfS q hwq),
            ihS alt (by simp at hsize ⊢; omega) (wfBlockNode_wfS alt hwa)]
    case WhileExpression t c b =>
      rw [wfE] at hwf
      simp only [Bool.and_eq_true, beq_iff_eq] at hwf
      obtain ⟨⟨hlit, hwc⟩, hwb⟩ := hwf
      simp only [canon, Node.string, tkWhile]
      rw [hlit, ihE c (by simp at hsize ⊢; omega) hwc,
        ihS b (by simp at hsize ⊢; omega) (wfBlockNode_wfS b hwb)]
    case FunctionLiteral t nm ps b =>
      cases nm with
      | none =>
          rw [wfE] at hwf
          simp only [Bool.and_eq_true, beq_iff_eq, Bool.and_true] at hwf
          obtain ⟨⟨hlit, hps⟩, hwb⟩ := hwf
          simp only [canon, canon_opt, Node.string, tkFunction]
          rw [hlit, ihA ps (by simp at hsize ⊢; omega) (wfIdentList_wfE_list ps hps),
            ihS b (by simp at hsize ⊢; omega) (wfBlockNode_wfS b hwb)]
      | some nmv =>
          cases nmv
          case Identifier tn v =>
            rw [wfE] at hwf
            simp only [Bool.and_eq_true, beq_iff_eq] at hwf
            obtain ⟨⟨⟨hlit, hnm⟩, hps⟩, hwb⟩ := hwf
            simp only [canon, canon_opt, Node.string, tkFunction]
            rw [hlit, ihA ps (by simp at hsize ⊢; omega) (wfIdentList_wfE_list ps hps),
              ihS b (by simp at hsize ⊢; omega) (wfBlockNode_wfS b hwb)]
          all_goals simp [wfE] at hwf
    case CallExpression t f A =>
      rw [wfE] at hwf
      simp only [Bool.and_eq_true] at hwf
      simp only [canon, Node.string]
      rw [ihE f (by simp at hsize ⊢; omega) hwf.1,
        ihA A (by simp at hsize ⊢; omega) hwf.2]
    all_goals simp [wfE] at hwf
  · intro ss hsize hwf
    cases ss with
    | nil => rfl
    | cons s rest =>
        rw [wfS_list, Bool.and_eq_true] at hwf
        simp only [canon_list, Node.string_concat]
        rw [ihS s (by simp at hsize ⊢; omega) hwf.1,
          ihL rest (by simp at hsize ⊢; omega) hwf.2]
  · intro A hsize hwf
    cases A with
    | nil => rfl
    | cons a rest =>
        rw [wfE_list, Bool.and_eq_true] at hwf
        cases rest with
        | nil =>
            simp only [canon_list, Node.string_join_comma]
            exact ihE a (by simp at hsize ⊢; omega) hwf.1
        | cons b rest2 =>
            have hrec := ihA (b :: rest2) (by simp at hsize ⊢; omega) hwf.2
            simp only [canon_list] at hrec
            simp only [canon_list, Node.string_join_comma]
            rw [ihE a (by simp at hsize ⊢; omega) hwf.1, hrec]

/-- One step of the program loop, stated for a single rewrite. -/
theorem parse_program_loop_step (f : Nat) (acc : List Node)
    (errors : List String) (st : List Token) :
    parse_program_loop (f + 1) acc errors st =
      match st with
      | [] => some (.Program acc, errors)
      | [_] => some (.Program acc, errors)
      | _ :: next :: rest =>
          match parse_statement f (next :: rest) with
          | none => none
          | some (.ok stmt, st') => parse_program_loop f (acc ++ [stmt]) errors st'
          | some (.error e, st') =>
              parse_program_loop f acc (errors ++ [e]) st' := rfl

/-- Printed statements satisfy the statement-follow condition. -/
theorem stmtFollowOK_list (ss : List Node) (hw : wfS_list ss = true) :
    stmtFollowOK (tokensOf_list ss) := by
  cases ss with
  | nil => trivial
  | cons s ss2 =>
      rw [wfS_list, Bool.and_eq_true] at hw
      obtain ⟨t, ts, hts, -, hns⟩ := tokensOf_stmt_head s hw.1
      rw [tokensOf_list, hts]
      simp only [List.cons_append, List.append_assoc]
      exact hns

/-- The program loop parses every printed statement into its canonical
form, reporting no errors. -/
theorem parse_program_loop_print : ∀ (ss : List Node), wfS_list ss = true →
    ∀ (cur : Token) (acc : List Node) (errs : List String) (f : Nat),
      8 * (tokensOf_list ss).length + 8 ≤ f →
      parse_program_loop f acc errs (cur :: tokensOf_list ss) =
        some (.Program (acc ++ canon_list ss), errs) := by
  intro ss
  induction ss with
  | nil =>
      intro hw cur acc errs f hf
      obtain ⟨g, rfl⟩ : ∃ g, f = g + 1 := ⟨f - 1, by omega⟩
      rw [parse_program_loop_step]
      simp only [tokensOf_list, canon_list, List.append_nil]
  | cons s ss2 ihss =>
      intro hw cur acc errs f hf
      rw [wfS_list, Bool.and_eq_true] at hw
      simp only [tokensOf_list, List.length_append] at hf
      obtain ⟨g, rfl⟩ : ∃ g, f = g + 1 := ⟨f - 1, by omega⟩
      obtain ⟨t, ts, hts, -, -⟩ := tokensOf_stmt_head s hw.1
      have hlen : (tokensOf s).length = ts.length + 1 := by rw [hts]; rfl
      rw [parse_program_loop_step]
      simp only [tokensOf_list, List.append_assoc]
      rw [hts, List.cons_append]
      dsimp only
      have hse := (parse_print_mega (sizeOf s)).2.2.2.2.2.2.1 s (Nat.le_refl _) hw.1
        (tokensOf_list ss2) g (by omega) (stmtFollowOK_list ss2 hw.2)
      rw [hts, List.cons_append] at hse
      rw [hse]
      dsimp only
      have hrec := ihss hw.2 (lastTok s) (acc ++ [canon s]) errs g (by omega)
      rw [hrec]
      simp only [canon_list, List.append_assoc, List.singleton_append]

/-- Tokenizing the printed program yields the start sentinel and the
canonical token stream. -/
theorem tokenize_print (ss : List Node) (hw : wfS_list ss = true) :
    tokenize (Node.string (.Program ss)) = Token.start :: tokensOf_list ss := by
  rw [tokenize]
  rw [show Node.string (.Program ss) = Node.string_concat ss from rfl]
  have hlx := (lex_print_mega (sizeOf ss)).2.2.1 ss (Nat.le_refl _) hw []
    ((Node.string_concat ss).length + 1)
    (by simp only [List.append_nil]; omega)
  simp only [List.append_nil, List.length_nil] at hlx
  rw [hlx]
  rw [show tokenize_loop 0 [] = [] from rfl, List.append_nil]

/-- Parsing the tokenized printed program succeeds with the canonical
statements and no errors. -/
theorem program_roundtrip (ss : List Node) (hw : wfS_list ss = true) :
    parse_program (tokenize (Node.string (.Program ss))) =
      some (.Program (canon_list ss), []) := by
  rw [tokenize_print ss hw]
  rw [parse_program]
  have h := parse_program_loop_print ss hw Token.start [] [] (default_fuel (Token.start :: tokensOf_list ss))
    (by rw [default_fuel]; simp only [List.length_cons]; omega)
  simpa using h

/-- C6 (amended): the spec's round-trip claim holds on every wellformed
program AST — the shape a successful parse produces, restricted to
non-integral float literals: pretty-printing with `Node.string`,
re-tokenizing and re-parsing succeeds with no errors, the re-parsed AST is
the canonical form of the original (stored tokens replaced by their re-lexed
forms), that canonical form is structurally equivalent to the original, and
printing the re-parsed AST reproduces the printed text.  Without the float
restriction the claim is false: `c6_float_roundtrip_counterexample` shows an
integral float re-parses as an integer literal, a structurally different
AST. -/
theorem c6_print_parse_print_roundtrip_amended (ss : List Node)
    (hw : wfS_list ss = true) :
    parse_program (tokenize (Node.string (.Program ss))) =
      some (canon (.Program ss), []) ∧
    node_equiv (canon (.Program ss)) (.Program ss) = true ∧
    Node.string (canon (.Program ss)) = Node.string (.Program ss) := by
  refine ⟨?_, ?_, ?_⟩
  · rw [show canon (.Program ss) = .Program (canon_list ss) from rfl]
    exact program_roundtrip ss hw
  · exact (canon_equiv_all (sizeOf (Node.Program ss))).1 _ (Nat.le_refl _)
  · rw [show canon (.Program ss) = .Program (canon_list ss) from rfl]
    rw [show Node.string (Node.Program (canon_list ss)) =
      Node.string_concat (canon_list ss) from rfl]
    rw [show Node.string (Node.Program ss) = Node.string_concat ss from rfl]
    exact (print_canon_all (sizeOf ss)).2.2.1 ss (Nat.le_refl _) hw

/-- C6 witness: the amended round-trip theorem applied at the concrete
wellformed program `(3/2 ➕ 1) ↙️`. -/
theorem c6_print_parse_print_roundtrip_amended_witness :
    wfS_list c6Prog = true ∧
    (parse_program (tokenize (Node.string (.Program c6Prog))) =
        some (canon (.Program c6Prog), []) ∧
      node_equiv (canon (.Program c6Prog)) (.Program c6Prog) = true ∧
      Node.string (canon (.Program c6Prog)) = Node.string (.Program c6Prog)) :=
  ⟨by decide, c6_print_parse_print_roundtrip_amended c6Prog (by decide)⟩

end Emo
















